import Mathlib

/-!
UPF reader: parsing protocol and total-potential reconstruction

A shallow embedding of `UPFReader` (src/UPF_reader/UPF_reader.cpp) and of the
published globals (src/globals/globals.cpp).

Conventions of the embedding.

* Reals (`double`) are rationals: arithmetic is exact.
* The text of a numeric node is a list of `Token`s, one per whitespace-separated
  field, classified by what stream extraction into a `double` makes of it: the
  field is a real, it starts with a real and goes on with characters that do
  not convert, or it does not start with a real.
* `std::map<int, V>` is an association list kept in ascending key order by
  `map_assign`; `map_subscript` is `operator[]`, which creates a missing key.
* `std::map<OrbitalType, std::vector<OrbitalData>>` has three possible keys and
  is a record of three optional vectors (`none` = key absent).
* An exception (`std::map::at` on a missing key) and undefined behaviour are
  outcomes of their own, reported together with the state reached when they
  happen.
* A vector subscript past the end is undefined behaviour, and what happens
  depends on the build, so the loop of `parse` is embedded twice. `parse` is the
  build with checked subscripts (the run stops at the first subscript past the
  end): it says which subscripts are within range. `parse_plain` is the plain
  build, in which `operator[]` reads on and delivers whatever lies past the end
  (a `Memory`); it covers every run that the code completes. The integer
  division by zero stops both, and it is all that stops the plain build
  (`parse_plain_undefined`). On the runs that the checked build does not stop,
  the two builds agree in outcome and state (`parse_plain_of_checked`).
* `l_max` is the `int` read from the header; it is assumed to be below the
  largest `int`, so that `++l` in the channel loops does not overflow.
-/

namespace UPF

/-! ## Numeric text -/

/-- One whitespace-separated field of a numeric text node, as stream extraction
into a `double` meets it: `num v` is a field that is a real; `lead v` is a field
that starts with a real and goes on with characters that do not convert (such
as `0.2x`), of which extraction converts the real and then stands inside the
field; `bad` is a field that does not start with a real. A field that extraction
reads as several reals (`1.5.3` is read as `1.5` and `.3`) counts as that many
`num` fields. -/
inductive Token where
  | num (v : ℚ)
  | lead (v : ℚ)
  | bad
  deriving DecidableEq, Repr

/-- Stream extraction `iss >> value`: the value and the rest of the stream, or
`none` when the stream is exhausted or what comes next does not convert. After
the real at the head of a `lead` field the stream stands at characters that do
not convert. -/
def extract : List Token → Option (ℚ × List Token)
  | Token.num v :: rest => some (v, rest)
  | Token.lead v :: rest => some (v, Token.bad :: rest)
  | _ => none

/-- The loop `while (iss >> value) values.push_back(value);`: the reals of the
fields up to the first one that is not entirely a real, the real at the head of
that field included. -/
def read_values : List Token → List ℚ
  | Token.num v :: rest => v :: read_values rest
  | Token.lead v :: _ => [v]
  | _ => []

/-! ## `std::map<int, V>` -/

/-- Lookup of a key (`find`, `at`). -/
def map_find {V : Type} : List (Int × V) → Int → Option V
  | [], _ => none
  | (k, v) :: rest, key => if key = k then some v else map_find rest key

/-- Assignment `m[key] = v`: replaces the value of an existing key, otherwise
inserts the key at its place in ascending order. -/
def map_assign {V : Type} : List (Int × V) → Int → V → List (Int × V)
  | [], key, v => [(key, v)]
  | (k, w) :: rest, key, v =>
    if key < k then (key, v) :: (k, w) :: rest
    else if key = k then (key, v) :: rest
    else (k, w) :: map_assign rest key v

/-- Reading `m[key]`: the stored value, or a value-initialised one inserted on
the spot when the key is absent. -/
def map_subscript {V : Type} (m : List (Int × V)) (key : Int) (dflt : V) :
    V × List (Int × V) :=
  match map_find m key with
  | some v => (v, m)
  | none => (dflt, map_assign m key dflt)

/-! ## Data model -/

/-- Header record `UPFReader::Header`. -/
structure Header where
  element : String
  pseudo_type : String
  z_valence : ℚ
  mesh_size : Int
  l_max : Int
  is_ultrasoft : Bool
  has_so : Bool
  deriving DecidableEq, Repr

/-- Published header `UPFHeader` (globals.hpp). -/
structure UPFHeader where
  element : String
  pseudo_type : String
  z_valence : ℚ
  mesh_size : Int
  l_max : Int
  is_ultrasoft : Bool
  has_so : Bool
  deriving DecidableEq, Repr

/-- Record `UPFReader::OrbitalData`; `l` is the `QuantumNumber`, an enumeration
over `int` (S = 0, P = 1, D = 2, F = 3) that `static_cast` fills from the
channel index. -/
structure OrbitalData where
  values : List ℚ
  projector : List ℚ
  l : Int
  deriving DecidableEq, Repr

/-- Published record `GlobalOrbitalData` (globals.hpp). -/
structure GlobalOrbitalData where
  values : List ℚ
  projector : List ℚ
  l : Int
  deriving DecidableEq, Repr

/-- The map `orbitals_`, keyed by `OrbitalType`; `none` is an absent key. -/
structure Orbitals where
  LOCAL : Option (List OrbitalData)
  NONLOCAL : Option (List OrbitalData)
  WAVEFUNCTION : Option (List OrbitalData)
  deriving DecidableEq, Repr

/-- Private state of a `UPFReader` that outlives a call of `parse`. -/
structure UPFReader where
  header_ : Header
  r_mesh_ : List ℚ
  orbitals_ : Orbitals
  d_coefficients_ : List (Int × List (List ℚ))
  deriving DecidableEq, Repr

/-- The published globals of globals.cpp. -/
structure Globals where
  g_upf_data_valid : Bool
  g_upf_header : UPFHeader
  g_r_mesh : List ℚ
  g_orbitals : List (Int × List GlobalOrbitalData)
  g_local_potential : List ℚ
  g_nonlocal_potentials : List (Int × List ℚ)
  g_projectors : List (Int × List ℚ)
  g_total_potentials : List (Int × List ℚ)
  deriving DecidableEq, Repr

/-! ## The document -/

/-- Attributes of the `PP_HEADER` node as `as_string`, `as_double` and `as_int`
return them (an absent attribute gives the empty string or zero). -/
structure HeaderNode where
  element : String
  pseudo_type : String
  z_valence : ℚ
  mesh_size : Int
  l_max : Int
  is_ultrasoft : String
  has_so : String

/-- The `PP_NONLOCAL` node: `beta n` is the child `PP_BETA.n`, `proj n` the
child `PP_BETA_n`, `dij` the child `PP_DIJ`; each is the text of the node, or
`none` when there is no such child. -/
structure NonlocalNode where
  beta : Nat → Option (List Token)
  proj : Nat → Option (List Token)
  dij : Option (List Token)

/-- The `PP_CHI` node: `wfc n` is the child `PP_CHI.n`. -/
structure ChiNode where
  wfc : Nat → Option (List Token)

/-- The loaded document, as the children of the `UPF` root that the reader
looks at: `PP_HEADER`, `PP_MESH/PP_R`, `PP_LOCAL`, `PP_NONLOCAL`, `PP_CHI`. -/
structure Document where
  header : Option HeaderNode
  mesh : Option (List Token)
  localp : Option (List Token)
  nonlocal : Option NonlocalNode
  chi : Option ChiNode

/-! ## Section decoders -/

/-- The channel indices visited by `for (int l = 0; l <= header_.l_max; ++l)`. -/
def channels (l_max : Int) : List Nat := List.range (l_max + 1).toNat

/-- The constructor `UPFReader::UPFReader`: default header, empty containers. -/
def UPFReader.fresh : UPFReader :=
  { header_ := { element := "", pseudo_type := "", z_valence := 0, mesh_size := 0,
                 l_max := 0, is_ultrasoft := false, has_so := false }
    r_mesh_ := []
    orbitals_ := { LOCAL := none, NONLOCAL := none, WAVEFUNCTION := none }
    d_coefficients_ := [] }

/-- The globals as globals.cpp initialises them. -/
def Globals.initial : Globals :=
  { g_upf_data_valid := false
    g_upf_header := { element := "", pseudo_type := "", z_valence := 0, mesh_size := 0,
                      l_max := 0, is_ultrasoft := false, has_so := false }
    g_r_mesh := []
    g_orbitals := []
    g_local_potential := []
    g_nonlocal_potentials := []
    g_projectors := []
    g_total_potentials := [] }

/-- Decoder `UPFReader::parse_header`. -/
def parse_header (doc : Document) (rd : UPFReader) : Bool × UPFReader :=
  match doc.header with
  | none => (false, rd)
  | some h =>
    (true, { rd with header_ :=
      { element := h.element
        pseudo_type := h.pseudo_type
        z_valence := h.z_valence
        mesh_size := h.mesh_size
        l_max := h.l_max
        is_ultrasoft := decide (h.is_ultrasoft = "T")
        has_so := decide (h.has_so = "T") } })

/-- Decoder `UPFReader::parse_mesh`: the values are appended to `r_mesh_`. -/
def parse_mesh (doc : Document) (rd : UPFReader) : Bool × UPFReader :=
  match doc.mesh with
  | none => (false, rd)
  | some toks => (true, { rd with r_mesh_ := rd.r_mesh_ ++ read_values toks })

/-- The statement `orbitals_[OrbitalType::LOCAL].push_back(data)`. -/
def Orbitals.push_local (o : Orbitals) (d : OrbitalData) : Orbitals :=
  { o with LOCAL := some (o.LOCAL.getD [] ++ [d]) }

/-- The statement `orbitals_[OrbitalType::NONLOCAL].push_back(data)`. -/
def Orbitals.push_nonlocal (o : Orbitals) (d : OrbitalData) : Orbitals :=
  { o with NONLOCAL := some (o.NONLOCAL.getD [] ++ [d]) }

/-- The statement `orbitals_[OrbitalType::WAVEFUNCTION].push_back(data)`. -/
def Orbitals.push_wavefunction (o : Orbitals) (d : OrbitalData) : Orbitals :=
  { o with WAVEFUNCTION := some (o.WAVEFUNCTION.getD [] ++ [d]) }

/-- The expression `orbitals_[OrbitalType::NONLOCAL]` used as a range: creates
the key when it is absent. -/
def Orbitals.touch_nonlocal (o : Orbitals) : Orbitals :=
  { o with NONLOCAL := some (o.NONLOCAL.getD []) }

/-- Decoder `UPFReader::parse_local`. -/
def parse_local (doc : Document) (rd : UPFReader) : Bool × UPFReader :=
  match doc.localp with
  | none => (true, rd)
  | some toks =>
    let values := read_values toks
    if values ≠ [] then
      (true, { rd with orbitals_ :=
        rd.orbitals_.push_local { values := values, projector := [], l := 0 } })
    else (true, rd)

/-- Body of the channel loop of `parse_nonlocal`. -/
def parse_nonlocal_channel (nl : NonlocalNode) (o : Orbitals) (l : Nat) : Orbitals :=
  match nl.beta (l + 1) with
  | none => o
  | some beta_toks =>
    let values := read_values beta_toks
    let projector :=
      match nl.proj (l + 1) with
      | some proj_toks => read_values proj_toks
      | none => values
    if values ≠ [] then
      o.push_nonlocal { values := values, projector := projector, l := (l : Int) }
    else o

/-- Decoder `UPFReader::parse_nonlocal`. -/
def parse_nonlocal (doc : Document) (rd : UPFReader) : Bool × UPFReader :=
  match doc.nonlocal with
  | none => (true, rd)
  | some nl =>
    (true, { rd with orbitals_ :=
      (channels rd.header_.l_max).foldl (parse_nonlocal_channel nl) rd.orbitals_ })

/-- Body of the channel loop of `parse_wavefunctions`. -/
def parse_wavefunctions_channel (chi : ChiNode) (o : Orbitals) (l : Nat) : Orbitals :=
  match chi.wfc (l + 1) with
  | none => o
  | some toks =>
    let values := read_values toks
    if values ≠ [] then
      o.push_wavefunction { values := values, projector := [], l := (l : Int) }
    else o

/-- Decoder `UPFReader::parse_wavefunctions`. -/
def parse_wavefunctions (doc : Document) (rd : UPFReader) : Bool × UPFReader :=
  match doc.chi with
  | none => (true, rd)
  | some chi =>
    (true, { rd with orbitals_ :=
      (channels rd.header_.l_max).foldl (parse_wavefunctions_channel chi) rd.orbitals_ })

/-! ## Coefficient block decoder -/

/-- The count `n_proj` of `parse_dij`: the nonlocal records with that `l`. -/
def count_projectors (records : List OrbitalData) (l : Int) : Nat :=
  (records.filter (fun orbital => decide (orbital.l = l))).length

/-- The inner loop `for j < n_proj` of `parse_dij`: one row of the matrix read
from the stream, or `none` when an extraction fails. -/
def read_row : Nat → List Token → Option (List ℚ × List Token)
  | 0, s => some ([], s)
  | k + 1, s =>
    match extract s with
    | none => none
    | some (v, s1) =>
      match read_row k s1 with
      | none => none
      | some (vs, s2) => some (v :: vs, s2)

/-- The outer loop `for i < n_proj` of `parse_dij`: `rows` rows of `n` values. -/
def read_matrix (n : Nat) : Nat → List Token → Option (List (List ℚ) × List Token)
  | 0, s => some ([], s)
  | rows + 1, s =>
    match read_row n s with
    | none => none
    | some (row, s1) =>
      match read_matrix n rows s1 with
      | none => none
      | some (m, s2) => some (row :: m, s2)

/-- The channel loop of `parse_dij` over the shared stream `s`. -/
def parse_dij_loop : List Nat → UPFReader → List Token → Bool × UPFReader
  | [], rd, _ => (true, rd)
  | l :: ls, rd, s =>
    let rd1 := { rd with orbitals_ := rd.orbitals_.touch_nonlocal }
    let n_proj := count_projectors (rd.orbitals_.NONLOCAL.getD []) (l : Int)
    match read_matrix n_proj n_proj s with
    | none => (false, rd1)
    | some (d_matrix, s1) =>
      parse_dij_loop ls
        { rd1 with d_coefficients_ := map_assign rd1.d_coefficients_ (l : Int) d_matrix } s1

/-- Decoder `UPFReader::parse_dij`. -/
def parse_dij (doc : Document) (rd : UPFReader) : Bool × UPFReader :=
  match doc.nonlocal.bind (fun nl => nl.dij) with
  | none => (false, rd)
  | some toks => parse_dij_loop (channels rd.header_.l_max) rd toks

/-! ## Publication and reconstruction -/

/-- How a call of `parse` ends: it returns a flag, an exception of `std::map::at`
escapes it, or it runs into undefined behaviour that stops it (an integer
division by zero, or, in the build with checked subscripts, a vector subscript
past the end). -/
inductive Outcome where
  | returned (ok : Bool)
  | thrown
  | undefined
  deriving DecidableEq, Repr

/-- The conversion of one record in the publication loop of `parse`. -/
def to_global (orb : OrbitalData) : GlobalOrbitalData :=
  { values := orb.values, projector := orb.projector, l := orb.l }

/-- The loop `for (const auto& [type, orbs] : orbitals_)` of `parse`: every
present key, in the order LOCAL = 0, NONLOCAL = 1, WAVEFUNCTION = 2. -/
def publish_orbitals (o : Orbitals) (m : List (Int × List GlobalOrbitalData)) :
    List (Int × List GlobalOrbitalData) :=
  let m0 := match o.LOCAL with
    | some orbs => map_assign m 0 (orbs.map to_global)
    | none => m
  let m1 := match o.NONLOCAL with
    | some orbs => map_assign m0 1 (orbs.map to_global)
    | none => m0
  match o.WAVEFUNCTION with
  | some orbs => map_assign m1 2 (orbs.map to_global)
  | none => m1

/-- The block "Update global variables" of `parse`. -/
def publish (rd : UPFReader) (g : Globals) : Globals :=
  { g with
    g_upf_header :=
      { element := rd.header_.element
        pseudo_type := rd.header_.pseudo_type
        z_valence := rd.header_.z_valence
        mesh_size := rd.header_.mesh_size
        l_max := rd.header_.l_max
        is_ultrasoft := rd.header_.is_ultrasoft
        has_so := rd.header_.has_so }
    g_r_mesh := rd.r_mesh_
    g_orbitals := publish_orbitals rd.orbitals_ g.g_orbitals }

/-- The search loop shared by the getters: the values of the first record with
the given `l`, or an empty vector. -/
def first_values : List OrbitalData → Int → List ℚ
  | [], _ => []
  | orbital :: rest, l => if orbital.l = l then orbital.values else first_values rest l

/-- Getter `UPFReader::get_local_potential`; `none` is the exception thrown by
`orbitals_.at(OrbitalType::LOCAL)` when the key is absent. -/
def get_local_potential (o : Orbitals) : Option (List ℚ) :=
  match o.LOCAL with
  | none => none
  | some records => some (first_values records 0)

/-- Getter `UPFReader::get_nonlocal_potential`; `none` is the exception thrown
by `orbitals_.at(OrbitalType::NONLOCAL)` when the key is absent. -/
def get_nonlocal_potential (o : Orbitals) (l : Int) : Option (List ℚ) :=
  match o.NONLOCAL with
  | none => none
  | some records => some (first_values records l)

/-- The vector `combined_projectors` of `calculate_potentials`: the projectors
of the nonlocal records with the given `l`, one after the other. -/
def combined_projectors : List OrbitalData → Int → List ℚ
  | [], _ => []
  | orbital :: rest, l =>
    if orbital.l = l then orbital.projector ++ combined_projectors rest l
    else combined_projectors rest l

/-- The channel loop of `calculate_potentials`; the flag is `false` when the
getter throws. -/
def calculate_potentials_loop : List Nat → UPFReader → Globals → Bool × UPFReader × Globals
  | [], rd, g => (true, rd, g)
  | l :: ls, rd, g =>
    match get_nonlocal_potential rd.orbitals_ (l : Int) with
    | none => (false, rd, g)
    | some pot =>
      let g1 := { g with g_nonlocal_potentials := map_assign g.g_nonlocal_potentials (l : Int) pot }
      let rd1 := { rd with orbitals_ := rd.orbitals_.touch_nonlocal }
      let combined := combined_projectors (rd.orbitals_.NONLOCAL.getD []) (l : Int)
      calculate_potentials_loop ls rd1
        { g1 with g_projectors := map_assign g1.g_projectors (l : Int) combined }

/-- Procedure `UPFReader::calculate_potentials`; the flag is `false` when an
exception leaves it. -/
def calculate_potentials (rd : UPFReader) (g : Globals) : Bool × UPFReader × Globals :=
  match get_local_potential rd.orbitals_ with
  | none => (false, rd, g)
  | some pot =>
    calculate_potentials_loop (channels rd.header_.l_max) rd { g with g_local_potential := pot }

/-- A counted loop `for (size_t k = 0; k < n; ++k)` over the indices `ks`,
threading an accumulator through a body that may read out of range. -/
def for_loop {σ : Type} (body : Nat → σ → Option σ) : List Nat → σ → Option σ
  | [], s => some s
  | k :: ks, s =>
    match body k s with
    | none => none
    | some s1 => for_loop body ks s1

/-- The product `d_coefficients_[l][i][j] * projector_values[i * points_per_proj + r]
* projector_values[j * points_per_proj + r]` in the build with checked
subscripts: `none` when a subscript is past the end. -/
def nonlocal_term (d : List (List ℚ)) (projector_values : List ℚ)
    (points_per_proj r i j : Nat) : Option ℚ := do
  let row ← d[i]?
  let c ← row[j]?
  let p ← projector_values[i * points_per_proj + r]?
  let q ← projector_values[j * points_per_proj + r]?
  pure (c * p * q)

/-- The body of the loop over `r` in the build with checked subscripts:
`total_potential[r] = g_local_potential[r]` followed by the accumulation over
`i` (outer) and `j` (inner); `none` when a subscript is past the end. -/
def point_total (local_potential projector_values : List ℚ) (d : List (List ℚ))
    (n_proj points_per_proj r : Nat) : Option ℚ :=
  match local_potential[r]? with
  | none => none
  | some v0 =>
    for_loop (fun i acc =>
      for_loop (fun j acc1 =>
        match nonlocal_term d projector_values points_per_proj r i j with
        | none => none
        | some t => some (acc1 + t)) (List.range n_proj) acc) (List.range n_proj) v0

/-- The loop over `r` of `parse`: the entries of `total_potential` in index
order (every index below the mesh size is written once, in ascending order). -/
def collect_points (f : Nat → Option ℚ) : List Nat → Option (List ℚ)
  | [] => some []
  | r :: rs =>
    match f r with
    | none => none
    | some v =>
      match collect_points f rs with
      | none => none
      | some vs => some (v :: vs)

/-- The arithmetic of one pass of the loop of `parse` over the channels, from
`size_t n_proj = ...` to the end of the loop over `r`, in the build with checked
subscripts: `none` when the division `projector_values.size() / n_proj` is by
zero or a subscript is past the end. -/
def channel_total (mesh_size : Nat) (local_potential projector_values : List ℚ)
    (d : List (List ℚ)) : Option (List ℚ) :=
  let n_proj := d.length
  if n_proj = 0 then none
  else
    let points_per_proj := projector_values.length / n_proj
    collect_points (point_total local_potential projector_values d n_proj points_per_proj)
      (List.range mesh_size)

/-- The body of the loop of `parse` over the keys of `g_nonlocal_potentials`;
the flag is `false` when the body runs into undefined behaviour. -/
def total_step (l : Int) (rd : UPFReader) (g : Globals) : Bool × UPFReader × Globals :=
  let pv := map_subscript g.g_projectors l []
  let g1 := { g with g_projectors := pv.2 }
  let dm := map_subscript rd.d_coefficients_ l []
  let rd1 := { rd with d_coefficients_ := dm.2 }
  match channel_total g.g_r_mesh.length g.g_local_potential pv.1 dm.1 with
  | none => (false, rd1, g1)
  | some total_potential =>
    (true, rd1,
      { g1 with g_total_potentials := map_assign g1.g_total_potentials l total_potential })

/-- The loop `for (const auto& [l, nonlocal_pot] : g_nonlocal_potentials)`. -/
def total_loop : List Int → UPFReader → Globals → Bool × UPFReader × Globals
  | [], rd, g => (true, rd, g)
  | l :: ls, rd, g =>
    match total_step l rd g with
    | (false, rd1, g1) => (false, rd1, g1)
    | (true, rd1, g1) => total_loop ls rd1 g1

/-- The short-circuit chain `parse_header() && parse_mesh() && parse_local() &&
parse_nonlocal() && parse_wavefunctions() && parse_dij()`. -/
def decode_sections (doc : Document) (rd : UPFReader) : Bool × UPFReader :=
  match parse_header doc rd with
  | (false, rd1) => (false, rd1)
  | (true, rd1) =>
    match parse_mesh doc rd1 with
    | (false, rd2) => (false, rd2)
    | (true, rd2) =>
      match parse_local doc rd2 with
      | (false, rd3) => (false, rd3)
      | (true, rd3) =>
        match parse_nonlocal doc rd3 with
        | (false, rd4) => (false, rd4)
        | (true, rd4) =>
          match parse_wavefunctions doc rd4 with
          | (false, rd5) => (false, rd5)
          | (true, rd5) => parse_dij doc rd5

/-- Method `UPFReader::parse` in the build with checked subscripts. The argument
`file` is what `load_file` delivers: `none` when the document cannot be loaded. -/
def parse (file : Option Document) (rd : UPFReader) (g : Globals) :
    Outcome × UPFReader × Globals :=
  let g0 := { g with g_upf_data_valid := false }
  match file with
  | none => (Outcome.returned false, rd, g0)
  | some doc =>
    match decode_sections doc { rd with d_coefficients_ := [] } with
    | (false, rd1) => (Outcome.returned false, rd1, g0)
    | (true, rd1) =>
      match calculate_potentials rd1 (publish rd1 g0) with
      | (false, rd2, g2) => (Outcome.thrown, rd2, g2)
      | (true, rd2, g2) =>
        match total_loop (g2.g_nonlocal_potentials.map Prod.fst) rd2
            { g2 with g_total_potentials := [] } with
        | (false, rd3, g3) => (Outcome.undefined, rd3, g3)
        | (true, rd3, g3) => (Outcome.returned true, rd3, { g3 with g_upf_data_valid := true })

/-! ## The plain build -/

/-- What lies past the end of the vectors that the loop of `parse` subscripts,
in a build whose `operator[]` does not check: `past_local l k` is what
`g_local_potential[k]` delivers in the pass for channel `l` when `k` is past the
end, and `past_projector l r i j k` is what `projector_values[k]` delivers while
the term `(i, j)` of mesh index `r` of channel `l` is computed. Every read has an
entry of its own, so that nothing is assumed about that memory. -/
structure Memory where
  past_local : Int → Nat → ℚ
  past_projector : Int → Nat → Nat → Nat → Nat → ℚ

/-- The value of the expression `xs[k]` in the plain build: the element when `k`
is within range, what lies past the end otherwise. -/
def subscript (past : Nat → ℚ) (xs : List ℚ) (k : Nat) : ℚ :=
  match xs[k]? with
  | some v => v
  | none => past k

/-- The product `d_coefficients_[l][i][j] * projector_values[i * points_per_proj + r]
* projector_values[j * points_per_proj + r]` in the plain build. The rows of a
matrix of `d_coefficients_` have as many entries as the matrix has rows
(`parse_dij` builds them so), so `[i][j]` is within range whenever the loop
reaches it; the embedding keeps that one subscript checked, and the check never
fails in a call of `parse_plain` (`parse_plain_undefined`). -/
def nonlocal_term_plain (past : Nat → ℚ) (d : List (List ℚ)) (projector_values : List ℚ)
    (points_per_proj r i j : Nat) : Option ℚ := do
  let row ← d[i]?
  let c ← row[j]?
  pure (c * subscript past projector_values (i * points_per_proj + r)
    * subscript past projector_values (j * points_per_proj + r))

/-- The body of the loop over `r` in the plain build:
`total_potential[r] = g_local_potential[r]` followed by the accumulation over
`i` (outer) and `j` (inner). -/
def point_total_plain (past_local : Nat → ℚ) (past_projector : Nat → Nat → Nat → ℚ)
    (local_potential projector_values : List ℚ) (d : List (List ℚ))
    (n_proj points_per_proj r : Nat) : Option ℚ :=
  for_loop (fun i acc =>
    for_loop (fun j acc1 =>
      match nonlocal_term_plain (past_projector i j) d projector_values points_per_proj r i j with
      | none => none
      | some t => some (acc1 + t)) (List.range n_proj) acc) (List.range n_proj)
    (subscript past_local local_potential r)

/-- The arithmetic of one pass of the loop of `parse` over the channels in the
plain build: `none` when the division `projector_values.size() / n_proj` is by
zero. -/
def channel_total_plain (past_local : Nat → ℚ)
    (past_projector : Nat → Nat → Nat → Nat → ℚ) (mesh_size : Nat)
    (local_potential projector_values : List ℚ) (d : List (List ℚ)) : Option (List ℚ) :=
  let n_proj := d.length
  if n_proj = 0 then none
  else
    let points_per_proj := projector_values.length / n_proj
    collect_points
      (fun r => point_total_plain past_local (past_projector r) local_potential
        projector_values d n_proj points_per_proj r)
      (List.range mesh_size)

/-- The body of the loop of `parse` over the keys of `g_nonlocal_potentials` in
the plain build; the flag is `false` when the body divides by zero. -/
def total_step_plain (mem : Memory) (l : Int) (rd : UPFReader) (g : Globals) :
    Bool × UPFReader × Globals :=
  let pv := map_subscript g.g_projectors l []
  let g1 := { g with g_projectors := pv.2 }
  let dm := map_subscript rd.d_coefficients_ l []
  let rd1 := { rd with d_coefficients_ := dm.2 }
  match channel_total_plain (mem.past_local l) (mem.past_projector l) g.g_r_mesh.length
      g.g_local_potential pv.1 dm.1 with
  | none => (false, rd1, g1)
  | some total_potential =>
    (true, rd1,
      { g1 with g_total_potentials := map_assign g1.g_total_potentials l total_potential })

/-- The loop `for (const auto& [l, nonlocal_pot] : g_nonlocal_potentials)` in the
plain build. -/
def total_loop_plain (mem : Memory) : List Int → UPFReader → Globals → Bool × UPFReader × Globals
  | [], rd, g => (true, rd, g)
  | l :: ls, rd, g =>
    match total_step_plain mem l rd g with
    | (false, rd1, g1) => (false, rd1, g1)
    | (true, rd1, g1) => total_loop_plain mem ls rd1 g1

/-- Method `UPFReader::parse` in the plain build: as `parse`, with the loop over
the channels reading on past the end of a vector. -/
def parse_plain (mem : Memory) (file : Option Document) (rd : UPFReader) (g : Globals) :
    Outcome × UPFReader × Globals :=
  let g0 := { g with g_upf_data_valid := false }
  match file with
  | none => (Outcome.returned false, rd, g0)
  | some doc =>
    match decode_sections doc { rd with d_coefficients_ := [] } with
    | (false, rd1) => (Outcome.returned false, rd1, g0)
    | (true, rd1) =>
      match calculate_potentials rd1 (publish rd1 g0) with
      | (false, rd2, g2) => (Outcome.thrown, rd2, g2)
      | (true, rd2, g2) =>
        match total_loop_plain mem (g2.g_nonlocal_potentials.map Prod.fst) rd2
            { g2 with g_total_potentials := [] } with
        | (false, rd3, g3) => (Outcome.undefined, rd3, g3)
        | (true, rd3, g3) => (Outcome.returned true, rd3, { g3 with g_upf_data_valid := true })

/-- A memory that holds zero wherever the loop reads past the end. -/
def Memory.zero : Memory :=
  { past_local := fun _ _ => 0, past_projector := fun _ _ _ _ _ => 0 }

/-- A memory that holds one wherever the loop reads past the end. -/
def Memory.one : Memory :=
  { past_local := fun _ _ => 1, past_projector := fun _ _ _ _ _ => 1 }

/-! ## Scenarios -/

/-- The header node of the scenarios: only `l_max` varies. -/
def scenario_header (l_max : Int) : HeaderNode :=
  { element := "X", pseudo_type := "NC", z_valence := 1, mesh_size := 3, l_max := l_max,
    is_ultrasoft := "F", has_so := "F" }

/-- A nonlocal node with one beta `[0.5, 0.4, 0.3]` at `l = 0`, no explicit
projector, and the given coefficient tokens. -/
def scenario_nonlocal (dij : List Token) : NonlocalNode :=
  { beta := fun n => if n = 1 then some [Token.num (1/2), Token.num (2/5), Token.num (3/10)] else none
    proj := fun _ => none
    dij := some dij }

/-- The scenario of the specification: mesh `[0.1, 0.2, 0.3]`, local potential
`[-1, -2, -3]`, one beta at `l = 0`, coefficient block `[2.0]`. -/
def scenario (l_max : Int) : Document :=
  { header := some (scenario_header l_max)
    mesh := some [Token.num (1/10), Token.num (1/5), Token.num (3/10)]
    localp := some [Token.num (-1), Token.num (-2), Token.num (-3)]
    nonlocal := some (scenario_nonlocal [Token.num 2])
    chi := none }

/-! ## Quantities of the specification -/

/-- The count `n_proj(l)` in the words of the specification: how many of the
nonlocal records of the reader have that `l`. It is stated on the records, not
through the counting loop of `parse_dij`. -/
def n_proj (rd : UPFReader) (l : Nat) : Nat :=
  (rd.orbitals_.NONLOCAL.getD []).countP (fun rec => decide (rec.l = (l : Int)))

/-- The flat buffer of channel `l` in the words of the specification: the
projectors of the nonlocal records with that `l`, in the order the records were
discovered, one after the other. It is stated on the records, not through the
loop of `calculate_potentials`. -/
def buffer (rd : UPFReader) (l : Nat) : List ℚ :=
  (((rd.orbitals_.NONLOCAL.getD []).filter (fun rec => decide (rec.l = (l : Int)))).map
    (fun rec => rec.projector)).flatten

/-- The coefficient matrix `D[l]` held by the reader (empty when there is none). -/
def D (rd : UPFReader) (l : Nat) : List (List ℚ) :=
  (map_find rd.d_coefficients_ (l : Int)).getD []

/-- The formula of the specification for `total[l][r]`, with
`points_per_projector = len(buffer) / n_proj`. -/
def spec_total (local_potential buf : List ℚ) (d : List (List ℚ)) (n r : Nat) : ℚ :=
  local_potential.getD r 0 +
    ∑ i in Finset.range n, ∑ j in Finset.range n,
      (d.getD i []).getD j 0 * buf.getD (i * (buf.length / n) + r) 0
        * buf.getD (j * (buf.length / n) + r) 0

/-- The formula of the specification for `total[l][r]` with its subscripts read
as the plain build reads them: past the end of `local_potential` or of the
buffer a subscript denotes what lies there. Within range it is `spec_total`. -/
def spec_total_read (past_local : Nat → ℚ) (past_projector : Nat → Nat → Nat → ℚ)
    (local_potential buf : List ℚ) (d : List (List ℚ)) (n r : Nat) : ℚ :=
  subscript past_local local_potential r +
    ∑ i in Finset.range n, ∑ j in Finset.range n,
      (d.getD i []).getD j 0 * subscript (past_projector i j) buf (i * (buf.length / n) + r)
        * subscript (past_projector i j) buf (j * (buf.length / n) + r)

/-- The number of coefficient tokens the channels `ls` need: the sum of
`n_proj(l)^2`. -/
def tokens_needed (records : List OrbitalData) (ls : List Nat) : Nat :=
  (ls.map (fun l => count_projectors records (l : Int) * count_projectors records (l : Int))).sum

/-! ## Auxiliary definitions and further scenarios -/

/-- The stream after `k` extractions, as far as they succeed. -/
def advance : Nat → List Token → List Token
  | 0, s => s
  | k + 1, s =>
    match extract s with
    | some (_, s1) => advance k s1
    | none => s

/-- The real that extraction converts when it starts at a field, if any. -/
def token_value : Token → Option ℚ
  | Token.num v => some v
  | Token.lead v => some v
  | Token.bad => none

/-- The matrix that `rows` rows of `n` values cut out of the values `vals`. -/
def rows_of (vals : List ℚ) (n rows : Nat) : List (List ℚ) :=
  (List.range rows).map (fun i => (vals.drop (i * n)).take n)

/-- What a pass (or any number of passes) of the loop over the channels keeps:
everything but `g_total_potentials`, up to keys that `operator[]` creates with
an empty value in `g_projectors` and `d_coefficients_`. -/
structure TotalFrame (rd : UPFReader) (g : Globals) (rd1 : UPFReader) (g1 : Globals) : Prop where
  header_ : rd1.header_ = rd.header_
  r_mesh_ : rd1.r_mesh_ = rd.r_mesh_
  orbitals_ : rd1.orbitals_ = rd.orbitals_
  d_getD : ∀ k, (map_find rd1.d_coefficients_ k).getD [] = (map_find rd.d_coefficients_ k).getD []
  d_some : ∀ k v, map_find rd.d_coefficients_ k = some v → map_find rd1.d_coefficients_ k = some v
  valid : g1.g_upf_data_valid = g.g_upf_data_valid
  g_header : g1.g_upf_header = g.g_upf_header
  g_mesh : g1.g_r_mesh = g.g_r_mesh
  g_orbitals : g1.g_orbitals = g.g_orbitals
  g_local : g1.g_local_potential = g.g_local_potential
  g_nonlocal : g1.g_nonlocal_potentials = g.g_nonlocal_potentials
  p_getD : ∀ k, (map_find g1.g_projectors k).getD [] = (map_find g.g_projectors k).getD []
  p_some : ∀ k v, map_find g.g_projectors k = some v → map_find g1.g_projectors k = some v

/-- The reader state on which `parse_dij` runs when the header and the mesh are
present: the decoders before it cannot fail. -/
def before_dij (doc : Document) (rd : UPFReader) : UPFReader :=
  (parse_wavefunctions doc (parse_nonlocal doc (parse_local doc
    (parse_mesh doc (parse_header doc rd).2).2).2).2).2

/-- A document like `scenario 0` but with the given mesh, beta and coefficient
tokens. -/
def scenario_with (mesh beta dij : List Token) : Document :=
  { header := some (scenario_header 0)
    mesh := some mesh
    localp := some [Token.num (-1), Token.num (-2), Token.num (-3)]
    nonlocal := some
      { beta := fun n => if n = 1 then some beta else none
        proj := fun _ => none
        dij := some dij }
    chi := none }

/-- The scenario with an all-zero coefficient matrix `[[0]]`. -/
def scenario_zero : Document :=
  scenario_with [Token.num (1/10), Token.num (1/5), Token.num (3/10)]
    [Token.num (1/2), Token.num (2/5), Token.num (3/10)] [Token.num 0]

/-- The scenario with an all-zero coefficient matrix `[[0]]` and a projector of
one sample, shorter than the mesh of three points. -/
def scenario_short_projector : Document :=
  scenario_with [Token.num (1/10), Token.num (1/5), Token.num (3/10)]
    [Token.num (1/2)] [Token.num 0]

/-- The scenario with two channels (`l_max = 1`), one beta in each, and the
coefficient stream `2 3`. -/
def scenario_two_channels : Document :=
  { header := some (scenario_header 1)
    mesh := some [Token.num (1/10), Token.num (1/5), Token.num (3/10)]
    localp := some [Token.num (-1), Token.num (-2), Token.num (-3)]
    nonlocal := some
      { beta := fun n =>
          if n = 1 then some [Token.num (1/2), Token.num (2/5), Token.num (3/10)]
          else if n = 2 then some [Token.num 1, Token.num 1, Token.num 1]
          else none
        proj := fun _ => none
        dij := some [Token.num 2, Token.num 3] }
    chi := none }

/-- The scenario with one beta at `l = 0` and an empty coefficient block. -/
def scenario_no_coefficient : Document :=
  scenario_with [Token.num (1/10), Token.num (1/5), Token.num (3/10)]
    [Token.num (1/2), Token.num (2/5), Token.num (3/10)] []

/-- The scenario with a malformed second token in the mesh. -/
def scenario_bad_mesh : Document :=
  scenario_with [Token.num (1/10), Token.bad, Token.num (1/5), Token.num (3/10)]
    [Token.num (1/2), Token.num (2/5), Token.num (3/10)] [Token.num 2]

/-- The scenario with an explicit projector section `PP_BETA_1`. -/
def scenario_explicit_projector : NonlocalNode :=
  { beta := fun n => if n = 1 then some [Token.num (1/2), Token.num (2/5), Token.num (3/10)] else none
    proj := fun n => if n = 1 then some [Token.num 7, Token.num 8, Token.num 9] else none
    dij := some [Token.num 2] }

/-- The scenario without nonlocal section. -/
def scenario_no_nonlocal : Document :=
  { header := some (scenario_header 0)
    mesh := some [Token.num (1/10), Token.num (1/5), Token.num (3/10)]
    localp := some [Token.num (-1), Token.num (-2), Token.num (-3)]
    nonlocal := none
    chi := none }

/-- The scenario without local-potential section. -/
def scenario_no_local : Document :=
  { header := some (scenario_header 0)
    mesh := some [Token.num (1/10), Token.num (1/5), Token.num (3/10)]
    localp := none
    nonlocal := some (scenario_nonlocal [Token.num 2])
    chi := none }

/-- The scenario `scenario 0` with a wavefunction section `PP_CHI.1 = 1 2 3`. -/
def scenario_chi : Document :=
  { header := some (scenario_header 0)
    mesh := some [Token.num (1/10), Token.num (1/5), Token.num (3/10)]
    localp := some [Token.num (-1), Token.num (-2), Token.num (-3)]
    nonlocal := some (scenario_nonlocal [Token.num 2])
    chi := some { wfc := fun n => if n = 1 then some [Token.num 1, Token.num 2, Token.num 3]
                                  else none } }

/-- A document that parses twice on one reader: mesh `[0.1]`, local potential
`[-1, -2, -3]`, one beta `[0.5, 0.4, 0.3]` at `l = 0` and the coefficient stream
`2 0 0 0`. -/
def scenario_repeat : Document :=
  scenario_with [Token.num (1/10)]
    [Token.num (1/2), Token.num (2/5), Token.num (3/10)]
    [Token.num 2, Token.num 0, Token.num 0, Token.num 0]

/-- A first version of a file: mesh `[0.1]`, one beta of three samples at
`l = 0`, and an empty coefficient block (so that `parse` returns `false`). -/
def scenario_first_version : Document :=
  scenario_with [Token.num (1/10)]
    [Token.num (1/2), Token.num (2/5), Token.num (3/10)] []

/-- The reader after `parse` has run on the first version of the file and
returned `false`: it keeps one mesh point, one local record and one nonlocal
record of three samples. -/
def reader_after_first_version : UPFReader :=
  (parse (some scenario_first_version) UPFReader.fresh Globals.initial).2.1

/-- A document with three channels (`l_max = 2`): one beta at `l = 0`, none at
`l = 1`, one at `l = 2`, and the coefficient stream `1 2 3 4 5`. -/
def scenario_three_channels : Document :=
  { header := some (scenario_header 2)
    mesh := some [Token.num (1/5), Token.num (3/10)]
    localp := some [Token.num (-1), Token.num (-2), Token.num (-3)]
    nonlocal := some
      { beta := fun n =>
          if n = 1 then some [Token.num 1, Token.num 1, Token.num 1]
          else if n = 3 then some [Token.num 2, Token.num 2, Token.num 2]
          else none
        proj := fun _ => none
        dij := some [Token.num 1, Token.num 2, Token.num 3, Token.num 4, Token.num 5] }
    chi := none }

/-- The reader on which `parse_dij` runs when a reader that has read the first
version of its file reads `scenario_three_channels`: two nonlocal records at
`l = 0`, none at `l = 1`, one at `l = 2`. -/
def reader_three_channels : UPFReader :=
  before_dij scenario_three_channels
    { reader_after_first_version with d_coefficients_ := [] }

/-- A document without mesh section. -/
def scenario_no_mesh : Document :=
  { header := some (scenario_header 0)
    mesh := none
    localp := some [Token.num (-1), Token.num (-2), Token.num (-3)]
    nonlocal := some (scenario_nonlocal [Token.num 2])
    chi := none }

/-- A document like `scenario_with`, with the given local potential as well. -/
def scenario_local (mesh localp beta dij : List Token) : Document :=
  { header := some (scenario_header 0)
    mesh := some mesh
    localp := some localp
    nonlocal := some
      { beta := fun n => if n = 1 then some beta else none
        proj := fun _ => none
        dij := some dij }
    chi := none }

/-- The reader after `parse` has run on a first version of a file with mesh
`[0.1]`, four local values, one beta of three samples and an empty coefficient
block, and returned `false`. -/
def reader_with_short_projector : UPFReader :=
  (parse (some (scenario_local [Token.num (1/10)]
      [Token.num (-1), Token.num (-2), Token.num (-3), Token.num (-4)]
      [Token.num (1/2), Token.num (2/5), Token.num (3/10)] []))
    UPFReader.fresh Globals.initial).2.1

/-- A second version of that file: mesh `[0.2, 0.3, 0.4]`, one beta of four
samples and the coefficient stream `1 0 0 1`. -/
def scenario_long_mesh : Document :=
  scenario_local [Token.num (1/5), Token.num (3/10), Token.num (2/5)]
    [Token.num (-1), Token.num (-2), Token.num (-3), Token.num (-4)]
    [Token.num 1, Token.num 1, Token.num 1, Token.num 1]
    [Token.num 1, Token.num 0, Token.num 0, Token.num 1]

/-- A second version of the file of `scenario_first_version`: mesh `[0.2, 0.3]`,
one beta `[1, 2, 3]` at `l = 0`, and the coefficient stream `1 2 3 4`. -/
def scenario_second_beta : Document :=
  scenario_with [Token.num (1/5), Token.num (3/10)]
    [Token.num 1, Token.num 2, Token.num 3]
    [Token.num 1, Token.num 2, Token.num 3, Token.num 4]

/-- The run of the plain build in which a reader that has read
`scenario_first_version` reads `scenario_second_beta`. -/
def run_second_beta : Outcome × UPFReader × Globals :=
  parse_plain Memory.zero (some scenario_second_beta) reader_after_first_version Globals.initial

/-- The round-trip scenario of the specification (`l_max = 1`, one beta at
`l = 0`, none at `l = 1`) with the coefficient stream `0`: every coefficient
matrix is all-zero, `[[0]]` for channel 0 and the empty matrix for channel 1. -/
def scenario_zero_round_trip : Document :=
  { header := some (scenario_header 1)
    mesh := some [Token.num (1/10), Token.num (1/5), Token.num (3/10)]
    localp := some [Token.num (-1), Token.num (-2), Token.num (-3)]
    nonlocal := some (scenario_nonlocal [Token.num 0])
    chi := none }

/-- The scenario with a mesh whose second field, such as `0.2x`, starts with a
real and goes on with characters that do not convert. -/
def scenario_lead_mesh : Document :=
  scenario_with [Token.num (1/10), Token.lead (1/5), Token.num (3/10)]
    [Token.num (1/2), Token.num (2/5), Token.num (3/10)] [Token.num 2]

/-- The scenario with a coefficient block whose one field, such as `2x`, starts
with a real and goes on with characters that do not convert. -/
def scenario_lead_coefficient : Document :=
  scenario_with [Token.num (1/10), Token.num (1/5), Token.num (3/10)]
    [Token.num (1/2), Token.num (2/5), Token.num (3/10)] [Token.lead 2]

/-- The counting loop of `parse_dij` counts the records with the given `l`. -/
theorem count_projectors_eq (records : List OrbitalData) (l : Int) :
    count_projectors records l = records.countP (fun rec => decide (rec.l = l)) := by
  unfold count_projectors
  rw [List.countP_eq_length_filter]

theorem n_proj_eq (rd : UPFReader) (l : Nat) :
    n_proj rd l = count_projectors (rd.orbitals_.NONLOCAL.getD []) (l : Int) := by
  rw [count_projectors_eq]
  rfl

/-- The loop of `calculate_potentials` concatenates, in order, the projectors of
the records with the given `l`. -/
theorem combined_projectors_eq (records : List OrbitalData) (l : Int) :
    combined_projectors records l =
      ((records.filter (fun rec => decide (rec.l = l))).map (fun rec => rec.projector)).flatten := by
  induction records with
  | nil => rfl
  | cons r rs ih =>
    unfold combined_projectors
    by_cases h : r.l = l
    · simp [h, ih, List.filter_cons]
    · simp [h, ih, List.filter_cons]

theorem buffer_eq (rd : UPFReader) (l : Nat) :
    buffer rd l = combined_projectors (rd.orbitals_.NONLOCAL.getD []) (l : Int) := by
  rw [combined_projectors_eq]
  rfl

/-! ## Lemmas: maps -/

theorem map_find_assign_self {V : Type} (m : List (Int × V)) (k : Int) (v : V) :
    map_find (map_assign m k v) k = some v := by
  induction m with
  | nil => simp [map_assign, map_find]
  | cons hd tl ih =>
    obtain ⟨k0, w⟩ := hd
    unfold map_assign
    split_ifs with h1 h2
    · simp [map_find]
    · simp [map_find]
    · simp [map_find, h2, ih]

theorem map_find_assign_ne {V : Type} (m : List (Int × V)) (k k1 : Int) (v : V)
    (hne : k1 ≠ k) : map_find (map_assign m k v) k1 = map_find m k1 := by
  induction m with
  | nil => simp [map_assign, map_find, hne]
  | cons hd tl ih =>
    obtain ⟨k0, w⟩ := hd
    unfold map_assign
    split_ifs with h1 h2
    · simp [map_find, hne]
    · subst h2
      simp [map_find, hne]
    · simp [map_find, ih]

theorem map_subscript_fst {V : Type} (m : List (Int × V)) (k : Int) (dflt : V) :
    (map_subscript m k dflt).1 = (map_find m k).getD dflt := by
  unfold map_subscript
  cases h : map_find m k <;> simp

theorem map_subscript_getD {V : Type} (m : List (Int × V)) (k k1 : Int) (dflt : V) :
    (map_find (map_subscript m k dflt).2 k1).getD dflt = (map_find m k1).getD dflt := by
  unfold map_subscript
  cases h : map_find m k with
  | some v => simp
  | none =>
    by_cases hk : k1 = k
    · subst hk
      simp [map_find_assign_self, h]
    · simp [map_find_assign_ne _ _ _ _ hk]

theorem map_subscript_some {V : Type} (m : List (Int × V)) (k k1 : Int) (dflt v : V)
    (h1 : map_find m k1 = some v) : map_find (map_subscript m k dflt).2 k1 = some v := by
  unfold map_subscript
  cases h : map_find m k with
  | some w => simpa using h1
  | none =>
    have hk : k1 ≠ k := by
      rintro rfl
      rw [h] at h1
      cases h1
    simpa [map_find_assign_ne _ _ _ _ hk] using h1

theorem mem_keys_assign_self {V : Type} (m : List (Int × V)) (k : Int) (v : V) :
    k ∈ (map_assign m k v).map Prod.fst := by
  induction m with
  | nil => simp [map_assign]
  | cons hd tl ih =>
    obtain ⟨k0, w⟩ := hd
    unfold map_assign
    split_ifs with h1 h2
    · simp
    · simp
    · simp [ih]

theorem mem_keys_assign_of_mem {V : Type} (m : List (Int × V)) (k k1 : Int) (v : V)
    (h : k1 ∈ m.map Prod.fst) : k1 ∈ (map_assign m k v).map Prod.fst := by
  induction m with
  | nil => simp at h
  | cons hd tl ih =>
    obtain ⟨k0, w⟩ := hd
    unfold map_assign
    split_ifs with h1 h2
    · simp only [List.map_cons, List.mem_cons] at h ⊢
      exact Or.inr h
    · subst h2
      simpa using h
    · simp only [List.map_cons, List.mem_cons] at h ⊢
      rcases h with h | h
      · exact Or.inl h
      · exact Or.inr (ih h)

/-! ## Lemmas: the coefficient stream -/

theorem read_values_extract (s : List Token) :
    read_values s =
      match extract s with
      | some (v, s1) => v :: read_values s1
      | none => [] := by
  cases s with
  | nil => rfl
  | cons t rest => cases t <;> rfl

theorem advance_of_none (k : Nat) (s : List Token) (h : extract s = none) :
    advance k s = s := by
  cases k with
  | zero => rfl
  | succ k => simp only [advance, h]

theorem advance_add (a b : Nat) (s : List Token) :
    advance (a + b) s = advance b (advance a s) := by
  induction a generalizing s with
  | zero => simp [advance]
  | succ a ih =>
    rw [Nat.succ_add]
    cases he : extract s with
    | none => simp only [advance, he, advance_of_none b s he]
    | some p => simp only [advance, he, ih]

theorem read_values_advance (k : Nat) (s : List Token) (h : k ≤ (read_values s).length) :
    read_values (advance k s) = (read_values s).drop k := by
  induction k generalizing s with
  | zero => simp [advance]
  | succ k ih =>
    cases s with
    | nil => simp [read_values] at h
    | cons t rest =>
      cases t with
      | bad => simp [read_values] at h
      | lead v =>
        simp only [read_values, List.length_cons, List.length_nil, Nat.zero_add] at h
        have hk : k = 0 := by omega
        subst hk
        simp [advance, extract, read_values]
      | num v =>
        simp only [read_values, List.length_cons, Nat.add_le_add_iff_right] at h
        simp only [advance, extract, read_values, List.drop_succ_cons]
        exact ih rest h

theorem read_row_eq (k : Nat) (s : List Token) :
    read_row k s =
      if k ≤ (read_values s).length then some ((read_values s).take k, advance k s)
      else none := by
  induction k generalizing s with
  | zero => simp [read_row, advance]
  | succ k ih =>
    cases s with
    | nil => simp [read_row, extract, read_values]
    | cons t rest =>
      cases t with
      | bad => simp [read_row, extract, read_values]
      | lead v =>
        simp only [read_row, extract, read_values, advance, List.length_cons, List.length_nil,
          Nat.zero_add, Nat.add_le_add_iff_right, Nat.le_zero, List.take_succ_cons]
        rw [ih (Token.bad :: rest)]
        cases k with
        | zero => simp [read_values, advance]
        | succ k => simp [read_values]
      | num v =>
        simp only [read_row, extract, read_values, advance, List.length_cons,
          Nat.add_le_add_iff_right, List.take_succ_cons]
        rw [ih rest]
        split_ifs <;> rfl

theorem rows_of_succ (vals : List ℚ) (n rows : Nat) :
    rows_of vals n (rows + 1) = vals.take n :: rows_of (vals.drop n) n rows := by
  unfold rows_of
  rw [List.range_succ_eq_map]
  simp only [List.map_cons, List.map_map, Nat.zero_mul, List.drop_zero, List.cons.injEq,
    true_and]
  apply List.map_congr_left
  intro i _
  simp only [Function.comp, List.drop_drop]
  congr 2
  rw [Nat.succ_mul]
  ring

theorem read_matrix_eq (n rows : Nat) (s : List Token) :
    read_matrix n rows s =
      if n * rows ≤ (read_values s).length then
        some (rows_of (read_values s) n rows, advance (n * rows) s)
      else none := by
  induction rows generalizing s with
  | zero => simp [read_matrix, rows_of, advance]
  | succ rows ih =>
    simp only [read_matrix, read_row_eq]
    by_cases hn : n ≤ (read_values s).length
    · simp only [hn, if_true]
      rw [ih (advance n s), read_values_advance n s hn, rows_of_succ]
      simp only [List.length_drop]
      have e : n * rows ≤ (read_values s).length - n ↔ n * (rows + 1) ≤ (read_values s).length := by
        rw [Nat.mul_succ]
        omega
      have ea : advance (n * rows) (advance n s) = advance (n * (rows + 1)) s := by
        rw [← advance_add, Nat.mul_succ, Nat.add_comm]
      by_cases h2 : n * (rows + 1) ≤ (read_values s).length
      · have h3 := e.mpr h2
        simp only [h2, h3, if_true, ea]
      · have h3 : ¬ n * rows ≤ (read_values s).length - n := fun h => h2 (e.mp h)
        simp only [h2, h3, if_false]
    · have h2 : ¬ n * (rows + 1) ≤ (read_values s).length := by
        rw [Nat.mul_succ]
        omega
      simp only [hn, h2, if_false]

theorem read_values_getElem (s : List Token) (p : Nat) (v : ℚ)
    (h : (read_values s)[p]? = some v) : (s[p]?).bind token_value = some v := by
  induction s generalizing p with
  | nil => simp [read_values] at h
  | cons t rest ih =>
    cases t with
    | bad => simp [read_values] at h
    | lead w =>
      cases p with
      | zero =>
        simp only [read_values, List.getElem?_cons_zero, Option.some.injEq] at h
        simp [token_value, h]
      | succ p => simp [read_values] at h
    | num w =>
      cases p with
      | zero =>
        simp only [read_values, List.getElem?_cons_zero, Option.some.injEq] at h
        simp [token_value, h]
      | succ p =>
        simp only [read_values, List.getElem?_cons_succ] at h
        simpa using ih p h

theorem rows_of_length (vals : List ℚ) (n rows : Nat) : (rows_of vals n rows).length = rows := by
  simp [rows_of]

theorem rows_of_getElem (vals : List ℚ) (n rows i : Nat) (hi : i < rows) :
    (rows_of vals n rows)[i]? = some ((vals.drop (i * n)).take n) := by
  simp [rows_of, List.getElem?_map, List.getElem?_range hi]

@[simp] theorem touch_nonlocal_getD (o : Orbitals) :
    o.touch_nonlocal.NONLOCAL.getD [] = o.NONLOCAL.getD [] := by
  simp [Orbitals.touch_nonlocal]

theorem touch_nonlocal_idem (o : Orbitals) :
    o.touch_nonlocal.touch_nonlocal = o.touch_nonlocal := by
  simp [Orbitals.touch_nonlocal]

theorem parse_dij_loop_cons (l : Nat) (ls : List Nat) (rd : UPFReader) (s : List Token) :
    parse_dij_loop (l :: ls) rd s =
      if n_proj rd l * n_proj rd l ≤ (read_values s).length then
        parse_dij_loop ls
          { rd with
            orbitals_ := rd.orbitals_.touch_nonlocal
            d_coefficients_ := map_assign rd.d_coefficients_ (l : Int)
              (rows_of (read_values s) (n_proj rd l) (n_proj rd l)) }
          (advance (n_proj rd l * n_proj rd l) s)
      else (false, { rd with orbitals_ := rd.orbitals_.touch_nonlocal }) := by
  simp only [parse_dij_loop, read_matrix_eq, n_proj_eq]
  split_ifs <;> rfl

theorem tokens_needed_cons (records : List OrbitalData) (l : Nat) (ls : List Nat) :
    tokens_needed records (l :: ls) =
      count_projectors records (l : Int) * count_projectors records (l : Int)
        + tokens_needed records ls := by
  simp [tokens_needed]

theorem tokens_needed_append (records : List OrbitalData) (ls ms : List Nat) :
    tokens_needed records (ls ++ ms) = tokens_needed records ls + tokens_needed records ms := by
  simp [tokens_needed]

theorem tokens_needed_range (records : List OrbitalData) (k : Nat) :
    tokens_needed records (List.range k) =
      ∑ l in Finset.range k, count_projectors records (l : Int) ^ 2 := by
  induction k with
  | zero => simp [tokens_needed]
  | succ k ih =>
    rw [List.range_succ, tokens_needed_append, ih, Finset.sum_range_succ]
    simp [tokens_needed, sq]

theorem tokens_needed_range_n_proj (rd : UPFReader) (k : Nat) :
    tokens_needed (rd.orbitals_.NONLOCAL.getD []) (List.range k) =
      ∑ l in Finset.range k, n_proj rd l ^ 2 := by
  rw [tokens_needed_range]
  simp only [n_proj_eq]

/-- What the channel loop of `parse_dij` leaves untouched, whether it succeeds
or not. -/
theorem parse_dij_loop_frame (ls : List Nat) (rd : UPFReader) (s : List Token) :
    (parse_dij_loop ls rd s).2.header_ = rd.header_ ∧
    (parse_dij_loop ls rd s).2.r_mesh_ = rd.r_mesh_ ∧
    (parse_dij_loop ls rd s).2.orbitals_ =
      (if ls = [] then rd.orbitals_ else rd.orbitals_.touch_nonlocal) := by
  induction ls generalizing rd s with
  | nil => simp [parse_dij_loop]
  | cons l ls ih =>
    rw [parse_dij_loop_cons]
    by_cases h : n_proj rd l * n_proj rd l ≤ (read_values s).length
    · simp only [h, if_true]
      obtain ⟨h1, h2, h3⟩ := ih
        { rd with
          orbitals_ := rd.orbitals_.touch_nonlocal
          d_coefficients_ := map_assign rd.d_coefficients_ (l : Int)
            (rows_of (read_values s) (n_proj rd l) (n_proj rd l)) }
        (advance (n_proj rd l * n_proj rd l) s)
      refine ⟨h1, h2, ?_⟩
      rw [h3]
      by_cases hls : ls = []
      · simp [hls]
      · simp [hls, touch_nonlocal_idem]
    · simp [h]

/-- The channel loop of `parse_dij` succeeds exactly when the numeric tokens at
the head of the stream cover what the channels need. -/
theorem parse_dij_loop_ok_iff (ls : List Nat) (rd : UPFReader) (s : List Token) :
    (parse_dij_loop ls rd s).1 = true ↔
      tokens_needed (rd.orbitals_.NONLOCAL.getD []) ls ≤ (read_values s).length := by
  induction ls generalizing rd s with
  | nil => simp [parse_dij_loop, tokens_needed]
  | cons l ls ih =>
    rw [parse_dij_loop_cons, tokens_needed_cons]
    by_cases h : n_proj rd l * n_proj rd l ≤ (read_values s).length
    · simp only [h, if_true]
      rw [ih]
      simp only [touch_nonlocal_getD, read_values_advance _ _ h, List.length_drop]
      simp only [n_proj_eq] at h ⊢
      omega
    · simp only [h, if_false]
      simp only [n_proj_eq] at h
      constructor
      · intro hf
        cases hf
      · intro hle
        omega

/-- The matrices stored by a successful channel loop of `parse_dij`: a channel
that the loop does not visit keeps its entry, and a channel visited once gets
the square block that starts where the earlier channels stopped. -/
theorem parse_dij_loop_matrices (ls : List Nat) (rd rd1 : UPFReader) (s : List Token)
    (h : parse_dij_loop ls rd s = (true, rd1)) :
    (∀ k : Int, (∀ l ∈ ls, (l : Int) ≠ k) →
      map_find rd1.d_coefficients_ k = map_find rd.d_coefficients_ k) ∧
    (ls.Nodup → ∀ (pre : List Nat) (l : Nat) (post : List Nat), ls = pre ++ l :: post →
      map_find rd1.d_coefficients_ (l : Int) =
        some (rows_of ((read_values s).drop (tokens_needed (rd.orbitals_.NONLOCAL.getD []) pre))
          (n_proj rd l) (n_proj rd l))) := by
  induction ls generalizing rd s with
  | nil =>
    simp only [parse_dij_loop, Prod.mk.injEq, true_and] at h
    subst h
    refine ⟨fun _ _ => rfl, ?_⟩
    intro _ pre l post hp
    simp at hp
  | cons l0 ls ih =>
    rw [parse_dij_loop_cons] at h
    by_cases hle : n_proj rd l0 * n_proj rd l0 ≤ (read_values s).length
    · simp only [hle, if_true] at h
      obtain ⟨ih1, ih2⟩ := ih _ _ h
      constructor
      · intro k hk
        rw [ih1 k (fun l hl => hk l (List.mem_cons_of_mem _ hl))]
        exact map_find_assign_ne _ _ _ _ (fun e => hk l0 (List.mem_cons_self _ _) e.symm)
      · intro hnd pre l post hp
        rw [List.nodup_cons] at hnd
        cases pre with
        | nil =>
          simp only [List.nil_append, List.cons.injEq] at hp
          obtain ⟨rfl, rfl⟩ := hp
          rw [ih1 (l0 : Int) (fun l hl e => hnd.1 (by
            have : l = l0 := by exact_mod_cast e
            exact this ▸ hl))]
          simp [map_find_assign_self, tokens_needed]
        | cons p0 pre1 =>
          simp only [List.cons_append, List.cons.injEq] at hp
          obtain ⟨rfl, rfl⟩ := hp
          have := ih2 hnd.2 pre1 l post rfl
          rw [this]
          simp only [touch_nonlocal_getD, read_values_advance _ _ hle, List.drop_drop,
            tokens_needed_cons]
          simp only [n_proj_eq, touch_nonlocal_getD]
    · simp only [hle, if_false, Prod.mk.injEq] at h
      cases h.1

theorem range_split (k l : Nat) (h : l < k) :
    ∃ post, List.range k = List.range l ++ l :: post := by
  induction k with
  | zero => omega
  | succ k ih =>
    rw [List.range_succ]
    by_cases hl : l = k
    · subst hl
      exact ⟨[], rfl⟩
    · obtain ⟨post, hp⟩ := ih (by omega)
      exact ⟨post ++ [k], by rw [hp]; simp⟩

theorem mem_channels (l_max : Int) (l : Nat) : l ∈ channels l_max ↔ (l : Int) ≤ l_max := by
  unfold channels
  rw [List.mem_range]
  omega

/-! ## Lemmas: the arithmetic of one channel -/

theorem list_range_sum (S : Nat → ℚ) (n : Nat) :
    ((List.range n).map S).sum = ∑ k in Finset.range n, S k := by
  induction n with
  | zero => simp
  | succ n ih => rw [List.range_succ, List.map_append, List.sum_append, ih,
      Finset.sum_range_succ]; simp

/-- A loop whose body adds a term `S k` to the accumulator, when it does not
read out of range, ends with the accumulator increased by the sum of the terms. -/
theorem for_loop_additive (body : Nat → ℚ → Option ℚ) (P : Nat → Prop) (S : Nat → ℚ)
    (hb : ∀ k acc c, body k acc = some c → P k ∧ c = acc + S k)
    (ks : List Nat) (a b : ℚ) (h : for_loop body ks a = some b) :
    (∀ k ∈ ks, P k) ∧ b = a + (ks.map S).sum := by
  induction ks generalizing a with
  | nil =>
    simp only [for_loop, Option.some.injEq] at h
    simp [h]
  | cons k ks ih =>
    simp only [for_loop] at h
    cases hk : body k a with
    | none => simp [hk] at h
    | some c =>
      simp only [hk] at h
      obtain ⟨hP, hc⟩ := hb k a c hk
      obtain ⟨hall, hsum⟩ := ih c h
      refine ⟨?_, ?_⟩
      · intro k1 hk1
        rcases List.mem_cons.mp hk1 with rfl | hm
        · exact hP
        · exact hall k1 hm
      · rw [hsum, hc]
        simp only [List.map_cons, List.sum_cons]
        ring

theorem getElem?_some_getD {α : Type} (xs : List α) (i : Nat) (x dflt : α)
    (h : xs[i]? = some x) : i < xs.length ∧ xs.getD i dflt = x := by
  obtain ⟨hi, hx⟩ := List.getElem?_eq_some.mp h
  refine ⟨hi, ?_⟩
  rw [List.getD_eq_getElem?_getD, h]
  rfl

/-- A product that `nonlocal_term` delivers was read within bounds and is the
product of the specification. -/
theorem nonlocal_term_some (d : List (List ℚ)) (pv : List ℚ) (ppp r i j : Nat) (t : ℚ)
    (h : nonlocal_term d pv ppp r i j = some t) :
    (i * ppp + r < pv.length ∧ j * ppp + r < pv.length) ∧
      t = (d.getD i []).getD j 0 * pv.getD (i * ppp + r) 0 * pv.getD (j * ppp + r) 0 := by
  unfold nonlocal_term at h
  simp only [Option.bind_eq_bind, Option.bind_eq_some, Option.pure_def, Option.some.injEq] at h
  obtain ⟨row, hrow, c, hc, p, hp, q, hq, ht⟩ := h
  obtain ⟨_, e1⟩ := getElem?_some_getD d i row [] hrow
  obtain ⟨_, e2⟩ := getElem?_some_getD row j c 0 hc
  obtain ⟨b3, e3⟩ := getElem?_some_getD pv _ p 0 hp
  obtain ⟨b4, e4⟩ := getElem?_some_getD pv _ q 0 hq
  refine ⟨⟨b3, b4⟩, ?_⟩
  rw [e1, e2, e3, e4, ht]

/-- A value that `point_total` delivers was computed within bounds and is the
value of the formula of the specification. -/
theorem point_total_some (loc pv : List ℚ) (d : List (List ℚ)) (n r : Nat) (v : ℚ)
    (h : point_total loc pv d n (pv.length / n) r = some v) :
    r < loc.length ∧ (∀ i < n, i * (pv.length / n) + r < pv.length) ∧
      v = spec_total loc pv d n r := by
  unfold point_total at h
  cases hl : loc[r]? with
  | none => simp [hl] at h
  | some v0 =>
    simp only [hl] at h
    obtain ⟨hr, e0⟩ := getElem?_some_getD loc r v0 0 hl
    have inner : ∀ i acc c,
        for_loop (fun j acc1 =>
          match nonlocal_term d pv (pv.length / n) r i j with
          | none => none
          | some t => some (acc1 + t)) (List.range n) acc = some c →
        (0 < n → i * (pv.length / n) + r < pv.length) ∧
          c = acc + ∑ j in Finset.range n,
            (d.getD i []).getD j 0 * pv.getD (i * (pv.length / n) + r) 0
              * pv.getD (j * (pv.length / n) + r) 0 := by
      intro i acc c hc
      have key := for_loop_additive _
        (fun _ => i * (pv.length / n) + r < pv.length)
        (fun j => (d.getD i []).getD j 0 * pv.getD (i * (pv.length / n) + r) 0
              * pv.getD (j * (pv.length / n) + r) 0)
        (by
          intro j a1 c1 hj
          cases ht : nonlocal_term d pv (pv.length / n) r i j with
          | none => simp [ht] at hj
          | some t =>
            simp only [ht, Option.some.injEq] at hj
            obtain ⟨hb, et⟩ := nonlocal_term_some d pv _ r i j t ht
            exact ⟨hb.1, by rw [← hj, et]⟩)
        (List.range n) acc c hc
      refine ⟨fun hn => key.1 0 (List.mem_range.mpr hn), ?_⟩
      rw [key.2, list_range_sum]
    have outer := for_loop_additive _
      (fun i => 0 < n → i * (pv.length / n) + r < pv.length)
      (fun i => ∑ j in Finset.range n,
            (d.getD i []).getD j 0 * pv.getD (i * (pv.length / n) + r) 0
              * pv.getD (j * (pv.length / n) + r) 0)
      inner (List.range n) v0 v h
    refine ⟨hr, ?_, ?_⟩
    · intro i hi
      exact outer.1 i (List.mem_range.mpr hi) (by omega)
    · rw [outer.2, list_range_sum]
      unfold spec_total
      rw [e0]

theorem collect_points_some (f : Nat → Option ℚ) (rs : List Nat) (vs : List ℚ)
    (h : collect_points f rs = some vs) :
    vs.length = rs.length ∧ ∀ p (hp : p < rs.length), f (rs.get ⟨p, hp⟩) = vs[p]? := by
  induction rs generalizing vs with
  | nil =>
    simp only [collect_points, Option.some.injEq] at h
    subst h
    simp
  | cons r rs ih =>
    simp only [collect_points] at h
    cases hr : f r with
    | none => simp [hr] at h
    | some v =>
      simp only [hr] at h
      cases hrs : collect_points f rs with
      | none => simp [hrs] at h
      | some ws =>
        simp only [hrs, Option.some.injEq] at h
        subst h
        obtain ⟨hlen, hget⟩ := ih ws hrs
        refine ⟨by simp [hlen], ?_⟩
        intro p hp
        cases p with
        | zero => simp [hr]
        | succ p =>
          simp only [List.length_cons, Nat.add_lt_add_iff_right] at hp
          simpa using hget p hp

/-- A total potential that `channel_total` delivers has one entry per mesh
point, each computed within bounds and equal to the formula of the
specification; in particular the channel has a projector. -/
theorem channel_total_some (m : Nat) (loc pv : List ℚ) (d : List (List ℚ)) (tot : List ℚ)
    (h : channel_total m loc pv d = some tot) :
    0 < d.length ∧ tot.length = m ∧
      ∀ r < m, r < loc.length ∧ (∀ i < d.length, i * (pv.length / d.length) + r < pv.length) ∧
        tot[r]? = some (spec_total loc pv d d.length r) := by
  unfold channel_total at h
  by_cases hn : d.length = 0
  · simp [hn] at h
  · simp only [hn, if_false] at h
    obtain ⟨hlen, hget⟩ := collect_points_some _ _ _ h
    rw [List.length_range] at hlen
    refine ⟨Nat.pos_of_ne_zero hn, hlen, ?_⟩
    intro r hr
    have hp := hget r (by simpa using hr)
    simp only [List.get_eq_getElem, List.getElem_range] at hp
    have hsome : ∃ v, tot[r]? = some v := by
      have : r < tot.length := by omega
      exact ⟨tot[r], List.getElem?_eq_getElem this⟩
    obtain ⟨v, hv⟩ := hsome
    rw [hv] at hp
    obtain ⟨b1, b2, e⟩ := point_total_some loc pv d d.length r v hp
    exact ⟨b1, b2, by rw [hv, e]⟩

/-! ## Lemmas: `calculate_potentials` -/

/-- What the channel loop of `calculate_potentials` leaves untouched, whether
it is left by an exception or not. -/
theorem calculate_potentials_loop_frame (ls : List Nat) (rd : UPFReader) (g : Globals) :
    (calculate_potentials_loop ls rd g).2.1.header_ = rd.header_ ∧
    (calculate_potentials_loop ls rd g).2.1.r_mesh_ = rd.r_mesh_ ∧
    (calculate_potentials_loop ls rd g).2.1.d_coefficients_ = rd.d_coefficients_ ∧
    (calculate_potentials_loop ls rd g).2.1.orbitals_.LOCAL = rd.orbitals_.LOCAL ∧
    (calculate_potentials_loop ls rd g).2.1.orbitals_.WAVEFUNCTION = rd.orbitals_.WAVEFUNCTION ∧
    (calculate_potentials_loop ls rd g).2.1.orbitals_.NONLOCAL.getD [] =
      rd.orbitals_.NONLOCAL.getD [] ∧
    (calculate_potentials_loop ls rd g).2.2.g_upf_data_valid = g.g_upf_data_valid ∧
    (calculate_potentials_loop ls rd g).2.2.g_upf_header = g.g_upf_header ∧
    (calculate_potentials_loop ls rd g).2.2.g_r_mesh = g.g_r_mesh ∧
    (calculate_potentials_loop ls rd g).2.2.g_orbitals = g.g_orbitals ∧
    (calculate_potentials_loop ls rd g).2.2.g_local_potential = g.g_local_potential ∧
    (calculate_potentials_loop ls rd g).2.2.g_total_potentials = g.g_total_potentials := by
  induction ls generalizing rd g with
  | nil => simp [calculate_potentials_loop]
  | cons l ls ih =>
    simp only [calculate_potentials_loop]
    cases hp : get_nonlocal_potential rd.orbitals_ (l : Int) with
    | none => simp
    | some pot =>
      simp only []
      obtain ⟨h1, h2, h3, h4, h5, h6, h7, h8, h9, h10, h11, h12⟩ := ih
        { rd with orbitals_ := rd.orbitals_.touch_nonlocal }
        { g with
          g_nonlocal_potentials := map_assign g.g_nonlocal_potentials (l : Int) pot
          g_projectors := map_assign g.g_projectors (l : Int)
            (combined_projectors (rd.orbitals_.NONLOCAL.getD []) (l : Int)) }
      refine ⟨h1, h2, h3, ?_, ?_, ?_, h7, h8, h9, h10, h11, h12⟩
      · rw [h4]; rfl
      · rw [h5]; rfl
      · rw [h6]; simp

/-- After the channel loop of `calculate_potentials` has run to its end, every
channel it visited is a key of `g_nonlocal_potentials` and has its concatenated
projectors in `g_projectors`. -/
theorem calculate_potentials_loop_true (ls : List Nat) (rd rd1 : UPFReader) (g g1 : Globals)
    (h : calculate_potentials_loop ls rd g = (true, rd1, g1)) :
    (∀ k : Int, k ∈ g.g_nonlocal_potentials.map Prod.fst →
      k ∈ g1.g_nonlocal_potentials.map Prod.fst) ∧
    (∀ l ∈ ls, (l : Int) ∈ g1.g_nonlocal_potentials.map Prod.fst) ∧
    (∀ k : Int, (∀ l ∈ ls, (l : Int) ≠ k) →
      map_find g1.g_projectors k = map_find g.g_projectors k) ∧
    (∀ l ∈ ls, map_find g1.g_projectors (l : Int) =
      some (combined_projectors (rd.orbitals_.NONLOCAL.getD []) (l : Int))) := by
  induction ls generalizing rd g with
  | nil =>
    simp only [calculate_potentials_loop, Prod.mk.injEq, true_and] at h
    obtain ⟨_, rfl⟩ := h
    simp
  | cons l0 ls ih =>
    simp only [calculate_potentials_loop] at h
    cases hp : get_nonlocal_potential rd.orbitals_ (l0 : Int) with
    | none => simp [hp] at h
    | some pot =>
      simp only [hp] at h
      obtain ⟨i1, i2, i3, i4⟩ := ih _ _ h
      simp only [touch_nonlocal_getD] at i4
      refine ⟨?_, ?_, ?_, ?_⟩
      · intro k hk
        exact i1 k (mem_keys_assign_of_mem _ _ _ _ hk)
      · intro l hl
        rcases List.mem_cons.mp hl with rfl | hm
        · exact i1 _ (mem_keys_assign_self _ _ _)
        · exact i2 l hm
      · intro k hk
        rw [i3 k (fun l hl => hk l (List.mem_cons_of_mem _ hl))]
        exact map_find_assign_ne _ _ _ _ (fun e => hk l0 (List.mem_cons_self _ _) e.symm)
      · intro l hl
        by_cases hm : l ∈ ls
        · exact i4 l hm
        · have e : l = l0 := by
            rcases List.mem_cons.mp hl with e | hm1
            · exact e
            · exact absurd hm1 hm
          subst e
          rw [i3 (l : Int) (fun l1 hl1 e1 => hm (by
            have : l1 = l := by exact_mod_cast e1
            exact this ▸ hl1))]
          exact map_find_assign_self _ _ _

/-! ## Lemmas: the loop over the channels in `parse` -/

theorem TotalFrame.refl (rd : UPFReader) (g : Globals) : TotalFrame rd g rd g :=
  ⟨rfl, rfl, rfl, fun _ => rfl, fun _ _ h => h, rfl, rfl, rfl, rfl, rfl, rfl,
    fun _ => rfl, fun _ _ h => h⟩

theorem TotalFrame.trans {rd rd1 rd2 : UPFReader} {g g1 g2 : Globals}
    (a : TotalFrame rd g rd1 g1) (b : TotalFrame rd1 g1 rd2 g2) : TotalFrame rd g rd2 g2 :=
  ⟨b.header_.trans a.header_, b.r_mesh_.trans a.r_mesh_, b.orbitals_.trans a.orbitals_,
    fun k => (b.d_getD k).trans (a.d_getD k), fun k v h => b.d_some k v (a.d_some k v h),
    b.valid.trans a.valid, b.g_header.trans a.g_header, b.g_mesh.trans a.g_mesh,
    b.g_orbitals.trans a.g_orbitals, b.g_local.trans a.g_local, b.g_nonlocal.trans a.g_nonlocal,
    fun k => (b.p_getD k).trans (a.p_getD k), fun k v h => b.p_some k v (a.p_some k v h)⟩

/-- One pass of the loop, spelled out: the arithmetic is `channel_total` on the
stored (or freshly created, empty) projector buffer and matrix of the channel. -/
theorem total_step_eq (l : Int) (rd : UPFReader) (g : Globals) :
    total_step l rd g =
      match channel_total g.g_r_mesh.length g.g_local_potential
          ((map_find g.g_projectors l).getD []) ((map_find rd.d_coefficients_ l).getD []) with
      | none =>
        (false, { rd with d_coefficients_ := (map_subscript rd.d_coefficients_ l []).2 },
          { g with g_projectors := (map_subscript g.g_projectors l []).2 })
      | some tot =>
        (true, { rd with d_coefficients_ := (map_subscript rd.d_coefficients_ l []).2 },
          { g with
            g_projectors := (map_subscript g.g_projectors l []).2
            g_total_potentials := map_assign g.g_total_potentials l tot }) := by
  unfold total_step
  simp only [map_subscript_fst]

theorem total_step_frame (l : Int) (rd : UPFReader) (g : Globals) :
    TotalFrame rd g (total_step l rd g).2.1 (total_step l rd g).2.2 := by
  rw [total_step_eq]
  cases channel_total g.g_r_mesh.length g.g_local_potential
      ((map_find g.g_projectors l).getD []) ((map_find rd.d_coefficients_ l).getD []) <;>
    exact ⟨rfl, rfl, rfl, fun k => map_subscript_getD _ _ _ _,
      fun k v h => map_subscript_some _ _ _ _ _ h, rfl, rfl, rfl, rfl, rfl, rfl,
      fun k => map_subscript_getD _ _ _ _, fun k v h => map_subscript_some _ _ _ _ _ h⟩

theorem total_loop_frame (ls : List Int) (rd : UPFReader) (g : Globals) :
    TotalFrame rd g (total_loop ls rd g).2.1 (total_loop ls rd g).2.2 := by
  induction ls generalizing rd g with
  | nil => exact TotalFrame.refl rd g
  | cons l ls ih =>
    have hs := total_step_frame l rd g
    unfold total_loop
    rcases hst : total_step l rd g with ⟨ok, rd1, g1⟩
    rw [hst] at hs
    cases ok with
    | false => exact hs
    | true => exact hs.trans (ih rd1 g1)

/-- After the loop over the channels has run to its end, every channel it
visited has the total potential that `channel_total` computes from the state at
the start of the loop, and no other entry of `g_total_potentials` changed. -/
theorem total_loop_true (ls : List Int) (rd rd1 : UPFReader) (g g1 : Globals)
    (h : total_loop ls rd g = (true, rd1, g1)) (k : Int) :
    (k ∈ ls → ∃ tot, map_find g1.g_total_potentials k = some tot ∧
      channel_total g.g_r_mesh.length g.g_local_potential
        ((map_find g.g_projectors k).getD []) ((map_find rd.d_coefficients_ k).getD [])
        = some tot) ∧
    (k ∉ ls → map_find g1.g_total_potentials k = map_find g.g_total_potentials k) := by
  induction ls generalizing rd g with
  | nil =>
    simp only [total_loop, Prod.mk.injEq, true_and] at h
    obtain ⟨_, rfl⟩ := h
    simp
  | cons l ls ih =>
    have hf := total_step_frame l rd g
    have he := total_step_eq l rd g
    unfold total_loop at h
    rcases hst : total_step l rd g with ⟨ok, rd2, g2⟩
    rw [hst] at h hf he
    cases ok with
    | false => simp at h
    | true =>
      simp only at h
      obtain ⟨ih1, ih2⟩ := ih rd2 g2 h
      cases hc : channel_total g.g_r_mesh.length g.g_local_potential
          ((map_find g.g_projectors l).getD []) ((map_find rd.d_coefficients_ l).getD []) with
      | none => simp [hc] at he
      | some tot =>
        simp only [hc, Prod.mk.injEq, true_and] at he
        have hg2 : g2.g_total_potentials = map_assign g.g_total_potentials l tot := by
          rw [he.2]
        constructor
        · intro hk
          by_cases hm : k ∈ ls
          · obtain ⟨t, ht1, ht2⟩ := ih1 hm
            refine ⟨t, ht1, ?_⟩
            rw [hf.g_mesh, hf.g_local, hf.p_getD, hf.d_getD] at ht2
            exact ht2
          · have e : k = l := by
              rcases List.mem_cons.mp hk with e | hm1
              · exact e
              · exact absurd hm1 hm
            subst e
            refine ⟨tot, ?_, hc⟩
            rw [ih2 hm, hg2]
            exact map_find_assign_self _ _ _
        · intro hk
          have hm : k ∉ ls := fun hm => hk (List.mem_cons_of_mem _ hm)
          have hne : k ≠ l := fun e => hk (e ▸ List.mem_cons_self _ _)
          rw [ih2 hm, hg2]
          exact map_find_assign_ne _ _ _ _ hne

/-! ## Lemmas: the decoders and `parse` -/

theorem parse_local_ok (doc : Document) (rd : UPFReader) : (parse_local doc rd).1 = true := by
  unfold parse_local
  cases doc.localp with
  | none => rfl
  | some toks =>
    simp only []
    split_ifs <;> rfl

theorem parse_nonlocal_ok (doc : Document) (rd : UPFReader) :
    (parse_nonlocal doc rd).1 = true := by
  unfold parse_nonlocal
  cases doc.nonlocal <;> rfl

theorem parse_wavefunctions_ok (doc : Document) (rd : UPFReader) :
    (parse_wavefunctions doc rd).1 = true := by
  unfold parse_wavefunctions
  cases doc.chi <;> rfl

theorem decode_sections_eq (doc : Document) (rd : UPFReader) :
    decode_sections doc rd =
      match doc.header, doc.mesh with
      | none, _ => (false, rd)
      | some _, none => (false, (parse_header doc rd).2)
      | some _, some _ => parse_dij doc (before_dij doc rd) := by
  unfold decode_sections before_dij
  cases hh : doc.header with
  | none => simp [parse_header, hh]
  | some hd =>
    cases hm : doc.mesh with
    | none => simp [parse_header, parse_mesh, hh, hm]
    | some m =>
      have e1 : parse_header doc rd = (true, (parse_header doc rd).2) := by
        simp [parse_header, hh]
      have e2 : ∀ r, parse_mesh doc r = (true, (parse_mesh doc r).2) := by
        intro r
        simp [parse_mesh, hm]
      have e3 : ∀ r, parse_local doc r = (true, (parse_local doc r).2) := fun r =>
        Prod.ext (parse_local_ok doc r) rfl
      have e4 : ∀ r, parse_nonlocal doc r = (true, (parse_nonlocal doc r).2) := fun r =>
        Prod.ext (parse_nonlocal_ok doc r) rfl
      have e5 : ∀ r, parse_wavefunctions doc r = (true, (parse_wavefunctions doc r).2) :=
        fun r => Prod.ext (parse_wavefunctions_ok doc r) rfl
      rw [e1]
      simp only []
      rw [e2]
      simp only []
      rw [e3]
      simp only []
      rw [e4]
      simp only []
      rw [e5]

theorem decode_sections_true (doc : Document) (rd rd1 : UPFReader)
    (h : decode_sections doc rd = (true, rd1)) :
    doc.header ≠ none ∧ doc.mesh ≠ none ∧ parse_dij doc (before_dij doc rd) = (true, rd1) := by
  rw [decode_sections_eq] at h
  cases hh : doc.header with
  | none => simp [hh] at h
  | some hd =>
    cases hm : doc.mesh with
    | none => simp [hh, hm] at h
    | some m =>
      simp only [hh, hm] at h
      exact ⟨by simp, by simp, h⟩

/-- What a successful `parse_dij` establishes: the header, the mesh and the
records are as before, and every channel up to `l_max` has a matrix with as many
rows as the channel has nonlocal records. -/
theorem parse_dij_true (doc : Document) (rd rd1 : UPFReader)
    (h : parse_dij doc rd = (true, rd1)) :
    rd1.header_ = rd.header_ ∧ rd1.r_mesh_ = rd.r_mesh_ ∧
    rd1.orbitals_.LOCAL = rd.orbitals_.LOCAL ∧
    rd1.orbitals_.NONLOCAL.getD [] = rd.orbitals_.NONLOCAL.getD [] ∧
    ∀ l : Nat, (l : Int) ≤ rd.header_.l_max →
      ∃ M, map_find rd1.d_coefficients_ (l : Int) = some M ∧ M.length = n_proj rd l := by
  unfold parse_dij at h
  cases ht : doc.nonlocal.bind (fun nl => nl.dij) with
  | none => simp [ht] at h
  | some toks =>
    simp only [ht] at h
    obtain ⟨f1, f2, f3⟩ := parse_dij_loop_frame (channels rd.header_.l_max) rd toks
    rw [h] at f1 f2 f3
    simp only at f1 f2 f3
    refine ⟨f1, f2, ?_, ?_, ?_⟩
    · rw [f3]
      split_ifs <;> rfl
    · rw [f3]
      split_ifs
      · rfl
      · simp
    · intro l hl
      have hmem : l < (rd.header_.l_max + 1).toNat := by omega
      obtain ⟨post, hp⟩ := range_split _ l hmem
      have := (parse_dij_loop_matrices _ rd rd1 toks h).2 (List.nodup_range _) _ l post hp
      exact ⟨_, this, rows_of_length _ _ _⟩

theorem calculate_potentials_true (rd rd1 : UPFReader) (g g1 : Globals)
    (h : calculate_potentials rd g = (true, rd1, g1)) :
    ∃ pot, get_local_potential rd.orbitals_ = some pot ∧
      calculate_potentials_loop (channels rd.header_.l_max) rd
        { g with g_local_potential := pot } = (true, rd1, g1) := by
  unfold calculate_potentials at h
  cases hp : get_local_potential rd.orbitals_ with
  | none => simp [hp] at h
  | some pot => exact ⟨pot, rfl, by simpa [hp] using h⟩

/-- The stages of a call of `parse` that returns `true`. -/
theorem parse_true (file : Option Document) (rd rd1 : UPFReader) (g g1 : Globals)
    (h : parse file rd g = (Outcome.returned true, rd1, g1)) :
    ∃ doc rdA rdB gB gC,
      file = some doc ∧
      decode_sections doc { rd with d_coefficients_ := [] } = (true, rdA) ∧
      calculate_potentials rdA (publish rdA { g with g_upf_data_valid := false })
        = (true, rdB, gB) ∧
      total_loop (gB.g_nonlocal_potentials.map Prod.fst) rdB { gB with g_total_potentials := [] }
        = (true, rd1, gC) ∧
      g1 = { gC with g_upf_data_valid := true } := by
  unfold parse at h
  cases file with
  | none => simp at h
  | some doc =>
    simp only at h
    rcases hd : decode_sections doc { rd with d_coefficients_ := [] } with ⟨ok, rdA⟩
    rw [hd] at h
    cases ok with
    | false => simp at h
    | true =>
      simp only at h
      rcases hc : calculate_potentials rdA (publish rdA { g with g_upf_data_valid := false })
        with ⟨ok2, rdB, gB⟩
      rw [hc] at h
      cases ok2 with
      | false => simp at h
      | true =>
        simp only at h
        rcases ht : total_loop (gB.g_nonlocal_potentials.map Prod.fst) rdB
          { gB with g_total_potentials := [] } with ⟨ok3, rdC, gC⟩
        rw [ht] at h
        cases ok3 with
        | false => simp at h
        | true =>
          simp only [Prod.mk.injEq, true_and] at h
          obtain ⟨rfl, rfl⟩ := h
          exact ⟨doc, rdA, rdB, gB, gC, rfl, hd, hc, ht, rfl⟩

/-- The state after a call of `parse` that returns `true`: the mesh and the
header are published, and every channel up to `l_max` has a matrix of the size
of its projector count, its concatenated projectors in `g_projectors`, and in
`g_total_potentials` the total potential that `channel_total` computes. -/
theorem parse_total (file : Option Document) (rd rd1 : UPFReader) (g g1 : Globals)
    (h : parse file rd g = (Outcome.returned true, rd1, g1)) :
    g1.g_upf_data_valid = true ∧ g1.g_r_mesh = rd1.r_mesh_ ∧
    g1.g_upf_header.l_max = rd1.header_.l_max ∧
    get_local_potential rd1.orbitals_ = some g1.g_local_potential ∧
    ∀ l : Nat, (l : Int) ≤ rd1.header_.l_max →
      (D rd1 l).length = n_proj rd1 l ∧
      map_find rd1.d_coefficients_ (l : Int) = some (D rd1 l) ∧
      map_find g1.g_projectors (l : Int) = some (buffer rd1 l) ∧
      ∃ tot, map_find g1.g_total_potentials (l : Int) = some tot ∧
        channel_total g1.g_r_mesh.length g1.g_local_potential (buffer rd1 l) (D rd1 l)
          = some tot := by
  obtain ⟨doc, rdA, rdB, gB, gC, rfl, hdec, hcalc, htot, rfl⟩ := parse_true _ _ _ _ _ h
  obtain ⟨_, _, hdij⟩ := decode_sections_true _ _ _ hdec
  obtain ⟨a1, a2, a3, a4, a5⟩ := parse_dij_true _ _ _ hdij
  obtain ⟨pot, hpot, hloop⟩ := calculate_potentials_true _ _ _ _ hcalc
  obtain ⟨c1, c2, c3, c4, c5, c6, c7, c8, c9, c10, c11, c12⟩ :=
    calculate_potentials_loop_frame (channels rdA.header_.l_max) rdA
      { publish rdA { g with g_upf_data_valid := false } with g_local_potential := pot }
  rw [hloop] at c1 c2 c3 c4 c5 c6 c7 c8 c9 c10 c11 c12
  simp only at c1 c2 c3 c4 c5 c6 c7 c8 c9 c10 c11 c12
  obtain ⟨k1, k2, k3, k4⟩ := calculate_potentials_loop_true _ _ _ _ _ hloop
  have fr := total_loop_frame (gB.g_nonlocal_potentials.map Prod.fst) rdB
    { gB with g_total_potentials := [] }
  rw [htot] at fr
  simp only at fr
  have hmesh : gC.g_r_mesh = rd1.r_mesh_ := by
    rw [fr.g_mesh, fr.r_mesh_, c9, c2]
    rfl
  have hloc : gC.g_local_potential = pot := by
    rw [fr.g_local, c11]
  have hhead : rd1.header_ = rdA.header_ := by rw [fr.header_, c1]
  have hrecs : rd1.orbitals_.NONLOCAL.getD [] = rdA.orbitals_.NONLOCAL.getD [] := by
    rw [fr.orbitals_, c6]
  refine ⟨rfl, hmesh, ?_, ?_, ?_⟩
  · show gC.g_upf_header.l_max = rd1.header_.l_max
    rw [fr.g_header, c8, hhead]
    rfl
  · show get_local_potential rd1.orbitals_ = some gC.g_local_potential
    rw [hloc, ← hpot]
    unfold get_local_potential
    rw [fr.orbitals_, c4]
  · intro l hl
    rw [hhead] at hl
    have hlA : (l : Int) ≤ (before_dij doc { rd with d_coefficients_ := [] }).header_.l_max := by
      rw [← a1]; exact hl
    obtain ⟨M, hM, hMlen⟩ := a5 l hlA
    have hMB : map_find rdB.d_coefficients_ (l : Int) = some M := by rw [c3]; exact hM
    have hM1 : map_find rd1.d_coefficients_ (l : Int) = some M := fr.d_some _ _ hMB
    have hD : D rd1 l = M := by
      unfold D
      rw [hM1]
      rfl
    have hn : n_proj rd1 l = M.length := by
      rw [hMlen, n_proj_eq, n_proj_eq, hrecs, a4]
    have hbuf : buffer rd1 l = combined_projectors (rdA.orbitals_.NONLOCAL.getD []) (l : Int) := by
      rw [buffer_eq, hrecs]
    have hpB : map_find gB.g_projectors (l : Int) = some (buffer rd1 l) := by
      rw [hbuf]
      exact k4 l ((mem_channels _ _).mpr hl)
    have hkey : (l : Int) ∈ gB.g_nonlocal_potentials.map Prod.fst :=
      k2 l ((mem_channels _ _).mpr hl)
    obtain ⟨tot, ht1, ht2⟩ := (total_loop_true _ _ _ _ _ htot (l : Int)).1 hkey
    simp only at ht2
    rw [hpB, hMB] at ht2
    simp only [Option.getD_some] at ht2
    refine ⟨by rw [hD, hn], by rw [hD]; exact hM1, fr.p_some _ _ hpB, tot, ht1, ?_⟩
    show channel_total gC.g_r_mesh.length gC.g_local_potential (buffer rd1 l) (D rd1 l) = some tot
    rw [hD, fr.g_mesh, fr.g_local]
    exact ht2

/-! ## Lemmas: all-zero matrices -/

theorem zero_entry (d : List (List ℚ)) (hz : ∀ row ∈ d, ∀ c ∈ row, c = 0) (i j : Nat) :
    (d.getD i []).getD j 0 = 0 := by
  rw [List.getD_eq_getElem?_getD, List.getD_eq_getElem?_getD]
  cases hrow : d[i]? with
  | none => simp
  | some row =>
    simp only [Option.getD_some]
    cases hc : row[j]? with
    | none => simp
    | some c =>
      simp only [Option.getD_some]
      exact hz row (List.getElem?_mem hrow) c (List.getElem?_mem hc)

theorem spec_total_zero (loc buf : List ℚ) (d : List (List ℚ)) (n r : Nat)
    (hz : ∀ row ∈ d, ∀ c ∈ row, c = 0) : spec_total loc buf d n r = loc.getD r 0 := by
  unfold spec_total
  simp only [zero_entry d hz, zero_mul, Finset.sum_const_zero, add_zero]

/-- A channel without projector never gets through the loop of `parse`. -/
theorem channel_total_empty (m : Nat) (loc pv : List ℚ) : channel_total m loc pv [] = none := by
  simp [channel_total]

/-! ## The claims -/

/-- C2, on the round-trip scenario of the specification (`l_max = 1`, no beta
at `l = 1`): every section decoder succeeds and channel 1 has no nonlocal
record, but the loop of `parse` divides by `n_proj = 0` at `l = 1`; the call
does not return, `g_total_potentials` has no entry for channel 1 and the
validity flag stays false. -/
theorem round_trip_channel_without_record :
    (decode_sections (scenario 1) UPFReader.fresh).1 = true ∧
    n_proj (parse (some (scenario 1)) UPFReader.fresh Globals.initial).2.1 1 = 0 ∧
    (parse (some (scenario 1)) UPFReader.fresh Globals.initial).1 = Outcome.undefined ∧
    map_find (parse (some (scenario 1)) UPFReader.fresh Globals.initial).2.2.g_total_potentials 1
      = none ∧
    (parse (some (scenario 1)) UPFReader.fresh Globals.initial).2.2.g_local_potential
      = [-1, -2, -3] ∧
    (parse (some (scenario 1)) UPFReader.fresh Globals.initial).2.2.g_upf_data_valid = false := by
  decide!

theorem rows_of_entry (vals : List ℚ) (off n i j : Nat) (hi : i < n) (hj : j < n)
    (hlen : off + n * n ≤ vals.length) :
    ∃ row v, (rows_of (vals.drop off) n n)[i]? = some row ∧ row.length = n ∧
      row[j]? = some v ∧ vals[off + i * n + j]? = some v := by
  have h1 : i * n + n ≤ n * n := by
    calc i * n + n = (i + 1) * n := by ring
      _ ≤ n * n := Nat.mul_le_mul_right n hi
  have hb : off + i * n + j < vals.length := by omega
  refine ⟨((vals.drop off).drop (i * n)).take n, vals[off + i * n + j],
    rows_of_getElem _ _ _ _ hi, ?_, ?_, List.getElem?_eq_getElem hb⟩
  · simp only [List.length_take, List.length_drop]
    omega
  · rw [List.getElem?_take_of_lt hj, List.getElem?_drop, List.getElem?_drop,
      ← Nat.add_assoc, List.getElem?_eq_getElem hb]

theorem rows_of_row_length (vals : List ℚ) (n : Nat) (hlen : n * n ≤ vals.length)
    (row : List ℚ) (hrow : row ∈ rows_of vals n n) : row.length = n := by
  unfold rows_of at hrow
  obtain ⟨i, hi, rfl⟩ := List.mem_map.mp hrow
  have hi1 : i < n := List.mem_range.mp hi
  have h1 : i * n + n ≤ n * n := by
    calc i * n + n = (i + 1) * n := by ring
      _ ≤ n * n := Nat.mul_le_mul_right n hi1
  simp only [List.length_take, List.length_drop]
  omega

/-- C4: when the coefficient block supplies enough numeric tokens, `parse_dij`
succeeds and, for every `l` in `0..l_max`, stores a square matrix with
`n_proj(l)` rows of `n_proj(l)` entries, where `n_proj(l)` is the number of
nonlocal records with that `l` decoded before; its entry `[i][j]` is the real of
the token of the stream at position `(Σ_{k<l} n_proj(k)^2) + i * n_proj(l) + j`
(row-major, channel after channel). A channel with `n_proj(l) = 0` gets the empty
matrix, and the next channel starts at the same position. -/
theorem coefficient_matrices (doc : Document) (rd : UPFReader) (nl : NonlocalNode)
    (toks : List Token) (hnl : doc.nonlocal = some nl) (hdij : nl.dij = some toks)
    (henough : ∑ l in Finset.range (rd.header_.l_max + 1).toNat, n_proj rd l ^ 2
      ≤ (read_values toks).length) :
    (parse_dij doc rd).1 = true ∧
    ∀ l : Nat, (l : Int) ≤ rd.header_.l_max →
      n_proj (parse_dij doc rd).2 l = n_proj rd l ∧
      ∃ M, map_find (parse_dij doc rd).2.d_coefficients_ (l : Int) = some M ∧
        M.length = n_proj rd l ∧
        (∀ row ∈ M, row.length = n_proj rd l) ∧
        (∀ i < n_proj rd l, ∀ j < n_proj rd l, ∃ row v,
          M[i]? = some row ∧ row[j]? = some v ∧
          (toks[(∑ k in Finset.range l, n_proj rd k ^ 2) + i * n_proj rd l + j]?).bind
            token_value = some v) ∧
        (n_proj rd l = 0 → M = [] ∧
          ∑ k in Finset.range (l + 1), n_proj rd k ^ 2 = ∑ k in Finset.range l, n_proj rd k ^ 2) := by
  have hsec : doc.nonlocal.bind (fun nl => nl.dij) = some toks := by
    rw [hnl]
    exact hdij
  have hpd : parse_dij doc rd = parse_dij_loop (channels rd.header_.l_max) rd toks := by
    unfold parse_dij
    rw [hsec]
  have hneed : tokens_needed (rd.orbitals_.NONLOCAL.getD []) (channels rd.header_.l_max)
      ≤ (read_values toks).length := by
    unfold channels
    rw [tokens_needed_range_n_proj]
    exact henough
  have hok : (parse_dij_loop (channels rd.header_.l_max) rd toks).1 = true :=
    (parse_dij_loop_ok_iff _ _ _).mpr hneed
  have hpair : parse_dij_loop (channels rd.header_.l_max) rd toks
      = (true, (parse_dij_loop (channels rd.header_.l_max) rd toks).2) := Prod.ext hok rfl
  rw [hpd]
  refine ⟨hok, ?_⟩
  intro l hl
  have hmem : l < (rd.header_.l_max + 1).toNat := by omega
  obtain ⟨post, hp⟩ := range_split _ l hmem
  have hM := (parse_dij_loop_matrices _ rd _ toks hpair).2 (List.nodup_range _) _ l post hp
  have hsplit : tokens_needed (rd.orbitals_.NONLOCAL.getD []) (List.range l)
      + n_proj rd l * n_proj rd l ≤ (read_values toks).length := by
    unfold channels at hneed
    rw [hp, tokens_needed_append, tokens_needed_cons] at hneed
    simp only [n_proj_eq]
    omega
  have hoff : tokens_needed (rd.orbitals_.NONLOCAL.getD []) (List.range l)
      = ∑ k in Finset.range l, n_proj rd k ^ 2 := tokens_needed_range_n_proj _ _
  obtain ⟨_, _, f3⟩ := parse_dij_loop_frame (channels rd.header_.l_max) rd toks
  refine ⟨?_, _, hM, rows_of_length _ _ _, ?_, ?_, ?_⟩
  · rw [n_proj_eq, n_proj_eq, f3]
    split_ifs
    · rfl
    · simp
  · intro row hrow
    refine rows_of_row_length _ _ ?_ row hrow
    rw [List.length_drop]
    omega
  · intro i hi j hj
    obtain ⟨row, v, h1, _, h3, h4⟩ := rows_of_entry (read_values toks) _ _ i j hi hj hsplit
    refine ⟨row, v, h1, h3, ?_⟩
    rw [← hoff]
    exact read_values_getElem _ _ _ h4
  · intro h0
    refine ⟨?_, ?_⟩
    · rw [h0]
      rfl
    · rw [Finset.sum_range_succ, h0]
      simp

/-- C4, on a reader with two nonlocal records at `l = 0`, none at `l = 1` and one
at `l = 2`, and the stream `1 2 3 4 5`: the decoder succeeds with the row-major
`D[0] = [[1, 2], [3, 4]]`, the empty `D[1]` and `D[2] = [[5]]`. -/
theorem coefficient_matrices_witness :
    n_proj reader_three_channels 0 = 2 ∧ n_proj reader_three_channels 1 = 0 ∧
    n_proj reader_three_channels 2 = 1 ∧
    (∑ l in Finset.range (reader_three_channels.header_.l_max + 1).toNat,
      n_proj reader_three_channels l ^ 2
      ≤ (read_values
        [Token.num 1, Token.num 2, Token.num 3, Token.num 4, Token.num 5]).length) ∧
    (parse_dij scenario_three_channels reader_three_channels).2.d_coefficients_
      = [(0, [[1, 2], [3, 4]]), (1, []), (2, [[5]])] ∧
    (parse_dij scenario_three_channels reader_three_channels).1 = true :=
  ⟨by decide!, by decide!, by decide!, by decide!, by decide!,
    (coefficient_matrices scenario_three_channels reader_three_channels _
      [Token.num 1, Token.num 2, Token.num 3, Token.num 4, Token.num 5]
      rfl rfl (by decide!)).1⟩

theorem parse_of_decode_false (doc : Document) (rd rdA : UPFReader) (g : Globals)
    (h : decode_sections doc { rd with d_coefficients_ := [] } = (false, rdA)) :
    parse (some doc) rd g = (Outcome.returned false, rdA, { g with g_upf_data_valid := false }) := by
  unfold parse
  simp only [h]

/-- A call of `parse` that returns `false` leaves every published global as it
was, the validity flag apart, which it resets. -/
theorem parse_returned_false (file : Option Document) (rd : UPFReader) (g : Globals)
    (h : (parse file rd g).1 = Outcome.returned false) :
    (parse file rd g).2.2 = { g with g_upf_data_valid := false } := by
  cases file with
  | none => rfl
  | some doc =>
    rcases hd : decode_sections doc { rd with d_coefficients_ := [] } with ⟨ok, rdA⟩
    cases ok with
    | false => rw [parse_of_decode_false doc rd rdA g hd]
    | true =>
      exfalso
      unfold parse at h
      simp only [hd] at h
      rcases hc : calculate_potentials rdA (publish rdA { g with g_upf_data_valid := false })
        with ⟨ok2, rdB, gB⟩
      simp only [hc] at h
      cases ok2 with
      | false => simp at h
      | true =>
        simp only at h
        rcases ht : total_loop (gB.g_nonlocal_potentials.map Prod.fst) rdB
          { gB with g_total_potentials := [] } with ⟨ok3, rdC, gC⟩
        simp only [ht] at h
        cases ok3 <;> simp at h

theorem nonlocal_records_kept (nl : NonlocalNode) (ls : List Nat) (o : Orbitals)
    (rec : OrbitalData) (h : rec ∈ o.NONLOCAL.getD []) :
    rec ∈ (ls.foldl (parse_nonlocal_channel nl) o).NONLOCAL.getD [] := by
  induction ls generalizing o with
  | nil => exact h
  | cons l ls ih =>
    simp only [List.foldl_cons]
    apply ih
    unfold parse_nonlocal_channel
    cases nl.beta (l + 1) with
    | none => exact h
    | some toks =>
      simp only
      split_ifs
      · simp only [Orbitals.push_nonlocal, Option.getD_some, List.mem_append]
        exact Or.inl h
      · exact h

/-- C7: for a channel whose beta section is present and holds at least one
value, the record that `parse_nonlocal` emits has the beta values as `values`
and, when there is no explicit projector section, the same sequence as
`projector`; when the explicit projector section exists, `projector` is the
sequence read from that section. The record is in the orbital collection when
`parse_nonlocal` returns. -/
theorem projector_fallback (nl : NonlocalNode) (o : Orbitals) (l : Nat) (beta_toks : List Token)
    (hb : nl.beta (l + 1) = some beta_toks) (hne : read_values beta_toks ≠ []) :
    (nl.proj (l + 1) = none →
      parse_nonlocal_channel nl o l = o.push_nonlocal
        { values := read_values beta_toks, projector := read_values beta_toks, l := (l : Int) }) ∧
    (∀ proj_toks, nl.proj (l + 1) = some proj_toks →
      parse_nonlocal_channel nl o l = o.push_nonlocal
        { values := read_values beta_toks, projector := read_values proj_toks, l := (l : Int) }) ∧
    (∀ (doc : Document) (rd : UPFReader), doc.nonlocal = some nl → (l : Int) ≤ rd.header_.l_max →
      (parse_nonlocal doc rd).1 = true ∧
      ({ values := read_values beta_toks
         projector := match nl.proj (l + 1) with
           | some proj_toks => read_values proj_toks
           | none => read_values beta_toks
         l := (l : Int) } : OrbitalData)
        ∈ (parse_nonlocal doc rd).2.orbitals_.NONLOCAL.getD []) := by
  have hstep : ∀ o1 : Orbitals, parse_nonlocal_channel nl o1 l = o1.push_nonlocal
      { values := read_values beta_toks
        projector := match nl.proj (l + 1) with
          | some proj_toks => read_values proj_toks
          | none => read_values beta_toks
        l := (l : Int) } := by
    intro o1
    simp only [parse_nonlocal_channel, hb]
    rw [if_pos hne]
  refine ⟨?_, ?_, ?_⟩
  · intro hp
    rw [hstep, hp]
  · intro proj_toks hp
    rw [hstep, hp]
  · intro doc rd hnl hl
    refine ⟨parse_nonlocal_ok doc rd, ?_⟩
    simp only [parse_nonlocal, hnl]
    have hmem : l < (rd.header_.l_max + 1).toNat := by omega
    obtain ⟨post, hp⟩ := range_split _ l hmem
    unfold channels
    rw [hp, List.foldl_append, List.foldl_cons]
    apply nonlocal_records_kept
    rw [hstep]
    simp [Orbitals.push_nonlocal]

/-- C7, on the scenario (beta `[0.5, 0.4, 0.3]` at `l = 0`): without explicit
projector the record emitted has the beta as its projector; with the explicit
projector section `7 8 9` it has that sequence. -/
theorem projector_fallback_witness :
    (scenario_nonlocal [Token.num 2]).beta (0 + 1)
      = some [Token.num (1/2), Token.num (2/5), Token.num (3/10)] ∧
    read_values [Token.num (1/2), Token.num (2/5), Token.num (3/10)] ≠ [] ∧
    parse_nonlocal_channel (scenario_nonlocal [Token.num 2]) UPFReader.fresh.orbitals_ 0
      = UPFReader.fresh.orbitals_.push_nonlocal
        { values := read_values [Token.num (1/2), Token.num (2/5), Token.num (3/10)]
          projector := read_values [Token.num (1/2), Token.num (2/5), Token.num (3/10)]
          l := ((0 : Nat) : Int) } ∧
    parse_nonlocal_channel scenario_explicit_projector UPFReader.fresh.orbitals_ 0
      = UPFReader.fresh.orbitals_.push_nonlocal
        { values := read_values [Token.num (1/2), Token.num (2/5), Token.num (3/10)]
          projector := read_values [Token.num 7, Token.num 8, Token.num 9]
          l := ((0 : Nat) : Int) } :=
  ⟨rfl, by decide,
    (projector_fallback (scenario_nonlocal [Token.num 2]) UPFReader.fresh.orbitals_ 0
      [Token.num (1/2), Token.num (2/5), Token.num (3/10)] rfl (by decide)).1 rfl,
    (projector_fallback scenario_explicit_projector UPFReader.fresh.orbitals_ 0
      [Token.num (1/2), Token.num (2/5), Token.num (3/10)] rfl (by decide)).2.1
      [Token.num 7, Token.num 8, Token.num 9] rfl⟩

/-- C8, evaluated on a document with header, mesh and local potential but
without nonlocal section, on a new reader. `parse_nonlocal` returns `true` and
adds no record (its comment: the nonlocal potential is optional), but `parse`
goes on to `parse_dij`, which fails for want of the coefficient block: `parse`
returns `false`, in both builds, the validity flag is false and no total
potential is stored. The absence of the wavefunction section alone is no error:
the scenario of the specification has none and parses. -/
theorem absent_nonlocal_section_fails :
    scenario_no_nonlocal.nonlocal = none ∧
    (parse_nonlocal scenario_no_nonlocal
      (parse_local scenario_no_nonlocal (parse_mesh scenario_no_nonlocal
        (parse_header scenario_no_nonlocal UPFReader.fresh).2).2).2).1 = true ∧
    (parse_nonlocal scenario_no_nonlocal
      (parse_local scenario_no_nonlocal (parse_mesh scenario_no_nonlocal
        (parse_header scenario_no_nonlocal UPFReader.fresh).2).2).2).2.orbitals_.NONLOCAL
      = none ∧
    (parse_dij scenario_no_nonlocal (before_dij scenario_no_nonlocal UPFReader.fresh)).1
      = false ∧
    (parse (some scenario_no_nonlocal) UPFReader.fresh Globals.initial).1
      = Outcome.returned false ∧
    (parse (some scenario_no_nonlocal) UPFReader.fresh Globals.initial).2.2.g_upf_data_valid
      = false ∧
    (parse (some scenario_no_nonlocal) UPFReader.fresh Globals.initial).2.2.g_total_potentials
      = [] ∧
    (parse_plain Memory.zero (some scenario_no_nonlocal) UPFReader.fresh Globals.initial).1
      = Outcome.returned false ∧
    (scenario 0).chi = none ∧
    (parse (some (scenario 0)) UPFReader.fresh Globals.initial).1 = Outcome.returned true := by
  refine ⟨rfl, by decide!, by decide!, by decide!, by decide!, by decide!, by decide!,
    by decide!, rfl, by decide!⟩

/-- C9, on the scenario without local-potential section and a new reader: every
section decoder succeeds, then `get_local_potential` throws on the missing
`LOCAL` key; the call does not return, no total potential is stored and the
validity flag stays false. -/
theorem no_local_potential_throws :
    (decode_sections scenario_no_local UPFReader.fresh).1 = true ∧
    get_local_potential (decode_sections scenario_no_local UPFReader.fresh).2.orbitals_ = none ∧
    (parse (some scenario_no_local) UPFReader.fresh Globals.initial).1 = Outcome.thrown ∧
    (parse (some scenario_no_local) UPFReader.fresh Globals.initial).2.2.g_total_potentials = [] ∧
    (parse (some scenario_no_local) UPFReader.fresh Globals.initial).2.2.g_upf_data_valid
      = false := by
  decide!

/-- C10 as stated fails: on the scenario without local-potential section the
parse is aborted by the exception of `get_local_potential`, after the header,
the mesh and the orbital records have been published. -/
theorem aborted_parse_exposes_mesh :
    (parse (some scenario_no_local) UPFReader.fresh Globals.initial).1 = Outcome.thrown ∧
    Globals.initial.g_r_mesh = [] ∧
    (parse (some scenario_no_local) UPFReader.fresh Globals.initial).2.2.g_r_mesh
      = [1/10, 1/5, 3/10] ∧
    (parse (some scenario_no_local) UPFReader.fresh Globals.initial).2.2.g_upf_header.element
      = "X" ∧
    (parse (some scenario_no_local) UPFReader.fresh Globals.initial).2.2.g_orbitals ≠ [] := by
  decide!

/-- C10, amended: whenever a section decoder fails, or the document cannot be
loaded, so that `parse` returns `false`, the published header, mesh, orbital
records, local and nonlocal potentials, projectors and total potentials are
exactly what they were before the call, and the validity flag is false. -/
theorem failed_decoder_publishes_nothing (file : Option Document) (rd : UPFReader) (g : Globals)
    (h : (parse file rd g).1 = Outcome.returned false) :
    (parse file rd g).2.2 = { g with g_upf_data_valid := false } :=
  parse_returned_false file rd g h

/-- C10 amended, on globals left by an earlier successful parse and a document
whose coefficient block is too short: the parse returns `false` and the earlier
results are still published, with the validity flag reset. -/
theorem failed_decoder_publishes_nothing_witness :
    (parse (some scenario_no_coefficient) UPFReader.fresh
      (parse (some (scenario 0)) UPFReader.fresh Globals.initial).2.2).1
      = Outcome.returned false ∧
    (parse (some scenario_no_coefficient) UPFReader.fresh
      (parse (some (scenario 0)) UPFReader.fresh Globals.initial).2.2).2.2
      = { (parse (some (scenario 0)) UPFReader.fresh Globals.initial).2.2 with
          g_upf_data_valid := false } :=
  ⟨by decide!,
    failed_decoder_publishes_nothing (some scenario_no_coefficient) UPFReader.fresh _
      (by decide!)⟩

/-! ## Lemmas: the validity flag and the required sections -/

theorem calculate_potentials_valid (rd : UPFReader) (g : Globals) :
    (calculate_potentials rd g).2.2.g_upf_data_valid = g.g_upf_data_valid := by
  unfold calculate_potentials
  cases get_local_potential rd.orbitals_ with
  | none => rfl
  | some pot =>
    simp only
    obtain ⟨_, _, _, _, _, _, h7, _⟩ :=
      calculate_potentials_loop_frame (channels rd.header_.l_max) rd
        { g with g_local_potential := pot }
    exact h7

/-- The two ways a call of `parse` can end: it returns `true` with the flag set,
or it ends otherwise with the flag false. -/
theorem parse_flag_cases (file : Option Document) (rd : UPFReader) (g : Globals) :
    ((parse file rd g).1 = Outcome.returned true ∧
      (parse file rd g).2.2.g_upf_data_valid = true) ∨
    ((parse file rd g).1 ≠ Outcome.returned true ∧
      (parse file rd g).2.2.g_upf_data_valid = false) := by
  cases file with
  | none => exact Or.inr ⟨by simp [parse], rfl⟩
  | some doc =>
    rcases hd : decode_sections doc { rd with d_coefficients_ := [] } with ⟨ok, rdA⟩
    cases ok with
    | false =>
      rw [parse_of_decode_false doc rd rdA g hd]
      exact Or.inr ⟨by simp, rfl⟩
    | true =>
      have hv := calculate_potentials_valid rdA (publish rdA { g with g_upf_data_valid := false })
      unfold parse
      simp only [hd]
      rcases hc : calculate_potentials rdA (publish rdA { g with g_upf_data_valid := false })
        with ⟨ok2, rdB, gB⟩
      rw [hc] at hv
      simp only at hv
      cases ok2 with
      | false => exact Or.inr ⟨by simp, hv⟩
      | true =>
        simp only
        have fr := total_loop_frame (gB.g_nonlocal_potentials.map Prod.fst) rdB
          { gB with g_total_potentials := [] }
        rcases ht : total_loop (gB.g_nonlocal_potentials.map Prod.fst) rdB
          { gB with g_total_potentials := [] } with ⟨ok3, rdC, gC⟩
        rw [ht] at fr
        cases ok3 with
        | false =>
          refine Or.inr ⟨by simp, ?_⟩
          simp only
          rw [fr.valid]
          exact hv
        | true => exact Or.inl ⟨rfl, rfl⟩

/-! ## The claims on state, flag and required sections -/

/-- C11, evaluated. With new readers: `scenario 0` parses both from the initial
globals and from the globals left by a parse of `scenario_chi`, but in the second
case the published orbital records still hold the wavefunction of the earlier
file. With one reader: `scenario_repeat` parses twice in a row; the second parse
publishes a mesh of two points, duplicated orbital records, a projector buffer
of six samples and another total potential. -/
theorem parse_depends_on_earlier_parses :
    (parse (some (scenario 0)) UPFReader.fresh Globals.initial).1 = Outcome.returned true ∧
    (parse (some (scenario 0)) UPFReader.fresh
      (parse (some scenario_chi) UPFReader.fresh Globals.initial).2.2).1
      = Outcome.returned true ∧
    map_find (parse (some (scenario 0)) UPFReader.fresh Globals.initial).2.2.g_orbitals 2
      = none ∧
    map_find (parse (some (scenario 0)) UPFReader.fresh
      (parse (some scenario_chi) UPFReader.fresh Globals.initial).2.2).2.2.g_orbitals 2
      = some [⟨[1, 2, 3], [], 0⟩] ∧
    (parse (some scenario_repeat) UPFReader.fresh Globals.initial).1 = Outcome.returned true ∧
    (parse (some scenario_repeat) UPFReader.fresh Globals.initial).2.2.g_r_mesh = [1/10] ∧
    (parse (some scenario_repeat) UPFReader.fresh Globals.initial).2.2.g_total_potentials
      = [(0, [-1/2])] ∧
    (parse (some scenario_repeat)
      (parse (some scenario_repeat) UPFReader.fresh Globals.initial).2.1
      (parse (some scenario_repeat) UPFReader.fresh Globals.initial).2.2).1
      = Outcome.returned true ∧
    (parse (some scenario_repeat)
      (parse (some scenario_repeat) UPFReader.fresh Globals.initial).2.1
      (parse (some scenario_repeat) UPFReader.fresh Globals.initial).2.2).2.2.g_r_mesh
      = [1/10, 1/10] ∧
    (parse (some scenario_repeat)
      (parse (some scenario_repeat) UPFReader.fresh Globals.initial).2.1
      (parse (some scenario_repeat) UPFReader.fresh Globals.initial).2.2).2.2.g_projectors
      = [(0, [1/2, 2/5, 3/10, 1/2, 2/5, 3/10])] ∧
    (parse (some scenario_repeat)
      (parse (some scenario_repeat) UPFReader.fresh Globals.initial).2.1
      (parse (some scenario_repeat) UPFReader.fresh Globals.initial).2.2).2.2.g_total_potentials
      = [(0, [-1/2, -42/25])] := by
  decide!

/-- C12: after a call of `parse` the validity flag is true if and only if the
call returned `true`, whatever the flag was before; an unreadable document, a
failing section decoder, an exception or undefined behaviour during the
reconstruction all leave it false. When the flag is true, every channel of
`g_nonlocal_potentials` has its total potential stored. -/
theorem validity_flag_iff (file : Option Document) (rd : UPFReader) (g : Globals) :
    ((parse file rd g).2.2.g_upf_data_valid = true ↔
      (parse file rd g).1 = Outcome.returned true) ∧
    ((parse file rd g).2.2.g_upf_data_valid = true →
      ∀ k ∈ (parse file rd g).2.2.g_nonlocal_potentials.map Prod.fst,
        ∃ tot, map_find (parse file rd g).2.2.g_total_potentials k = some tot) := by
  have hiff : (parse file rd g).2.2.g_upf_data_valid = true ↔
      (parse file rd g).1 = Outcome.returned true := by
    rcases parse_flag_cases file rd g with ⟨h1, h2⟩ | ⟨h1, h2⟩
    · exact ⟨fun _ => h1, fun _ => h2⟩
    · constructor
      · intro hv
        rw [h2] at hv
        cases hv
      · intro ho
        exact absurd ho h1
  refine ⟨hiff, ?_⟩
  intro hv k hk
  have ho := hiff.mp hv
  obtain ⟨doc, rdA, rdB, gB, gC, _, _, _, htot, hg⟩ :=
    parse_true file rd (parse file rd g).2.1 g (parse file rd g).2.2 (Prod.ext ho rfl)
  have fr := total_loop_frame (gB.g_nonlocal_potentials.map Prod.fst) rdB
    { gB with g_total_potentials := [] }
  rw [htot] at fr
  rw [hg] at hk ⊢
  simp only at hk ⊢
  rw [fr.g_nonlocal] at hk
  obtain ⟨tot, ht, _⟩ := (total_loop_true _ _ _ _ _ htot k).1 hk
  exact ⟨tot, ht⟩

/-- C13: when the header section or the mesh section is missing, `parse` returns
`false` with the validity flag false and the other globals untouched; the reader
is left as `parse_header` leaves it, with its mesh and its orbital collection as
they were and no coefficient matrix: no later decoder and no reconstruction has
run. -/
theorem missing_required_section (doc : Document) (rd : UPFReader) (g : Globals)
    (h : doc.header = none ∨ doc.mesh = none) :
    parse (some doc) rd g =
      (Outcome.returned false, (parse_header doc { rd with d_coefficients_ := [] }).2,
        { g with g_upf_data_valid := false }) ∧
    (parse (some doc) rd g).2.1.r_mesh_ = rd.r_mesh_ ∧
    (parse (some doc) rd g).2.1.orbitals_ = rd.orbitals_ ∧
    (parse (some doc) rd g).2.1.d_coefficients_ = [] := by
  have hd : decode_sections doc { rd with d_coefficients_ := [] } =
      (false, (parse_header doc { rd with d_coefficients_ := [] }).2) := by
    rw [decode_sections_eq]
    cases hh : doc.header with
    | none => simp [parse_header, hh]
    | some hd =>
      rcases h with h | h
      · rw [hh] at h
        cases h
      · simp [h]
  have hp := parse_of_decode_false doc rd _ g hd
  rw [hp]
  refine ⟨rfl, ?_, ?_, ?_⟩ <;>
  · simp only [parse_header]
    cases doc.header <;> rfl

/-- C13, on the scenario without mesh section and a new reader. -/
theorem missing_required_section_witness :
    (scenario_no_mesh.header = none ∨ scenario_no_mesh.mesh = none) ∧
    (parse (some scenario_no_mesh) UPFReader.fresh Globals.initial).1
      = Outcome.returned false ∧
    (parse (some scenario_no_mesh) UPFReader.fresh Globals.initial).2.1.orbitals_
      = UPFReader.fresh.orbitals_ ∧
    (parse (some scenario_no_mesh) UPFReader.fresh Globals.initial).2.2
      = { Globals.initial with g_upf_data_valid := false } :=
  ⟨Or.inr rfl,
    congrArg Prod.fst
      (missing_required_section scenario_no_mesh UPFReader.fresh Globals.initial (Or.inr rfl)).1,
    (missing_required_section scenario_no_mesh UPFReader.fresh Globals.initial
      (Or.inr rfl)).2.2.1,
    congrArg (fun p => p.2.2)
      (missing_required_section scenario_no_mesh UPFReader.fresh Globals.initial (Or.inr rfl)).1⟩

/-! ## Lemmas: when the arithmetic of a channel goes through -/

theorem for_loop_succeeds {σ : Type} (body : Nat → σ → Option σ) (ks : List Nat)
    (h : ∀ k ∈ ks, ∀ s, ∃ s1, body k s = some s1) (s : σ) :
    ∃ s1, for_loop body ks s = some s1 := by
  induction ks generalizing s with
  | nil => exact ⟨s, rfl⟩
  | cons k ks ih =>
    obtain ⟨s1, hs1⟩ := h k (List.mem_cons_self _ _) s
    obtain ⟨s2, hs2⟩ := ih (fun k1 hk1 => h k1 (List.mem_cons_of_mem _ hk1)) s1
    exact ⟨s2, by simp only [for_loop, hs1, hs2]⟩

theorem nonlocal_term_of_bounds (d : List (List ℚ)) (pv : List ℚ) (ppp r i j : Nat)
    (hsq : ∀ row ∈ d, row.length = d.length) (hi : i < d.length) (hj : j < d.length)
    (h1 : i * ppp + r < pv.length) (h2 : j * ppp + r < pv.length) :
    ∃ t, nonlocal_term d pv ppp r i j = some t := by
  have hrow : j < (d[i]).length := by
    rw [hsq _ (List.getElem_mem hi)]
    exact hj
  refine ⟨d[i][j] * pv[i * ppp + r] * pv[j * ppp + r], ?_⟩
  unfold nonlocal_term
  rw [List.getElem?_eq_getElem hi]
  simp only [Option.bind_eq_bind, Option.some_bind]
  rw [List.getElem?_eq_getElem hrow, List.getElem?_eq_getElem h1, List.getElem?_eq_getElem h2]
  rfl

theorem point_total_of_bounds (loc pv : List ℚ) (d : List (List ℚ)) (ppp r : Nat)
    (hsq : ∀ row ∈ d, row.length = d.length) (hr : r < loc.length)
    (hb : ∀ i < d.length, i * ppp + r < pv.length) :
    ∃ v, point_total loc pv d d.length ppp r = some v := by
  unfold point_total
  rw [List.getElem?_eq_getElem hr]
  simp only
  apply for_loop_succeeds
  intro i hi acc
  apply for_loop_succeeds
  intro j hj acc1
  obtain ⟨t, ht⟩ := nonlocal_term_of_bounds d pv ppp r i j hsq (List.mem_range.mp hi)
    (List.mem_range.mp hj) (hb i (List.mem_range.mp hi)) (hb j (List.mem_range.mp hj))
  exact ⟨acc1 + t, by rw [ht]⟩

theorem collect_points_succeeds (f : Nat → Option ℚ) (rs : List Nat)
    (h : ∀ r ∈ rs, ∃ v, f r = some v) : ∃ vs, collect_points f rs = some vs := by
  induction rs with
  | nil => exact ⟨[], rfl⟩
  | cons r rs ih =>
    obtain ⟨v, hv⟩ := h r (List.mem_cons_self _ _)
    obtain ⟨vs, hvs⟩ := ih (fun r1 hr1 => h r1 (List.mem_cons_of_mem _ hr1))
    exact ⟨v :: vs, by simp only [collect_points, hv, hvs]⟩

/-- With a square matrix of at least one row, the arithmetic of a channel goes
through as soon as every subscript is within range. -/
theorem channel_total_of_bounds (m : Nat) (loc pv : List ℚ) (d : List (List ℚ))
    (hn : 0 < d.length) (hsq : ∀ row ∈ d, row.length = d.length)
    (hb : ∀ r < m, r < loc.length ∧
      ∀ i < d.length, i * (pv.length / d.length) + r < pv.length) :
    ∃ tot, channel_total m loc pv d = some tot := by
  unfold channel_total
  rw [if_neg (by omega)]
  apply collect_points_succeeds
  intro r hr
  obtain ⟨h1, h2⟩ := hb r (List.mem_range.mp hr)
  exact point_total_of_bounds loc pv d _ r hsq h1 h2

/-- C16 as stated fails in its last part: with two projectors of three and four
samples in the buffer, `points_per_proj = 7 / 2 = 3` and a mesh of four points,
a projector and `points_per_proj` are shorter than the mesh, yet every subscript
is within range and the total potential is computed; a reader that has read two
versions of its file reaches that state and `parse` returns `true`. -/
theorem short_projector_within_bounds :
    ([1/2, 2/5, 3/10] : List ℚ).length < 4 ∧
    ([1/2, 2/5, 3/10, 1, 1, 1, 1] : List ℚ).length / 2 < 4 ∧
    (∀ r < 4, r < ([-1, -2, -3, -4] : List ℚ).length ∧
      ∀ i < 2, i * (([1/2, 2/5, 3/10, 1, 1, 1, 1] : List ℚ).length / 2) + r
        < ([1/2, 2/5, 3/10, 1, 1, 1, 1] : List ℚ).length) ∧
    channel_total 4 [-1, -2, -3, -4] [1/2, 2/5, 3/10, 1, 1, 1, 1] [[1, 0], [0, 1]]
      = some [1/4, -21/25, -191/100, -2] ∧
    (parse (some scenario_long_mesh) reader_with_short_projector Globals.initial).1
      = Outcome.returned true ∧
    (parse (some scenario_long_mesh) reader_with_short_projector Globals.initial).2.2.g_r_mesh
      = [1/10, 1/5, 3/10, 2/5] ∧
    (parse (some scenario_long_mesh) reader_with_short_projector
      Globals.initial).2.2.g_projectors = [(0, [1/2, 2/5, 3/10, 1, 1, 1, 1])] ∧
    (parse (some scenario_long_mesh) reader_with_short_projector
      Globals.initial).2.2.g_total_potentials = [(0, [1/4, -21/25, -191/100, -2])] := by
  refine ⟨by decide, by decide, ?_, by decide!, by decide!, by decide!, by decide!, by decide!⟩
  intro r hr
  refine ⟨by simpa using hr, ?_⟩
  intro i hi
  simp only [List.length_cons, List.length_nil]
  interval_cases i <;> omega

/-- C16, amended: in the loop of `parse`, for a channel with `n_proj > 0` (and
its square matrix), if the local potential has at least mesh-length entries and
`points_per_proj = len(buffer) / n_proj` is at least the mesh length, then every
subscript `local_potential[r]`, `buffer[i * points_per_proj + r]` is within
bounds, the division is by a non-zero count and the total potential is computed;
when the local potential is shorter than the mesh, or `points_per_proj` is
shorter than the mesh and the division is exact (as for a single projector),
some subscript is out of range and no total potential is computed. -/
theorem total_loop_bounds (m : Nat) (loc pv : List ℚ) (d : List (List ℚ))
    (hn : 0 < d.length) (hsq : ∀ row ∈ d, row.length = d.length) :
    (m ≤ loc.length → m ≤ pv.length / d.length →
      d.length ≠ 0 ∧
      (∀ r < m, r < loc.length ∧
        ∀ i < d.length, i * (pv.length / d.length) + r < pv.length) ∧
      ∃ tot, channel_total m loc pv d = some tot) ∧
    (loc.length < m →
      (∃ r < m, ¬ r < loc.length) ∧ channel_total m loc pv d = none) ∧
    (pv.length % d.length = 0 → pv.length / d.length < m →
      (∃ r < m, ∃ i < d.length, ¬ i * (pv.length / d.length) + r < pv.length) ∧
      channel_total m loc pv d = none) := by
  have hnone : (∃ r < m, ¬ (r < loc.length ∧
      ∀ i < d.length, i * (pv.length / d.length) + r < pv.length)) →
      channel_total m loc pv d = none := by
    rintro ⟨r, hr, hbad⟩
    cases hc : channel_total m loc pv d with
    | none => rfl
    | some tot =>
      obtain ⟨_, _, hpt⟩ := channel_total_some m loc pv d tot hc
      exact absurd ⟨(hpt r hr).1, (hpt r hr).2.1⟩ hbad
  refine ⟨?_, ?_, ?_⟩
  · intro hloc hppp
    have hb : ∀ r < m, r < loc.length ∧
        ∀ i < d.length, i * (pv.length / d.length) + r < pv.length := by
      intro r hr
      refine ⟨by omega, ?_⟩
      intro i hi
      have h1 : (i + 1) * (pv.length / d.length) ≤ d.length * (pv.length / d.length) :=
        Nat.mul_le_mul_right _ hi
      have h2 : d.length * (pv.length / d.length) ≤ pv.length := Nat.mul_div_le _ _
      have h3 : (i + 1) * (pv.length / d.length)
          = i * (pv.length / d.length) + pv.length / d.length := by ring
      omega
    exact ⟨by omega, hb, channel_total_of_bounds m loc pv d hn hsq hb⟩
  · intro hloc
    exact ⟨⟨loc.length, hloc, by omega⟩,
      hnone ⟨loc.length, hloc, fun hh => absurd hh.1 (by omega)⟩⟩
  · intro hex hppp
    have hlen : d.length * (pv.length / d.length) = pv.length :=
      Nat.mul_div_cancel' (Nat.dvd_of_mod_eq_zero hex)
    have hlast : (d.length - 1) * (pv.length / d.length) + pv.length / d.length
        = pv.length := by
      have h4 : (d.length - 1 + 1) * (pv.length / d.length)
          = (d.length - 1) * (pv.length / d.length) + pv.length / d.length := by ring
      rw [Nat.sub_add_cancel hn] at h4
      omega
    have hbad : ¬ (d.length - 1) * (pv.length / d.length) + pv.length / d.length
        < pv.length := by omega
    exact ⟨⟨pv.length / d.length, hppp, d.length - 1, by omega, hbad⟩,
      hnone ⟨pv.length / d.length, hppp, fun hh => hbad (hh.2 (d.length - 1) (by omega))⟩⟩

/-- C16 amended, on the scenario of the specification (one projector of three
samples, mesh of three points): every subscript is within bounds; and on a
projector of one sample: `projector_values[1]` is out of range. -/
theorem total_loop_bounds_witness :
    (∃ tot, channel_total 3 [-1, -2, -3] [1/2, 2/5, 3/10] [[2]] = some tot) ∧
    channel_total 3 [-1, -2, -3] [1/2] [[0]] = none :=
  ⟨((total_loop_bounds 3 [-1, -2, -3] [1/2, 2/5, 3/10] [[2]] (by decide) (by decide)).1
      (by decide) (by decide)).2.2,
    ((total_loop_bounds 3 [-1, -2, -3] [1/2] [[0]] (by decide) (by decide)).2.2
      (by decide) (by decide)).2⟩

/-! ## Lemmas: the nonlocal records of a new reader -/

theorem parse_nonlocal_channel_cases (nl : NonlocalNode) (o : Orbitals) (l : Nat) :
    (parse_nonlocal_channel nl o l).NONLOCAL.getD [] = o.NONLOCAL.getD [] ∨
    ∃ rec : OrbitalData, rec.l = (l : Int) ∧
      (parse_nonlocal_channel nl o l).NONLOCAL.getD [] = o.NONLOCAL.getD [] ++ [rec] := by
  unfold parse_nonlocal_channel
  cases nl.beta (l + 1) with
  | none => exact Or.inl rfl
  | some toks =>
    simp only
    split_ifs
    · refine Or.inr ⟨⟨read_values toks,
        (match nl.proj (l + 1) with
          | some proj_toks => read_values proj_toks
          | none => read_values toks), (l : Int)⟩, rfl, ?_⟩
      simp [Orbitals.push_nonlocal]
    · exact Or.inl rfl

/-- Starting without nonlocal record, the channel loop of `parse_nonlocal` over
the channels below `k` leaves records with strictly ascending `l`, all from `0`
to `k - 1`. -/
theorem nonlocal_fold_ascending (nl : NonlocalNode) (o : Orbitals)
    (h0 : o.NONLOCAL.getD [] = []) (k : Nat) :
    ((((List.range k).foldl (parse_nonlocal_channel nl) o).NONLOCAL.getD []).map
      (fun rec => rec.l)).Pairwise (fun a b => a < b) ∧
    ∀ rec ∈ ((List.range k).foldl (parse_nonlocal_channel nl) o).NONLOCAL.getD [],
      0 ≤ rec.l ∧ rec.l < (k : Int) := by
  induction k with
  | zero => simp [h0]
  | succ k ih =>
    obtain ⟨ihp, ihb⟩ := ih
    rw [List.range_succ, List.foldl_append]
    simp only [List.foldl_cons, List.foldl_nil]
    rcases parse_nonlocal_channel_cases nl ((List.range k).foldl (parse_nonlocal_channel nl) o) k
      with he | ⟨rec, hl, he⟩
    · rw [he]
      refine ⟨ihp, ?_⟩
      intro rec hrec
      obtain ⟨h1, h2⟩ := ihb rec hrec
      exact ⟨h1, by push_cast; omega⟩
    · rw [he]
      refine ⟨?_, ?_⟩
      · rw [List.map_append, List.pairwise_append]
        refine ⟨ihp, by simp, ?_⟩
        intro a ha b hb
        obtain ⟨r1, hr1, rfl⟩ := List.mem_map.mp ha
        simp only [List.map_cons, List.map_nil, List.mem_singleton] at hb
        rw [hb, hl]
        exact (ihb r1 hr1).2
      · intro r1 hr1
        rcases List.mem_append.mp hr1 with hm | hm
        · obtain ⟨h1, h2⟩ := ihb r1 hm
          exact ⟨h1, by push_cast; omega⟩
        · simp only [List.mem_singleton] at hm
          rw [hm, hl]
          exact ⟨by omega, by push_cast; omega⟩

theorem count_projectors_ascending (records : List OrbitalData)
    (h : (records.map (fun rec => rec.l)).Pairwise (fun a b => a < b)) (l : Int) :
    count_projectors records l ≤ 1 := by
  induction records with
  | nil => simp [count_projectors]
  | cons r rs ih =>
    simp only [List.map_cons, List.pairwise_cons] at h
    obtain ⟨hlt, hrest⟩ := h
    have ih1 := ih hrest
    unfold count_projectors at ih1 ⊢
    by_cases hr : r.l = l
    · have hnil : rs.filter (fun orbital => decide (orbital.l = l)) = [] := by
        rw [List.filter_eq_nil_iff]
        intro x hx
        have := hlt x.l (List.mem_map.mpr ⟨x, hx, rfl⟩)
        simp only [decide_eq_true_eq]
        omega
      simp [List.filter_cons, hr, hnil]
    · simp only [List.filter_cons, hr, decide_False, Bool.false_eq_true, if_false]
      exact ih1

theorem parse_wavefunctions_channel_nonlocal (chi : ChiNode) (o : Orbitals) (l : Nat) :
    (parse_wavefunctions_channel chi o l).NONLOCAL = o.NONLOCAL := by
  unfold parse_wavefunctions_channel
  cases chi.wfc (l + 1) with
  | none => rfl
  | some toks =>
    simp only
    split_ifs <;> rfl

theorem parse_wavefunctions_nonlocal (doc : Document) (rd : UPFReader) :
    (parse_wavefunctions doc rd).2.header_ = rd.header_ ∧
    (parse_wavefunctions doc rd).2.orbitals_.NONLOCAL = rd.orbitals_.NONLOCAL := by
  unfold parse_wavefunctions
  cases doc.chi with
  | none => exact ⟨rfl, rfl⟩
  | some chi =>
    refine ⟨rfl, ?_⟩
    simp only
    generalize channels rd.header_.l_max = ls
    generalize rd.orbitals_ = o
    induction ls generalizing o with
    | nil => rfl
    | cons l ls ih =>
      simp only [List.foldl_cons]
      rw [ih, parse_wavefunctions_channel_nonlocal]

/-- The matrices stored by a successful `parse_dij` are square, of the size of
the projector count of their channel. -/
theorem parse_dij_square (doc : Document) (rd rd1 : UPFReader)
    (h : parse_dij doc rd = (true, rd1)) (l : Nat) (hl : (l : Int) ≤ rd.header_.l_max) :
    ∃ M, map_find rd1.d_coefficients_ (l : Int) = some M ∧ M.length = n_proj rd l ∧
      ∀ row ∈ M, row.length = n_proj rd l := by
  unfold parse_dij at h
  cases ht : doc.nonlocal.bind (fun nl => nl.dij) with
  | none => simp [ht] at h
  | some toks =>
    simp only [ht] at h
    have hneed := (parse_dij_loop_ok_iff (channels rd.header_.l_max) rd toks).mp (by rw [h])
    have hmem : l < (rd.header_.l_max + 1).toNat := by omega
    obtain ⟨post, hp⟩ := range_split _ l hmem
    have hM := (parse_dij_loop_matrices _ rd rd1 toks h).2 (List.nodup_range _) _ l post hp
    unfold channels at hneed
    rw [hp, tokens_needed_append, tokens_needed_cons] at hneed
    refine ⟨_, hM, rows_of_length _ _ _, ?_⟩
    intro row hrow
    refine rows_of_row_length _ _ ?_ row hrow
    rw [List.length_drop]
    simp only [n_proj_eq]
    omega

/-- C15: on a reader without nonlocal record, after `parse_nonlocal` the
nonlocal records have strictly ascending `l`, all in `0..l_max`, so that every
`l` has at most one record: `n_proj(l)` is 0 or 1, the coefficient decoder needs
at most `l_max + 1` tokens, and every matrix that it stores for a channel in
`0..l_max` is empty or one by one. -/
theorem fresh_reader_single_projector (doc : Document) (rd : UPFReader)
    (hfresh : rd.orbitals_.NONLOCAL.getD [] = []) :
    (((parse_nonlocal doc rd).2.orbitals_.NONLOCAL.getD []).map
      (fun rec => rec.l)).Pairwise (fun a b => a < b) ∧
    (∀ rec ∈ (parse_nonlocal doc rd).2.orbitals_.NONLOCAL.getD [],
      0 ≤ rec.l ∧ rec.l ≤ rd.header_.l_max) ∧
    (∀ l : Nat, n_proj (parse_nonlocal doc rd).2 l = 0 ∨ n_proj (parse_nonlocal doc rd).2 l = 1) ∧
    (∑ l in Finset.range (rd.header_.l_max + 1).toNat, n_proj (parse_nonlocal doc rd).2 l ^ 2
      ≤ (rd.header_.l_max + 1).toNat) ∧
    (∀ rd2, parse_dij doc (parse_wavefunctions doc (parse_nonlocal doc rd).2).2 = (true, rd2) →
      ∀ l : Nat, (l : Int) ≤ rd.header_.l_max →
        ∃ M, map_find rd2.d_coefficients_ (l : Int) = some M ∧ (M = [] ∨ ∃ v, M = [[v]])) := by
  have hrecs : (((parse_nonlocal doc rd).2.orbitals_.NONLOCAL.getD []).map
      (fun rec => rec.l)).Pairwise (fun a b => a < b) ∧
      ∀ rec ∈ (parse_nonlocal doc rd).2.orbitals_.NONLOCAL.getD [],
        0 ≤ rec.l ∧ rec.l ≤ rd.header_.l_max := by
    unfold parse_nonlocal
    cases doc.nonlocal with
    | none => simp [hfresh]
    | some nl =>
      simp only
      obtain ⟨h1, h2⟩ := nonlocal_fold_ascending nl rd.orbitals_ hfresh
        (rd.header_.l_max + 1).toNat
      refine ⟨h1, ?_⟩
      intro rec hrec
      obtain ⟨h3, h4⟩ := h2 rec hrec
      exact ⟨h3, by omega⟩
  have hheader : (parse_nonlocal doc rd).2.header_ = rd.header_ := by
    unfold parse_nonlocal
    cases doc.nonlocal <;> rfl
  have hcount : ∀ l : Nat, n_proj (parse_nonlocal doc rd).2 l ≤ 1 := by
    intro l
    rw [n_proj_eq]
    exact count_projectors_ascending _ hrecs.1 _
  refine ⟨hrecs.1, hrecs.2, ?_, ?_, ?_⟩
  · intro l
    have := hcount l
    omega
  · calc ∑ l in Finset.range (rd.header_.l_max + 1).toNat, n_proj (parse_nonlocal doc rd).2 l ^ 2
        ≤ ∑ _l in Finset.range (rd.header_.l_max + 1).toNat, 1 := by
          apply Finset.sum_le_sum
          intro l _
          have := hcount l
          interval_cases n_proj (parse_nonlocal doc rd).2 l <;> simp
      _ = (rd.header_.l_max + 1).toNat := by simp
  · intro rd2 hd l hl
    obtain ⟨w1, w2⟩ := parse_wavefunctions_nonlocal doc (parse_nonlocal doc rd).2
    have hl1 : (l : Int) ≤ (parse_wavefunctions doc (parse_nonlocal doc rd).2).2.header_.l_max := by
      rw [w1, hheader]
      exact hl
    obtain ⟨M, hM, hlen, hrows⟩ := parse_dij_square doc _ rd2 hd l hl1
    have hn : n_proj (parse_wavefunctions doc (parse_nonlocal doc rd).2).2 l
        = n_proj (parse_nonlocal doc rd).2 l := by
      unfold n_proj
      rw [w2]
    rw [hn] at hlen hrows
    refine ⟨M, hM, ?_⟩
    have hc := hcount l
    match M, hlen, hrows with
    | [], _, _ => exact Or.inl rfl
    | [row], hlen, hrows =>
      right
      have hrl : row.length = 1 := by
        rw [hrows row (List.mem_singleton.mpr rfl), ← hlen]
        rfl
      match row, hrl with
      | [v], _ => exact ⟨v, rfl⟩
    | _ :: _ :: _, hlen, _ =>
      simp only [List.length_cons] at hlen
      omega

/-- C15, on the scenario with two channels and a new reader whose header has
been read: two records with `l = 0, 1`, and the matrices `[[2]]` and `[[3]]`. -/
theorem fresh_reader_single_projector_witness :
    (parse_header scenario_two_channels UPFReader.fresh).2.orbitals_.NONLOCAL.getD [] = [] ∧
    ((parse_nonlocal scenario_two_channels
      (parse_header scenario_two_channels UPFReader.fresh).2).2.orbitals_.NONLOCAL.getD []).map
      (fun rec => rec.l) = [0, 1] ∧
    (∀ l : Nat,
      n_proj (parse_nonlocal scenario_two_channels
        (parse_header scenario_two_channels UPFReader.fresh).2).2 l = 0 ∨
      n_proj (parse_nonlocal scenario_two_channels
        (parse_header scenario_two_channels UPFReader.fresh).2).2 l = 1) :=
  ⟨rfl, by decide!,
    (fresh_reader_single_projector scenario_two_channels
      (parse_header scenario_two_channels UPFReader.fresh).2 rfl).2.2.1⟩

/-! ## Lemmas: the plain build -/

theorem subscript_of_lt (past : Nat → ℚ) (xs : List ℚ) (k : Nat) (h : k < xs.length) :
    subscript past xs k = xs.getD k 0 := by
  unfold subscript
  rw [List.getD_eq_getElem?_getD, List.getElem?_eq_getElem h]
  rfl

/-- Within range the formula read by the plain build is the formula of the
specification. -/
theorem spec_total_read_eq (past_local : Nat → ℚ) (past_projector : Nat → Nat → Nat → ℚ)
    (loc buf : List ℚ) (d : List (List ℚ)) (n r : Nat) (hr : r < loc.length)
    (hb : ∀ i < n, i * (buf.length / n) + r < buf.length) :
    spec_total_read past_local past_projector loc buf d n r = spec_total loc buf d n r := by
  unfold spec_total_read spec_total
  rw [subscript_of_lt _ _ _ hr]
  congr 1
  apply Finset.sum_congr rfl
  intro i hi
  apply Finset.sum_congr rfl
  intro j hj
  rw [subscript_of_lt _ _ _ (hb i (Finset.mem_range.mp hi)),
    subscript_of_lt _ _ _ (hb j (Finset.mem_range.mp hj))]

theorem nonlocal_term_plain_some (past : Nat → ℚ) (d : List (List ℚ)) (pv : List ℚ)
    (ppp r i j : Nat) (t : ℚ) (h : nonlocal_term_plain past d pv ppp r i j = some t) :
    t = (d.getD i []).getD j 0 * subscript past pv (i * ppp + r)
      * subscript past pv (j * ppp + r) := by
  unfold nonlocal_term_plain at h
  simp only [Option.bind_eq_bind, Option.bind_eq_some, Option.pure_def, Option.some.injEq] at h
  obtain ⟨row, hrow, c, hc, ht⟩ := h
  obtain ⟨_, e1⟩ := getElem?_some_getD d i row [] hrow
  obtain ⟨_, e2⟩ := getElem?_some_getD row j c 0 hc
  rw [e1, e2, ht]

theorem nonlocal_term_plain_of_square (past : Nat → ℚ) (d : List (List ℚ)) (pv : List ℚ)
    (ppp r i j : Nat) (hsq : ∀ row ∈ d, row.length = d.length) (hi : i < d.length)
    (hj : j < d.length) : ∃ t, nonlocal_term_plain past d pv ppp r i j = some t := by
  have hrow : j < (d[i]).length := by
    rw [hsq _ (List.getElem_mem hi)]
    exact hj
  refine ⟨d[i][j] * subscript past pv (i * ppp + r) * subscript past pv (j * ppp + r), ?_⟩
  unfold nonlocal_term_plain
  rw [List.getElem?_eq_getElem hi]
  simp only [Option.bind_eq_bind, Option.some_bind]
  rw [List.getElem?_eq_getElem hrow]
  rfl

/-- A value that the plain build computes for a mesh index is the formula of the
specification with the subscripts as that build reads them. -/
theorem point_total_plain_some (past_local : Nat → ℚ) (past_projector : Nat → Nat → Nat → ℚ)
    (loc pv : List ℚ) (d : List (List ℚ)) (n r : Nat) (v : ℚ)
    (h : point_total_plain past_local past_projector loc pv d n (pv.length / n) r = some v) :
    v = spec_total_read past_local past_projector loc pv d n r := by
  unfold point_total_plain at h
  have inner : ∀ i acc c,
      for_loop (fun j acc1 =>
        match nonlocal_term_plain (past_projector i j) d pv (pv.length / n) r i j with
        | none => none
        | some t => some (acc1 + t)) (List.range n) acc = some c →
      True ∧ c = acc + ∑ j in Finset.range n,
        (d.getD i []).getD j 0 * subscript (past_projector i j) pv (i * (pv.length / n) + r)
          * subscript (past_projector i j) pv (j * (pv.length / n) + r) := by
    intro i acc c hc
    have key := for_loop_additive _ (fun _ => True)
      (fun j => (d.getD i []).getD j 0
        * subscript (past_projector i j) pv (i * (pv.length / n) + r)
        * subscript (past_projector i j) pv (j * (pv.length / n) + r))
      (by
        intro j a1 c1 hj
        cases ht : nonlocal_term_plain (past_projector i j) d pv (pv.length / n) r i j with
        | none => simp [ht] at hj
        | some t =>
          simp only [ht, Option.some.injEq] at hj
          exact ⟨trivial, by rw [← hj, nonlocal_term_plain_some _ _ _ _ _ _ _ _ ht]⟩)
      (List.range n) acc c hc
    exact ⟨trivial, by rw [key.2, list_range_sum]⟩
  have outer := for_loop_additive _ (fun _ => True)
    (fun i => ∑ j in Finset.range n,
      (d.getD i []).getD j 0 * subscript (past_projector i j) pv (i * (pv.length / n) + r)
        * subscript (past_projector i j) pv (j * (pv.length / n) + r))
    inner (List.range n) _ v h
  rw [outer.2, list_range_sum]
  rfl

theorem point_total_plain_of_square (past_local : Nat → ℚ)
    (past_projector : Nat → Nat → Nat → ℚ) (loc pv : List ℚ) (d : List (List ℚ))
    (ppp r : Nat) (hsq : ∀ row ∈ d, row.length = d.length) :
    ∃ v, point_total_plain past_local past_projector loc pv d d.length ppp r = some v := by
  unfold point_total_plain
  apply for_loop_succeeds
  intro i hi acc
  apply for_loop_succeeds
  intro j hj acc1
  obtain ⟨t, ht⟩ := nonlocal_term_plain_of_square (past_projector i j) d pv ppp r i j hsq
    (List.mem_range.mp hi) (List.mem_range.mp hj)
  exact ⟨acc1 + t, by rw [ht]⟩

/-- A total potential that the plain build computes for a channel has one entry
per mesh point, each the formula of the specification with the subscripts as
that build reads them; in particular the channel has a projector. -/
theorem channel_total_plain_some (past_local : Nat → ℚ)
    (past_projector : Nat → Nat → Nat → Nat → ℚ) (m : Nat) (loc pv : List ℚ)
    (d : List (List ℚ)) (tot : List ℚ)
    (h : channel_total_plain past_local past_projector m loc pv d = some tot) :
    0 < d.length ∧ tot.length = m ∧
      ∀ r < m, tot[r]? = some
        (spec_total_read past_local (past_projector r) loc pv d d.length r) := by
  unfold channel_total_plain at h
  by_cases hn : d.length = 0
  · simp [hn] at h
  · simp only [hn, if_false] at h
    obtain ⟨hlen, hget⟩ := collect_points_some _ _ _ h
    rw [List.length_range] at hlen
    refine ⟨Nat.pos_of_ne_zero hn, hlen, ?_⟩
    intro r hr
    have hp := hget r (by simpa using hr)
    simp only [List.get_eq_getElem, List.getElem_range] at hp
    have hsome : ∃ v, tot[r]? = some v := by
      have : r < tot.length := by omega
      exact ⟨tot[r], List.getElem?_eq_getElem this⟩
    obtain ⟨v, hv⟩ := hsome
    rw [hv] at hp
    rw [hv, point_total_plain_some _ _ _ _ _ _ _ _ hp]

/-- In the plain build the arithmetic of a channel with a square matrix of at
least one row always goes through, whatever the lengths of the local potential
and of the buffer. -/
theorem channel_total_plain_of_square (past_local : Nat → ℚ)
    (past_projector : Nat → Nat → Nat → Nat → ℚ) (m : Nat) (loc pv : List ℚ)
    (d : List (List ℚ)) (hn : 0 < d.length) (hsq : ∀ row ∈ d, row.length = d.length) :
    ∃ tot, channel_total_plain past_local past_projector m loc pv d = some tot := by
  unfold channel_total_plain
  rw [if_neg (by omega)]
  apply collect_points_succeeds
  intro r _
  exact point_total_plain_of_square past_local (past_projector r) loc pv d _ r hsq

theorem total_step_plain_eq (mem : Memory) (l : Int) (rd : UPFReader) (g : Globals) :
    total_step_plain mem l rd g =
      match channel_total_plain (mem.past_local l) (mem.past_projector l) g.g_r_mesh.length
          g.g_local_potential ((map_find g.g_projectors l).getD [])
          ((map_find rd.d_coefficients_ l).getD []) with
      | none =>
        (false, { rd with d_coefficients_ := (map_subscript rd.d_coefficients_ l []).2 },
          { g with g_projectors := (map_subscript g.g_projectors l []).2 })
      | some tot =>
        (true, { rd with d_coefficients_ := (map_subscript rd.d_coefficients_ l []).2 },
          { g with
            g_projectors := (map_subscript g.g_projectors l []).2
            g_total_potentials := map_assign g.g_total_potentials l tot }) := by
  unfold total_step_plain
  simp only [map_subscript_fst]

theorem total_step_plain_frame (mem : Memory) (l : Int) (rd : UPFReader) (g : Globals) :
    TotalFrame rd g (total_step_plain mem l rd g).2.1 (total_step_plain mem l rd g).2.2 := by
  rw [total_step_plain_eq]
  cases channel_total_plain (mem.past_local l) (mem.past_projector l) g.g_r_mesh.length
      g.g_local_potential ((map_find g.g_projectors l).getD [])
      ((map_find rd.d_coefficients_ l).getD []) <;>
    exact ⟨rfl, rfl, rfl, fun k => map_subscript_getD _ _ _ _,
      fun k v h => map_subscript_some _ _ _ _ _ h, rfl, rfl, rfl, rfl, rfl, rfl,
      fun k => map_subscript_getD _ _ _ _, fun k v h => map_subscript_some _ _ _ _ _ h⟩

theorem total_loop_plain_frame (mem : Memory) (ls : List Int) (rd : UPFReader) (g : Globals) :
    TotalFrame rd g (total_loop_plain mem ls rd g).2.1 (total_loop_plain mem ls rd g).2.2 := by
  induction ls generalizing rd g with
  | nil => exact TotalFrame.refl rd g
  | cons l ls ih =>
    have hs := total_step_plain_frame mem l rd g
    unfold total_loop_plain
    rcases hst : total_step_plain mem l rd g with ⟨ok, rd1, g1⟩
    rw [hst] at hs
    cases ok with
    | false => exact hs
    | true => exact hs.trans (ih rd1 g1)

/-- After the loop over the channels of the plain build has run to its end,
every channel it visited has the total potential that `channel_total_plain`
computes from the state at the start of the loop, and no other entry of
`g_total_potentials` changed. -/
theorem total_loop_plain_true (mem : Memory) (ls : List Int) (rd rd1 : UPFReader)
    (g g1 : Globals) (h : total_loop_plain mem ls rd g = (true, rd1, g1)) (k : Int) :
    (k ∈ ls → ∃ tot, map_find g1.g_total_potentials k = some tot ∧
      channel_total_plain (mem.past_local k) (mem.past_projector k) g.g_r_mesh.length
        g.g_local_potential ((map_find g.g_projectors k).getD [])
        ((map_find rd.d_coefficients_ k).getD []) = some tot) ∧
    (k ∉ ls → map_find g1.g_total_potentials k = map_find g.g_total_potentials k) := by
  induction ls generalizing rd g with
  | nil =>
    simp only [total_loop_plain, Prod.mk.injEq, true_and] at h
    obtain ⟨_, rfl⟩ := h
    simp
  | cons l ls ih =>
    have hf := total_step_plain_frame mem l rd g
    have he := total_step_plain_eq mem l rd g
    unfold total_loop_plain at h
    rcases hst : total_step_plain mem l rd g with ⟨ok, rd2, g2⟩
    rw [hst] at h hf he
    cases ok with
    | false => simp at h
    | true =>
      simp only at h
      obtain ⟨ih1, ih2⟩ := ih rd2 g2 h
      cases hc : channel_total_plain (mem.past_local l) (mem.past_projector l)
          g.g_r_mesh.length g.g_local_potential ((map_find g.g_projectors l).getD [])
          ((map_find rd.d_coefficients_ l).getD []) with
      | none => simp [hc] at he
      | some tot =>
        simp only [hc, Prod.mk.injEq, true_and] at he
        have hg2 : g2.g_total_potentials = map_assign g.g_total_potentials l tot := by
          rw [he.2]
        constructor
        · intro hk
          by_cases hm : k ∈ ls
          · obtain ⟨t, ht1, ht2⟩ := ih1 hm
            refine ⟨t, ht1, ?_⟩
            rw [hf.g_mesh, hf.g_local, hf.p_getD, hf.d_getD] at ht2
            exact ht2
          · have e : k = l := by
              rcases List.mem_cons.mp hk with e | hm1
              · exact e
              · exact absurd hm1 hm
            subst e
            refine ⟨tot, ?_, hc⟩
            rw [ih2 hm, hg2]
            exact map_find_assign_self _ _ _
        · intro hk
          have hm : k ∉ ls := fun hm => hk (List.mem_cons_of_mem _ hm)
          have hne : k ≠ l := fun e => hk (e ▸ List.mem_cons_self _ _)
          rw [ih2 hm, hg2]
          exact map_find_assign_ne _ _ _ _ hne

/-- The stages of a call of `parse_plain` that returns `true`. -/
theorem parse_plain_true (mem : Memory) (file : Option Document) (rd rd1 : UPFReader)
    (g g1 : Globals) (h : parse_plain mem file rd g = (Outcome.returned true, rd1, g1)) :
    ∃ doc rdA rdB gB gC,
      file = some doc ∧
      decode_sections doc { rd with d_coefficients_ := [] } = (true, rdA) ∧
      calculate_potentials rdA (publish rdA { g with g_upf_data_valid := false })
        = (true, rdB, gB) ∧
      total_loop_plain mem (gB.g_nonlocal_potentials.map Prod.fst) rdB
        { gB with g_total_potentials := [] } = (true, rd1, gC) ∧
      g1 = { gC with g_upf_data_valid := true } := by
  unfold parse_plain at h
  cases file with
  | none => simp at h
  | some doc =>
    simp only at h
    rcases hd : decode_sections doc { rd with d_coefficients_ := [] } with ⟨ok, rdA⟩
    rw [hd] at h
    cases ok with
    | false => simp at h
    | true =>
      simp only at h
      rcases hc : calculate_potentials rdA (publish rdA { g with g_upf_data_valid := false })
        with ⟨ok2, rdB, gB⟩
      rw [hc] at h
      cases ok2 with
      | false => simp at h
      | true =>
        simp only at h
        rcases ht : total_loop_plain mem (gB.g_nonlocal_potentials.map Prod.fst) rdB
          { gB with g_total_potentials := [] } with ⟨ok3, rdC, gC⟩
        rw [ht] at h
        cases ok3 with
        | false => simp at h
        | true =>
          simp only [Prod.mk.injEq, true_and] at h
          obtain ⟨rfl, rfl⟩ := h
          exact ⟨doc, rdA, rdB, gB, gC, rfl, hd, hc, ht, rfl⟩

theorem publish_orbitals_nonlocal (o : Orbitals) (m : List (Int × List GlobalOrbitalData))
    (orbs : List OrbitalData) (h : o.NONLOCAL = some orbs) :
    map_find (publish_orbitals o m) 1 = some (orbs.map to_global) := by
  unfold publish_orbitals
  simp only [h]
  cases o.WAVEFUNCTION with
  | none => exact map_find_assign_self _ _ _
  | some w =>
    simp only
    rw [map_find_assign_ne _ _ _ _ (by decide)]
    exact map_find_assign_self _ _ _

theorem parse_dij_nonlocal_some (doc : Document) (rd rd1 : UPFReader)
    (h : parse_dij doc rd = (true, rd1)) (hl : 0 ≤ rd.header_.l_max) :
    rd1.orbitals_.NONLOCAL = some (rd.orbitals_.NONLOCAL.getD []) := by
  unfold parse_dij at h
  cases ht : doc.nonlocal.bind (fun nl => nl.dij) with
  | none => simp [ht] at h
  | some toks =>
    simp only [ht] at h
    obtain ⟨_, _, f3⟩ := parse_dij_loop_frame (channels rd.header_.l_max) rd toks
    rw [h] at f3
    simp only at f3
    have hne : channels rd.header_.l_max ≠ [] := by
      unfold channels
      rw [Ne, List.range_eq_nil]
      omega
    rw [f3, if_neg hne]
    rfl

/-- The state after a call of `parse_plain` that returns `true`: the mesh, the
header and the nonlocal records are published, and every channel up to `l_max`
has a square matrix of the size of its projector count, its concatenated
projectors in `g_projectors`, and in `g_total_potentials` the total potential
that `channel_total_plain` computes. -/
theorem parse_plain_total (mem : Memory) (file : Option Document) (rd rd1 : UPFReader)
    (g g1 : Globals) (h : parse_plain mem file rd g = (Outcome.returned true, rd1, g1)) :
    g1.g_upf_data_valid = true ∧ g1.g_r_mesh = rd1.r_mesh_ ∧
    g1.g_upf_header.l_max = rd1.header_.l_max ∧
    get_local_potential rd1.orbitals_ = some g1.g_local_potential ∧
    ∀ l : Nat, (l : Int) ≤ rd1.header_.l_max →
      map_find g1.g_orbitals 1 = some ((rd1.orbitals_.NONLOCAL.getD []).map to_global) ∧
      (D rd1 l).length = n_proj rd1 l ∧
      (∀ row ∈ D rd1 l, row.length = n_proj rd1 l) ∧
      map_find rd1.d_coefficients_ (l : Int) = some (D rd1 l) ∧
      map_find g1.g_projectors (l : Int) = some (buffer rd1 l) ∧
      ∃ tot, map_find g1.g_total_potentials (l : Int) = some tot ∧
        channel_total_plain (mem.past_local (l : Int)) (mem.past_projector (l : Int))
          g1.g_r_mesh.length g1.g_local_potential (buffer rd1 l) (D rd1 l) = some tot := by
  obtain ⟨doc, rdA, rdB, gB, gC, rfl, hdec, hcalc, htot, rfl⟩ :=
    parse_plain_true _ _ _ _ _ _ h
  obtain ⟨_, _, hdij⟩ := decode_sections_true _ _ _ hdec
  obtain ⟨a1, a2, a3, a4, _⟩ := parse_dij_true _ _ _ hdij
  obtain ⟨pot, hpot, hloop⟩ := calculate_potentials_true _ _ _ _ hcalc
  obtain ⟨c1, c2, c3, c4, c5, c6, c7, c8, c9, c10, c11, c12⟩ :=
    calculate_potentials_loop_frame (channels rdA.header_.l_max) rdA
      { publish rdA { g with g_upf_data_valid := false } with g_local_potential := pot }
  rw [hloop] at c1 c2 c3 c4 c5 c6 c7 c8 c9 c10 c11 c12
  simp only at c1 c2 c3 c4 c5 c6 c7 c8 c9 c10 c11 c12
  obtain ⟨k1, k2, k3, k4⟩ := calculate_potentials_loop_true _ _ _ _ _ hloop
  have fr := total_loop_plain_frame mem (gB.g_nonlocal_potentials.map Prod.fst) rdB
    { gB with g_total_potentials := [] }
  rw [htot] at fr
  simp only at fr
  have hmesh : gC.g_r_mesh = rd1.r_mesh_ := by
    rw [fr.g_mesh, fr.r_mesh_, c9, c2]
    rfl
  have hloc : gC.g_local_potential = pot := by
    rw [fr.g_local, c11]
  have hhead : rd1.header_ = rdA.header_ := by rw [fr.header_, c1]
  have hrecs : rd1.orbitals_.NONLOCAL.getD [] = rdA.orbitals_.NONLOCAL.getD [] := by
    rw [fr.orbitals_, c6]
  refine ⟨rfl, hmesh, ?_, ?_, ?_⟩
  · show gC.g_upf_header.l_max = rd1.header_.l_max
    rw [fr.g_header, c8, hhead]
    rfl
  · show get_local_potential rd1.orbitals_ = some gC.g_local_potential
    rw [hloc, ← hpot]
    unfold get_local_potential
    rw [fr.orbitals_, c4]
  · intro l hl
    rw [hhead] at hl
    have hlA : (l : Int) ≤ (before_dij doc { rd with d_coefficients_ := [] }).header_.l_max := by
      rw [← a1]; exact hl
    obtain ⟨M, hM, hMlen, hMrows⟩ := parse_dij_square _ _ _ hdij l hlA
    have hMB : map_find rdB.d_coefficients_ (l : Int) = some M := by rw [c3]; exact hM
    have hM1 : map_find rd1.d_coefficients_ (l : Int) = some M := fr.d_some _ _ hMB
    have hD : D rd1 l = M := by
      unfold D
      rw [hM1]
      rfl
    have hn : n_proj rd1 l = M.length := by
      rw [hMlen, n_proj_eq, n_proj_eq, hrecs, a4]
    have hbuf : buffer rd1 l = combined_projectors (rdA.orbitals_.NONLOCAL.getD []) (l : Int) := by
      rw [buffer_eq, hrecs]
    have hpB : map_find gB.g_projectors (l : Int) = some (buffer rd1 l) := by
      rw [hbuf]
      exact k4 l ((mem_channels _ _).mpr hl)
    have hkey : (l : Int) ∈ gB.g_nonlocal_potentials.map Prod.fst :=
      k2 l ((mem_channels _ _).mpr hl)
    obtain ⟨tot, ht1, ht2⟩ := (total_loop_plain_true mem _ _ _ _ _ htot (l : Int)).1 hkey
    simp only at ht2
    rw [hpB, hMB] at ht2
    simp only [Option.getD_some] at ht2
    have hpub : map_find gC.g_orbitals 1
        = some ((rd1.orbitals_.NONLOCAL.getD []).map to_global) := by
      have hsome := parse_dij_nonlocal_some _ _ _ hdij (by omega)
      rw [fr.g_orbitals, c10, hrecs]
      show map_find (publish_orbitals rdA.orbitals_ g.g_orbitals) 1 = _
      rw [publish_orbitals_nonlocal _ _ _ hsome, hsome, ← a4, hsome]
      rfl
    refine ⟨hpub, by rw [hD, hn], ?_, by rw [hD]; exact hM1, fr.p_some _ _ hpB, tot, ht1, ?_⟩
    · intro row hrow
      rw [hD] at hrow
      rw [hn, hMlen]
      exact hMrows row hrow
    · show channel_total_plain _ _ gC.g_r_mesh.length gC.g_local_potential (buffer rd1 l)
        (D rd1 l) = some tot
      rw [hD, fr.g_mesh, fr.g_local]
      exact ht2

/-! ## Lemmas: where the plain build stops -/

theorem before_dij_d_coefficients (doc : Document) (rd : UPFReader) :
    (before_dij doc rd).d_coefficients_ = rd.d_coefficients_ := by
  have h1 : ∀ r, (parse_header doc r).2.d_coefficients_ = r.d_coefficients_ := by
    intro r
    unfold parse_header
    cases doc.header <;> rfl
  have h2 : ∀ r, (parse_mesh doc r).2.d_coefficients_ = r.d_coefficients_ := by
    intro r
    unfold parse_mesh
    cases doc.mesh <;> rfl
  have h3 : ∀ r, (parse_local doc r).2.d_coefficients_ = r.d_coefficients_ := by
    intro r
    unfold parse_local
    cases doc.localp with
    | none => rfl
    | some toks =>
      simp only
      split_ifs <;> rfl
  have h4 : ∀ r, (parse_nonlocal doc r).2.d_coefficients_ = r.d_coefficients_ := by
    intro r
    unfold parse_nonlocal
    cases doc.nonlocal <;> rfl
  have h5 : ∀ r, (parse_wavefunctions doc r).2.d_coefficients_ = r.d_coefficients_ := by
    intro r
    unfold parse_wavefunctions
    cases doc.chi <;> rfl
  unfold before_dij
  rw [h5, h4, h3, h2, h1]

/-- Every matrix that `d_coefficients_` holds after a successful `parse_dij` on a
reader whose `d_coefficients_` was empty is square. -/
theorem parse_dij_all_square (doc : Document) (rd rd1 : UPFReader)
    (h : parse_dij doc rd = (true, rd1)) (h0 : rd.d_coefficients_ = []) (k : Int) :
    ∀ row ∈ (map_find rd1.d_coefficients_ k).getD [],
      row.length = ((map_find rd1.d_coefficients_ k).getD []).length := by
  by_cases hk : 0 ≤ k ∧ k ≤ rd.header_.l_max
  · have e : ((k.toNat : Nat) : Int) = k := Int.toNat_of_nonneg hk.1
    obtain ⟨M, hM, hlen, hrows⟩ := parse_dij_square doc rd rd1 h k.toNat (by omega)
    rw [e] at hM
    rw [hM]
    intro row hrow
    rw [Option.getD_some] at hrow ⊢
    rw [hlen]
    exact hrows row hrow
  · have hnone : map_find rd1.d_coefficients_ k = none := by
      unfold parse_dij at h
      cases ht : doc.nonlocal.bind (fun nl => nl.dij) with
      | none => simp [ht] at h
      | some toks =>
        simp only [ht] at h
        rw [(parse_dij_loop_matrices _ rd rd1 toks h).1 k, h0]
        · rfl
        · intro l hl e
          have := (mem_channels _ _).mp hl
          omega
    rw [hnone]
    intro row hrow
    exact absurd hrow (List.not_mem_nil row)

/-- When the loop over the channels of the plain build stops, it stops in the
pass of a channel for which `channel_total_plain` has no result. -/
theorem total_loop_plain_false (mem : Memory) (ls : List Int) (rd rd1 : UPFReader)
    (g g1 : Globals) (h : total_loop_plain mem ls rd g = (false, rd1, g1)) :
    ∃ l ∈ ls, channel_total_plain (mem.past_local l) (mem.past_projector l) g.g_r_mesh.length
      g.g_local_potential ((map_find g.g_projectors l).getD [])
      ((map_find rd.d_coefficients_ l).getD []) = none := by
  induction ls generalizing rd g with
  | nil => simp [total_loop_plain] at h
  | cons l ls ih =>
    have hf := total_step_plain_frame mem l rd g
    have he := total_step_plain_eq mem l rd g
    unfold total_loop_plain at h
    rcases hst : total_step_plain mem l rd g with ⟨ok, rd2, g2⟩
    rw [hst] at h hf he
    cases hc : channel_total_plain (mem.past_local l) (mem.past_projector l)
        g.g_r_mesh.length g.g_local_potential ((map_find g.g_projectors l).getD [])
        ((map_find rd.d_coefficients_ l).getD []) with
    | none => exact ⟨l, List.mem_cons_self _ _, hc⟩
    | some tot =>
      cases ok with
      | false => simp [hc] at he
      | true =>
        simp only at h
        obtain ⟨k, hk, hnone⟩ := ih rd2 g2 h
        refine ⟨k, List.mem_cons_of_mem _ hk, ?_⟩
        rw [hf.g_mesh, hf.g_local, hf.p_getD, hf.d_getD] at hnone
        exact hnone

/-- A call of `parse_plain` ends as undefined only at the division by zero: in
the pass of the loop over the keys of `g_nonlocal_potentials` for a channel whose
coefficient matrix has no row (`n_proj = 0`). -/
theorem parse_plain_undefined (mem : Memory) (file : Option Document) (rd rd1 : UPFReader)
    (g g1 : Globals) (h : parse_plain mem file rd g = (Outcome.undefined, rd1, g1)) :
    ∃ l ∈ g1.g_nonlocal_potentials.map Prod.fst,
      (map_find rd1.d_coefficients_ l).getD [] = [] := by
  unfold parse_plain at h
  cases file with
  | none => simp at h
  | some doc =>
    simp only at h
    rcases hd : decode_sections doc { rd with d_coefficients_ := [] } with ⟨ok, rdA⟩
    rw [hd] at h
    cases ok with
    | false => simp at h
    | true =>
      simp only at h
      rcases hc : calculate_potentials rdA (publish rdA { g with g_upf_data_valid := false })
        with ⟨ok2, rdB, gB⟩
      rw [hc] at h
      cases ok2 with
      | false => simp at h
      | true =>
        simp only at h
        rcases ht : total_loop_plain mem (gB.g_nonlocal_potentials.map Prod.fst) rdB
          { gB with g_total_potentials := [] } with ⟨ok3, rdC, gC⟩
        rw [ht] at h
        cases ok3 with
        | true => simp at h
        | false =>
          simp only [Prod.mk.injEq, true_and] at h
          obtain ⟨rfl, rfl⟩ := h
          have fr := total_loop_plain_frame mem (gB.g_nonlocal_potentials.map Prod.fst) rdB
            { gB with g_total_potentials := [] }
          rw [ht] at fr
          simp only at fr
          obtain ⟨l, hl, hnone⟩ := total_loop_plain_false mem _ _ _ _ _ ht
          simp only at hnone
          obtain ⟨_, _, hdij⟩ := decode_sections_true _ _ _ hd
          obtain ⟨pot, _, hloop⟩ := calculate_potentials_true _ _ _ _ hc
          obtain ⟨_, _, c3, _⟩ :=
            calculate_potentials_loop_frame (channels rdA.header_.l_max) rdA
              { publish rdA { g with g_upf_data_valid := false } with g_local_potential := pot }
          rw [hloop] at c3
          simp only at c3
          have hsq := parse_dij_all_square doc _ rdA hdij
            (by rw [before_dij_d_coefficients]) l
          rw [← c3] at hsq
          refine ⟨l, by rw [fr.g_nonlocal]; exact hl, ?_⟩
          rw [fr.d_getD]
          by_contra hne
          have hpos : 0 < ((map_find rdB.d_coefficients_ l).getD []).length :=
            List.length_pos.mpr hne
          obtain ⟨tot, htot⟩ := channel_total_plain_of_square (mem.past_local l)
            (mem.past_projector l) gB.g_r_mesh.length gB.g_local_potential
            ((map_find gB.g_projectors l).getD []) _ hpos hsq
          rw [htot] at hnone
          exact Option.noConfusion hnone

/-! ## Lemmas: the two builds agree on the runs without a subscript past the end -/

theorem for_loop_mono {σ : Type} (body body1 : Nat → σ → Option σ)
    (h : ∀ k s s1, body k s = some s1 → body1 k s = some s1) (ks : List Nat) (s r : σ)
    (hr : for_loop body ks s = some r) : for_loop body1 ks s = some r := by
  induction ks generalizing s with
  | nil => exact hr
  | cons k ks ih =>
    unfold for_loop at hr ⊢
    cases hb : body k s with
    | none => simp [hb] at hr
    | some s1 =>
      simp only [hb] at hr
      rw [h k s s1 hb]
      exact ih s1 hr

theorem collect_points_mono (f f1 : Nat → Option ℚ)
    (h : ∀ r v, f r = some v → f1 r = some v) (rs : List Nat) (vs : List ℚ)
    (hv : collect_points f rs = some vs) : collect_points f1 rs = some vs := by
  induction rs generalizing vs with
  | nil => exact hv
  | cons r rs ih =>
    unfold collect_points at hv ⊢
    cases hf : f r with
    | none => simp [hf] at hv
    | some v =>
      simp only [hf] at hv
      cases hc : collect_points f rs with
      | none => simp [hc] at hv
      | some ws =>
        simp only [hc] at hv
        rw [h r v hf]
        simp only [ih ws hc]
        exact hv

theorem subscript_of_some (past : Nat → ℚ) (xs : List ℚ) (k : Nat) (v : ℚ)
    (h : xs[k]? = some v) : subscript past xs k = v := by
  unfold subscript
  rw [h]

theorem nonlocal_term_plain_of_checked (past : Nat → ℚ) (d : List (List ℚ)) (pv : List ℚ)
    (ppp r i j : Nat) (t : ℚ) (h : nonlocal_term d pv ppp r i j = some t) :
    nonlocal_term_plain past d pv ppp r i j = some t := by
  unfold nonlocal_term at h
  simp only [Option.bind_eq_bind, Option.bind_eq_some, Option.pure_def, Option.some.injEq] at h
  obtain ⟨row, hrow, c, hc, p, hp, q, hq, ht⟩ := h
  unfold nonlocal_term_plain
  simp only [Option.bind_eq_bind, Option.bind_eq_some, Option.pure_def, Option.some.injEq]
  exact ⟨row, hrow, c, hc, by
    rw [subscript_of_some past pv _ p hp, subscript_of_some past pv _ q hq, ht]⟩

/-- A total potential that the build with checked subscripts computes for a
channel is the one the plain build computes, whatever lies past the ends of the
vectors. -/
theorem channel_total_plain_of_checked (past_local : Nat → ℚ)
    (past_projector : Nat → Nat → Nat → Nat → ℚ) (m : Nat) (loc pv : List ℚ)
    (d : List (List ℚ)) (tot : List ℚ) (h : channel_total m loc pv d = some tot) :
    channel_total_plain past_local past_projector m loc pv d = some tot := by
  unfold channel_total at h
  unfold channel_total_plain
  by_cases hn : d.length = 0
  · simp [hn] at h
  · simp only [hn, if_false] at h ⊢
    refine collect_points_mono _ _ ?_ _ _ h
    intro r v hv
    unfold point_total at hv
    unfold point_total_plain
    cases hl : loc[r]? with
    | none => simp [hl] at hv
    | some v0 =>
      simp only [hl] at hv
      rw [subscript_of_some past_local loc r v0 hl]
      refine for_loop_mono _ _ ?_ _ _ _ hv
      intro i acc acc1 hi
      refine for_loop_mono _ _ ?_ _ _ _ hi
      intro j a a1 hj
      cases ht : nonlocal_term d pv (pv.length / d.length) r i j with
      | none => simp [ht] at hj
      | some t =>
        simp only [ht] at hj
        simp only [nonlocal_term_plain_of_checked (past_projector r i j) d pv _ r i j t ht]
        exact hj

theorem total_loop_plain_of_checked (mem : Memory) (ls : List Int) (rd rd1 : UPFReader)
    (g g1 : Globals) (h : total_loop ls rd g = (true, rd1, g1)) :
    total_loop_plain mem ls rd g = (true, rd1, g1) := by
  induction ls generalizing rd g with
  | nil => exact h
  | cons l ls ih =>
    unfold total_loop at h
    unfold total_loop_plain
    have he := total_step_eq l rd g
    have hp := total_step_plain_eq mem l rd g
    cases hc : channel_total g.g_r_mesh.length g.g_local_potential
        ((map_find g.g_projectors l).getD []) ((map_find rd.d_coefficients_ l).getD []) with
    | none =>
      rw [hc] at he
      simp only at he
      rw [he] at h
      simp at h
    | some tot =>
      rw [hc] at he
      rw [channel_total_plain_of_checked _ _ _ _ _ _ tot hc] at hp
      simp only at he hp
      rw [he] at h
      rw [hp]
      simp only at h ⊢
      exact ih _ _ h

/-- The runs of the build with checked subscripts that do not stop at a
subscript or at the division by zero are runs of the plain build, with the same
outcome and the same state, whatever lies past the ends of the vectors. -/
theorem parse_plain_of_checked (mem : Memory) (file : Option Document) (rd : UPFReader)
    (g : Globals) (h : (parse file rd g).1 ≠ Outcome.undefined) :
    parse_plain mem file rd g = parse file rd g := by
  unfold parse at h ⊢
  unfold parse_plain
  cases file with
  | none => rfl
  | some doc =>
    simp only at h ⊢
    rcases hd : decode_sections doc { rd with d_coefficients_ := [] } with ⟨ok, rdA⟩
    rw [hd] at h
    cases ok with
    | false => rfl
    | true =>
      simp only at h ⊢
      rcases hc : calculate_potentials rdA (publish rdA { g with g_upf_data_valid := false })
        with ⟨ok2, rdB, gB⟩
      rw [hc] at h
      cases ok2 with
      | false => rfl
      | true =>
        simp only at h ⊢
        rcases ht : total_loop (gB.g_nonlocal_potentials.map Prod.fst) rdB
          { gB with g_total_potentials := [] } with ⟨ok3, rdC, gC⟩
        rw [ht] at h
        cases ok3 with
        | false => simp at h
        | true =>
          rw [total_loop_plain_of_checked mem _ _ _ _ _ ht]

/-! ## C1: the formula of the total potential -/

/-- C1: after every successful parse, every channel `l` in `0..l_max` has
`n_proj(l) > 0` nonlocal records, which are the published ones; its coefficient
matrix is square of that size; `g_projectors[l]` is the buffer of the
specification, the concatenation in discovery order of the projectors of the
records with that `l`; the published local potential is the one of the reader;
and `g_total_potentials[l]` has one entry per mesh point, the entry at mesh
index `r` being
`local_potential[r] + Σ_i Σ_j D[l][i][j] * buffer[i*ppp + r] * buffer[j*ppp + r]`
with `ppp = len(buffer) / n_proj(l)`. The subscripts are read as the code reads
them (`spec_total_read`); when they are within range, that is the formula of the
specification as it stands (`spec_total`). -/
theorem total_potential_formula (mem : Memory) (file : Option Document) (rd rd1 : UPFReader)
    (g g1 : Globals) (h : parse_plain mem file rd g = (Outcome.returned true, rd1, g1))
    (l : Nat) (hl : (l : Int) ≤ g1.g_upf_header.l_max) :
    0 < n_proj rd1 l ∧
    map_find g1.g_orbitals 1 = some ((rd1.orbitals_.NONLOCAL.getD []).map to_global) ∧
    (D rd1 l).length = n_proj rd1 l ∧
    (∀ row ∈ D rd1 l, row.length = n_proj rd1 l) ∧
    map_find g1.g_projectors (l : Int) = some (buffer rd1 l) ∧
    get_local_potential rd1.orbitals_ = some g1.g_local_potential ∧
    ∃ total, map_find g1.g_total_potentials (l : Int) = some total ∧
      total.length = g1.g_r_mesh.length ∧
      ∀ r < g1.g_r_mesh.length,
        total[r]? = some
          (spec_total_read (mem.past_local (l : Int)) (mem.past_projector (l : Int) r)
            g1.g_local_potential (buffer rd1 l) (D rd1 l) (n_proj rd1 l) r) ∧
        (r < g1.g_local_potential.length →
          (∀ i < n_proj rd1 l, i * ((buffer rd1 l).length / n_proj rd1 l) + r
            < (buffer rd1 l).length) →
          total[r]? = some
            (spec_total g1.g_local_potential (buffer rd1 l) (D rd1 l) (n_proj rd1 l) r)) := by
  obtain ⟨_, _, hmax, hloc, hch⟩ := parse_plain_total mem file rd rd1 g g1 h
  rw [hmax] at hl
  obtain ⟨hpub, hDlen, hrows, _, hp, tot, ht, hc⟩ := hch l hl
  obtain ⟨hpos, hlen, hpt⟩ := channel_total_plain_some _ _ _ _ _ _ _ hc
  rw [hDlen] at hpos hpt
  refine ⟨hpos, hpub, hDlen, hrows, hp, hloc, tot, ht, hlen, ?_⟩
  intro r hr
  refine ⟨hpt r hr, ?_⟩
  intro hr1 hb
  rw [hpt r hr, spec_total_read_eq _ _ _ _ _ _ _ hr1 hb]

/-- C1, on a run with two records in channel 0: a reader that has read a file
with the beta `[0.5, 0.4, 0.3]` reads a file with the beta `[1, 2, 3]` and the
coefficients `1 2 3 4`. Then `n_proj(0) = 2`, the buffer is the two projectors
in the order they were read, `D[0] = [[1, 2], [3, 4]]`, and the total potential
is `[5.75, 18.16, 37.59]`. On the scenario of the specification with
`l_max = 0` the total potential is `[-0.5, -1.68, -2.82]`. On a projector of one
sample and a mesh of three points the run completes as well, two of the three
entries being computed from what lies past the end of the buffer. -/
theorem total_potential_formula_witness :
    run_second_beta.1 = Outcome.returned true ∧
    ((0 : Nat) : Int) ≤ run_second_beta.2.2.g_upf_header.l_max ∧
    n_proj run_second_beta.2.1 0 = 2 ∧
    buffer run_second_beta.2.1 0 = [1/2, 2/5, 3/10, 1, 2, 3] ∧
    D run_second_beta.2.1 0 = [[1, 2], [3, 4]] ∧
    run_second_beta.2.2.g_r_mesh = [1/10, 1/5, 3/10] ∧
    run_second_beta.2.2.g_local_potential = [-1, -2, -3] ∧
    map_find run_second_beta.2.2.g_total_potentials 0 = some [23/4, 454/25, 3759/100] ∧
    (∀ r < 3, ([23/4, 454/25, 3759/100] : List ℚ)[r]? = some
      (spec_total [-1, -2, -3] [1/2, 2/5, 3/10, 1, 2, 3] [[1, 2], [3, 4]] 2 r)) ∧
    (parse_plain Memory.zero (some (scenario 0)) UPFReader.fresh Globals.initial).1
      = Outcome.returned true ∧
    (parse_plain Memory.zero (some (scenario 0)) UPFReader.fresh
      Globals.initial).2.2.g_total_potentials = [(0, [-1/2, -42/25, -141/50])] ∧
    (parse_plain Memory.one
      (some (scenario_with [Token.num (1/10), Token.num (1/5), Token.num (3/10)]
        [Token.num (1/2)] [Token.num 2])) UPFReader.fresh Globals.initial).1
      = Outcome.returned true ∧
    (parse_plain Memory.one
      (some (scenario_with [Token.num (1/10), Token.num (1/5), Token.num (3/10)]
        [Token.num (1/2)] [Token.num 2])) UPFReader.fresh
      Globals.initial).2.2.g_total_potentials = [(0, [-1/2, 0, -1])] ∧
    (0 < n_proj run_second_beta.2.1 0 ∧
    map_find run_second_beta.2.2.g_orbitals 1
      = some ((run_second_beta.2.1.orbitals_.NONLOCAL.getD []).map to_global) ∧
    (D run_second_beta.2.1 0).length = n_proj run_second_beta.2.1 0 ∧
    (∀ row ∈ D run_second_beta.2.1 0, row.length = n_proj run_second_beta.2.1 0) ∧
    map_find run_second_beta.2.2.g_projectors ((0 : Nat) : Int)
      = some (buffer run_second_beta.2.1 0) ∧
    get_local_potential run_second_beta.2.1.orbitals_
      = some run_second_beta.2.2.g_local_potential ∧
    ∃ total, map_find run_second_beta.2.2.g_total_potentials ((0 : Nat) : Int) = some total ∧
      total.length = run_second_beta.2.2.g_r_mesh.length ∧
      ∀ r < run_second_beta.2.2.g_r_mesh.length,
        total[r]? = some
          (spec_total_read (Memory.zero.past_local ((0 : Nat) : Int))
            (Memory.zero.past_projector ((0 : Nat) : Int) r)
            run_second_beta.2.2.g_local_potential (buffer run_second_beta.2.1 0)
            (D run_second_beta.2.1 0) (n_proj run_second_beta.2.1 0) r) ∧
        (r < run_second_beta.2.2.g_local_potential.length →
          (∀ i < n_proj run_second_beta.2.1 0,
            i * ((buffer run_second_beta.2.1 0).length / n_proj run_second_beta.2.1 0) + r
              < (buffer run_second_beta.2.1 0).length) →
          total[r]? = some
            (spec_total run_second_beta.2.2.g_local_potential (buffer run_second_beta.2.1 0)
              (D run_second_beta.2.1 0) (n_proj run_second_beta.2.1 0) r))) :=
  ⟨by decide!, by decide!, by decide!, by decide!, by decide!, by decide!, by decide!,
    by decide!, by decide!, by decide!, by decide!, by decide!, by decide!,
    total_potential_formula Memory.zero (some scenario_second_beta) reader_after_first_version
      _ Globals.initial _ (Prod.ext (by decide!) rfl) 0 (by decide!)⟩

/-! ## C3: all-zero coefficient matrices -/

/-- With an all-zero matrix the formula, read as the plain build reads it, is
the local potential at that index, whatever the buffer holds and whatever lies
past its end. -/
theorem spec_total_read_zero (past_local : Nat → ℚ) (past_projector : Nat → Nat → Nat → ℚ)
    (loc buf : List ℚ) (d : List (List ℚ)) (n r : Nat)
    (hz : ∀ row ∈ d, ∀ c ∈ row, c = 0) :
    spec_total_read past_local past_projector loc buf d n r = subscript past_local loc r := by
  unfold spec_total_read
  simp only [zero_entry d hz, zero_mul, Finset.sum_const_zero, add_zero]

/-- After every successful parse, a channel `l` in `0..l_max` whose coefficient
matrix is all-zero has as total potential the local potential at every mesh
index, whatever the values and the length of its projector buffer. (The matrix
of such a channel has at least one row: a parse in which a channel has the empty
matrix does not succeed.) -/
theorem zero_matrix_total_plain (mem : Memory) (file : Option Document) (rd rd1 : UPFReader)
    (g g1 : Globals) (h : parse_plain mem file rd g = (Outcome.returned true, rd1, g1))
    (l : Nat) (hl : (l : Int) ≤ g1.g_upf_header.l_max)
    (hz : ∀ row ∈ D rd1 l, ∀ c ∈ row, c = 0) :
    0 < (D rd1 l).length ∧
    ∃ total, map_find g1.g_total_potentials (l : Int) = some total ∧
      total.length = g1.g_r_mesh.length ∧
      (∀ r < g1.g_r_mesh.length,
        total[r]? = some (subscript (mem.past_local (l : Int)) g1.g_local_potential r)) ∧
      (g1.g_r_mesh.length ≤ g1.g_local_potential.length →
        total = g1.g_local_potential.take g1.g_r_mesh.length) := by
  obtain ⟨_, _, hmax, _, hch⟩ := parse_plain_total mem file rd rd1 g g1 h
  rw [hmax] at hl
  obtain ⟨_, _, _, _, _, tot, ht, hc⟩ := hch l hl
  obtain ⟨hpos, hlen, hpt⟩ := channel_total_plain_some _ _ _ _ _ _ _ hc
  have hread : ∀ r < g1.g_r_mesh.length,
      tot[r]? = some (subscript (mem.past_local (l : Int)) g1.g_local_potential r) := by
    intro r hr
    rw [hpt r hr, spec_total_read_zero _ _ _ _ _ _ _ hz]
  refine ⟨hpos, tot, ht, hlen, hread, ?_⟩
  intro hle
  apply List.ext_getElem?
  intro r
  by_cases hr : r < g1.g_r_mesh.length
  · rw [hread r hr, List.getElem?_take_of_lt hr, subscript_of_lt _ _ _ (by omega),
      List.getD_eq_getElem?_getD, List.getElem?_eq_getElem (by omega)]
    rfl
  · have h1 : tot[r]? = none := List.getElem?_eq_none (by omega)
    have h2 : (g1.g_local_potential.take g1.g_r_mesh.length)[r]? = none :=
      List.getElem?_eq_none (by
        rw [List.length_take]
        omega)
    rw [h1, h2]

/-- On the scenario with the matrix `[[0]]` and a projector of one sample on a
mesh of three points, with ones past the end of the buffer: the parse succeeds
and the total potential of channel 0 is the local potential `[-1, -2, -3]`. -/
theorem zero_matrix_total_plain_witness :
    D (parse_plain Memory.one (some scenario_short_projector) UPFReader.fresh
      Globals.initial).2.1 0 = [[0]] ∧
    buffer (parse_plain Memory.one (some scenario_short_projector) UPFReader.fresh
      Globals.initial).2.1 0 = [1/2] ∧
    (parse_plain Memory.one (some scenario_short_projector) UPFReader.fresh
      Globals.initial).2.2.g_r_mesh = [1/10, 1/5, 3/10] ∧
    (parse_plain Memory.one (some scenario_short_projector) UPFReader.fresh
      Globals.initial).2.2.g_local_potential = [-1, -2, -3] ∧
    (parse_plain Memory.one (some scenario_zero) UPFReader.fresh
      Globals.initial).2.2.g_total_potentials = [(0, [-1, -2, -3])] ∧
    ∃ total,
      map_find (parse_plain Memory.one (some scenario_short_projector) UPFReader.fresh
        Globals.initial).2.2.g_total_potentials ((0 : Nat) : Int) = some total ∧
      total = (parse_plain Memory.one (some scenario_short_projector) UPFReader.fresh
        Globals.initial).2.2.g_local_potential.take
          (parse_plain Memory.one (some scenario_short_projector) UPFReader.fresh
            Globals.initial).2.2.g_r_mesh.length := by
  obtain ⟨_, total, h1, _, _, h2⟩ :=
    zero_matrix_total_plain Memory.one (some scenario_short_projector) UPFReader.fresh _
      Globals.initial _ (Prod.ext (by decide!) rfl) 0 (by decide!) (by decide!)
  exact ⟨by decide!, by decide!, by decide!, by decide!, by decide!, total, h1,
    h2 (by decide!)⟩

/-- C3, evaluated on the round-trip scenario of the specification (`l_max = 1`,
one beta at `l = 0`, none at `l = 1`) with the coefficient stream `0`. Both
coefficient matrices are all-zero: `D[0] = [[0]]` and `D[1]` is the empty
matrix. The pass of the loop of `parse` for channel 0 stores the local potential
`[-1, -2, -3]`, as the claim says; the pass for channel 1 divides by
`n_proj = 0`: the call does not return, channel 1 gets no total potential and
the validity flag stays false, in both builds. With a matrix of at least one
row the claim holds: on a projector of one sample and the matrix `[[0]]` the
plain build reads past the end of the buffer and stores the local potential. -/
theorem zero_matrix_without_projector :
    D (parse_plain Memory.one (some scenario_zero_round_trip) UPFReader.fresh
      Globals.initial).2.1 0 = [[0]] ∧
    D (parse_plain Memory.one (some scenario_zero_round_trip) UPFReader.fresh
      Globals.initial).2.1 1 = [] ∧
    (∀ row ∈ D (parse_plain Memory.one (some scenario_zero_round_trip) UPFReader.fresh
      Globals.initial).2.1 1, ∀ c ∈ row, c = 0) ∧
    (parse_plain Memory.one (some scenario_zero_round_trip) UPFReader.fresh
      Globals.initial).2.2.g_local_potential = [-1, -2, -3] ∧
    (parse_plain Memory.one (some scenario_zero_round_trip) UPFReader.fresh Globals.initial).1
      = Outcome.undefined ∧
    (parse_plain Memory.one (some scenario_zero_round_trip) UPFReader.fresh
      Globals.initial).2.2.g_total_potentials = [(0, [-1, -2, -3])] ∧
    map_find (parse_plain Memory.one (some scenario_zero_round_trip) UPFReader.fresh
      Globals.initial).2.2.g_total_potentials 1 = none ∧
    (parse_plain Memory.one (some scenario_zero_round_trip) UPFReader.fresh
      Globals.initial).2.2.g_upf_data_valid = false ∧
    (parse (some scenario_zero_round_trip) UPFReader.fresh Globals.initial).1
      = Outcome.undefined ∧
    map_find (parse (some scenario_zero_round_trip) UPFReader.fresh
      Globals.initial).2.2.g_total_potentials 1 = none ∧
    channel_total_plain (Memory.one.past_local 1) (Memory.one.past_projector 1) 3
      [-1, -2, -3] [] [] = none ∧
    (parse_plain Memory.one (some scenario_short_projector) UPFReader.fresh Globals.initial).1
      = Outcome.returned true ∧
    (parse_plain Memory.one (some scenario_short_projector) UPFReader.fresh
      Globals.initial).2.2.g_projectors = [(0, [1/2])] ∧
    (parse_plain Memory.one (some scenario_short_projector) UPFReader.fresh
      Globals.initial).2.2.g_total_potentials = [(0, [-1, -2, -3])] := by
  refine ⟨by decide!, by decide!, ?_, by decide!, by decide!, by decide!, by decide!,
    by decide!, by decide!, by decide!, by decide!, by decide!, by decide!, by decide!⟩
  have hD : D (parse_plain Memory.one (some scenario_zero_round_trip) UPFReader.fresh
      Globals.initial).2.1 1 = [] := by decide!
  rw [hD]
  intro row hrow
  exact absurd hrow (List.not_mem_nil row)

/-! ## C6: fields that are not reals -/

/-- The reading loop on a stream whose first field that is not entirely a real
is `stop`: the reals of the fields before it, and the real at its head when it
starts with one. -/
theorem read_values_stop (vals : List ℚ) (stop : Token) (rest : List Token)
    (hstop : ∀ v, stop ≠ Token.num v) :
    read_values (vals.map Token.num ++ stop :: rest) = vals ++ (token_value stop).toList := by
  induction vals with
  | nil =>
    cases stop with
    | num v => exact absurd rfl (hstop v)
    | lead v => simp [read_values, token_value]
    | bad => simp [read_values, token_value]
  | cons v vs ih => simp [read_values, ih]

/-- C6 as stated fails: with a second field in the mesh that is not a real the
parse succeeds, in both builds, and the validity flag is true. When the field
does not start with a real the mesh is cut down to the one value before it; when
it starts with one, as `0.2x` does, that real is decoded too and the mesh is cut
after it. A coefficient block whose one field is `2x` supplies the coefficient
`2`. -/
theorem malformed_mesh_token_accepted :
    scenario_bad_mesh.mesh
      = some [Token.num (1/10), Token.bad, Token.num (1/5), Token.num (3/10)] ∧
    (parse (some scenario_bad_mesh) UPFReader.fresh Globals.initial).1 = Outcome.returned true ∧
    (parse (some scenario_bad_mesh) UPFReader.fresh Globals.initial).2.2.g_upf_data_valid = true ∧
    (parse (some scenario_bad_mesh) UPFReader.fresh Globals.initial).2.2.g_r_mesh = [1/10] ∧
    (parse_plain Memory.zero (some scenario_bad_mesh) UPFReader.fresh Globals.initial).1
      = Outcome.returned true ∧
    (parse_plain Memory.zero (some scenario_bad_mesh) UPFReader.fresh
      Globals.initial).2.2.g_r_mesh = [1/10] ∧
    scenario_lead_mesh.mesh
      = some [Token.num (1/10), Token.lead (1/5), Token.num (3/10)] ∧
    (parse (some scenario_lead_mesh) UPFReader.fresh Globals.initial).1 = Outcome.returned true ∧
    (parse (some scenario_lead_mesh) UPFReader.fresh Globals.initial).2.2.g_upf_data_valid
      = true ∧
    (parse (some scenario_lead_mesh) UPFReader.fresh Globals.initial).2.2.g_r_mesh
      = [1/10, 1/5] ∧
    (parse_plain Memory.zero (some scenario_lead_mesh) UPFReader.fresh Globals.initial).1
      = Outcome.returned true ∧
    (parse_plain Memory.zero (some scenario_lead_mesh) UPFReader.fresh
      Globals.initial).2.2.g_r_mesh = [1/10, 1/5] ∧
    (parse (some scenario_lead_coefficient) UPFReader.fresh Globals.initial).1
      = Outcome.returned true ∧
    (parse (some scenario_lead_coefficient) UPFReader.fresh Globals.initial).2.1.d_coefficients_
      = [(0, [[2]])] := by
  decide!

/-- C6, amended: a field `stop` that is not a real ends the sequence of its
section without an error. The values decoded are the reals of the fields before
it, followed by the real at the head of `stop` when it starts with one; the
mesh, local-potential, nonlocal and wavefunction decoders succeed, with the
mesh, the local potential, the beta (and the projector it stands for), the
explicit projector and the wavefunction cut there; the coefficient block decoder
fails only when fewer than the needed sum of `n_proj(l)^2` values are decoded
that way. -/
theorem malformed_token_truncates (doc : Document) (rd : UPFReader) (vals : List ℚ)
    (stop : Token) (rest : List Token) (hstop : ∀ v, stop ≠ Token.num v) :
    read_values (vals.map Token.num ++ stop :: rest) = vals ++ (token_value stop).toList ∧
    (parse_local doc rd).1 = true ∧ (parse_nonlocal doc rd).1 = true ∧
    (parse_wavefunctions doc rd).1 = true ∧
    (doc.mesh = some (vals.map Token.num ++ stop :: rest) →
      parse_mesh doc rd
        = (true, { rd with r_mesh_ := rd.r_mesh_ ++ (vals ++ (token_value stop).toList) })) ∧
    (doc.localp = some (vals.map Token.num ++ stop :: rest) →
      vals ++ (token_value stop).toList ≠ [] →
      parse_local doc rd = (true, { rd with
        orbitals_ := rd.orbitals_.push_local ⟨vals ++ (token_value stop).toList, [], 0⟩ })) ∧
    (∀ (nl : NonlocalNode) (l : Nat),
      nl.beta (l + 1) = some (vals.map Token.num ++ stop :: rest) →
      nl.proj (l + 1) = none → vals ++ (token_value stop).toList ≠ [] →
      parse_nonlocal_channel nl rd.orbitals_ l =
        rd.orbitals_.push_nonlocal
          { values := vals ++ (token_value stop).toList
            projector := vals ++ (token_value stop).toList, l := (l : Int) }) ∧
    (∀ (nl : NonlocalNode) (l : Nat) (beta_toks : List Token),
      nl.beta (l + 1) = some beta_toks → read_values beta_toks ≠ [] →
      nl.proj (l + 1) = some (vals.map Token.num ++ stop :: rest) →
      parse_nonlocal_channel nl rd.orbitals_ l =
        rd.orbitals_.push_nonlocal
          { values := read_values beta_toks
            projector := vals ++ (token_value stop).toList, l := (l : Int) }) ∧
    (∀ (chi : ChiNode) (l : Nat),
      chi.wfc (l + 1) = some (vals.map Token.num ++ stop :: rest) →
      vals ++ (token_value stop).toList ≠ [] →
      parse_wavefunctions_channel chi rd.orbitals_ l =
        rd.orbitals_.push_wavefunction
          { values := vals ++ (token_value stop).toList, projector := [], l := (l : Int) }) ∧
    (doc.nonlocal.bind (fun nl => nl.dij) = some (vals.map Token.num ++ stop :: rest) →
      ((parse_dij doc rd).1 = true ↔
        ∑ l in Finset.range (rd.header_.l_max + 1).toNat, n_proj rd l ^ 2
          ≤ (vals ++ (token_value stop).toList).length)) := by
  have hv := read_values_stop vals stop rest hstop
  refine ⟨hv, parse_local_ok doc rd, parse_nonlocal_ok doc rd, parse_wavefunctions_ok doc rd,
    ?_, ?_, ?_, ?_, ?_, ?_⟩
  · intro hm
    simp only [parse_mesh, hm, hv]
  · intro hl hne
    simp only [parse_local, hl, hv]
    rw [if_pos hne]
  · intro nl l hb hp hne
    simp only [parse_nonlocal_channel, hb, hp, hv]
    rw [if_pos hne]
  · intro nl l beta_toks hb hne hp
    simp only [parse_nonlocal_channel, hb, hp, hv]
    rw [if_pos hne]
  · intro chi l hw hne
    simp only [parse_wavefunctions_channel, hw, hv]
    rw [if_pos hne]
  · intro hd
    unfold parse_dij
    rw [hd]
    simp only
    rw [parse_dij_loop_ok_iff, hv]
    unfold channels
    rw [tokens_needed_range_n_proj]

/-- C6 amended, on the mesh `0.1 0.2x 0.3`: the mesh decoder succeeds with the
value before the field `0.2x` and the real at its head; and on the mesh
`0.1 x 0.2 0.3`: it succeeds with the one value before the field `x`. -/
theorem malformed_token_truncates_witness :
    (∀ v, Token.lead (1/5) ≠ Token.num v) ∧
    scenario_lead_mesh.mesh
      = some ([(1/10 : ℚ)].map Token.num ++ Token.lead (1/5) :: [Token.num (3/10)]) ∧
    parse_mesh scenario_lead_mesh UPFReader.fresh
      = (true, { UPFReader.fresh with r_mesh_ := UPFReader.fresh.r_mesh_ ++
          ([1/10] ++ (token_value (Token.lead (1/5))).toList) }) ∧
    (parse_mesh scenario_lead_mesh UPFReader.fresh).2.r_mesh_ = [1/10, 1/5] ∧
    parse_mesh scenario_bad_mesh UPFReader.fresh
      = (true, { UPFReader.fresh with r_mesh_ := UPFReader.fresh.r_mesh_ ++
          ([1/10] ++ (token_value Token.bad).toList) }) ∧
    (parse_mesh scenario_bad_mesh UPFReader.fresh).2.r_mesh_ = [1/10] :=
  ⟨fun v hv => Token.noConfusion hv, rfl,
    (malformed_token_truncates scenario_lead_mesh UPFReader.fresh [1/10] (Token.lead (1/5))
      [Token.num (3/10)] (fun v hv => Token.noConfusion hv)).2.2.2.2.1 rfl,
    by decide!,
    (malformed_token_truncates scenario_bad_mesh UPFReader.fresh [1/10] Token.bad
      [Token.num (1/5), Token.num (3/10)] (fun v hv => Token.noConfusion hv)).2.2.2.2.1 rfl,
    by decide!⟩

/-! ## C14: the division `len(buffer) / n_proj` -/

end UPF
